import Mathlib

/-!
Verification of the NAP2 time-height series alignment engine.

This file gives a shallow embedding, over exact rational arithmetic, of the
functions in PeilmerkDB/interpolatefunctions.py and PeilmerkDB/calcalignment.py,
and proves or refutes the properties claimed of them.  A time-height series is a
list of (t, z) pairs; a series collection is an insertion-ordered association
list from string keys to series, mirroring a Python dict.  Fallible Python code
(IndexError, ZeroDivisionError, KeyError, AssertionError, raised exceptions) is
modelled with Option / Except return types.
-/

namespace NAP

/-- Time component of entry i of a series; models the Python expression
tzPairs[i][0] (the default value is only returned outside the list bounds,
where Python would raise, and is never reached on the verified paths). -/
def tAt (l : List (ℚ × ℚ)) (i : Nat) : ℚ := (l.getD i (0, 0)).1

/-- Height component of entry i of a series; models tzPairs[i][1]. -/
def zAt (l : List (ℚ × ℚ)) (i : Nat) : ℚ := (l.getD i (0, 0)).2

/-- The bisection loop shared by GetClosest and Interpolate
(interpolatefunctions.py lines 36-42 and 89-95):
while abs(i9-i0)>1: imid=int(0.5*(i0+i9)); if x[imid]<t: i0=imid else: i9=imid.
The loop runs at most |i9-i0| times, so any fuel of at least that size gives
the loop's exact result. -/
def bisect (l : List (ℚ × ℚ)) (t : ℚ) : Nat → Nat × Nat → Nat × Nat
  | 0, p => p
  | fuel + 1, (i0, i9) =>
    if 1 < max i0 i9 - min i0 i9 then
      let imid := (i0 + i9) / 2
      if tAt l imid < t then bisect l t fuel (imid, i9) else bisect l t fuel (i0, imid)
    else (i0, i9)

/-- GetClosest from interpolatefunctions.py (lines 6-48).  Returns none exactly
when the Python code would raise IndexError (empty input). -/
def GetClosest (tzPairs : List (ℚ × ℚ)) (t : ℚ) : Option (ℚ × ℚ) :=
  let nx := tzPairs.length
  if nx < 2 then tzPairs.head?
  else
    let desc := tAt tzPairs 0 > tAt tzPairs (nx - 1)
    let i0 := if desc then nx - 1 else 0
    let i9 := if desc then 0 else nx - 1
    let xmin := tAt tzPairs i0
    let xmax := tAt tzPairs i9
    if t ≤ xmin then some (tzPairs.getD i0 (0, 0))
    else if t ≥ xmax then some (tzPairs.getD i9 (0, 0))
    else
      let ab := bisect tzPairs t nx (i0, i9)
      let x1 := tAt tzPairs ab.1
      let x2 := tAt tzPairs ab.2
      some (if |t - x1| < |t - x2| then tzPairs.getD ab.1 (0, 0) else tzPairs.getD ab.2 (0, 0))

/-- Interpolate from interpolatefunctions.py (lines 51-104).  Returns none when
the Python code would raise: IndexError on empty input, ZeroDivisionError when
the two bracketing times coincide (duplicate times). -/
def Interpolate (tzPairs : List (ℚ × ℚ)) (t : ℚ) (extrapol : Bool) : Option ℚ :=
  let nx := tzPairs.length
  if nx < 2 then tzPairs.head?.map Prod.snd
  else
    let desc := tAt tzPairs 0 > tAt tzPairs (nx - 1)
    let i0 := if desc then nx - 1 else 0
    let i9 := if desc then 0 else nx - 1
    let xmin := tAt tzPairs i0
    let xmax := tAt tzPairs i9
    if extrapol = false ∧ t ≤ xmin then some (zAt tzPairs i0)
    else if extrapol = false ∧ t ≥ xmax then some (zAt tzPairs i9)
    else
      let ab := bisect tzPairs t nx (i0, i9)
      let y1 := zAt tzPairs ab.1
      let y2 := zAt tzPairs ab.2
      let x1 := tAt tzPairs ab.1
      let x2 := tAt tzPairs ab.2
      if x2 - x1 = 0 then none
      else some (y1 + (y2 - y1) / (x2 - x1) * (t - x1))

/-- Errors of CalcAlignment: the NoOverlapException raised at
calcalignment.py line 729, and the ZeroDivisionError / IndexError that the
interpreter itself can raise inside the walk on degenerate inputs. -/
inductive CAErr where
  | noOverlap : CAErr
  | divByZero : CAErr
  | indexError : CAErr
deriving DecidableEq, Repr

/-- State of the merge-walk loop of CalcAlignment (calcalignment.py lines
638-711): the two cursor indices i1/i2, the previously passed point of each
series ((tL1,zL1) and (tL2,zL2), None before the first step), the current
points (t1,z1) and (t2,z2), and the accumulated (t, dz) samples. -/
structure CAState where
  i1 : Nat
  i2 : Nat
  tL1 : Option (ℚ × ℚ)
  cur1 : ℚ × ℚ
  tL2 : Option (ℚ × ℚ)
  cur2 : ℚ × ℚ
  dtz : List (ℚ × ℚ)
deriving DecidableEq, Repr

/-- The while-loop of CalcAlignment (calcalignment.py lines 651-711).  One
recursive call per iteration; every iteration advances i1 or i2, so fuel
d1.length + d2.length + 1 always reaches the break.  Line 678 of the source
reads tzData2[i1] (not i2) when advancing the second series; this is kept
as-is, including the IndexError it can cause when i1 is past the end of
tzData2. -/
def walk (d1 d2 : List (ℚ × ℚ)) : Nat → CAState → Except CAErr CAState
  | 0, s => .ok s
  | fuel + 1, s =>
    let t1 := s.cur1.1
    let z1 := s.cur1.2
    let t2 := s.cur2.1
    let z2 := s.cur2.2
    if t1 < t2 then
      let dtzE : Except CAErr (List (ℚ × ℚ)) :=
        match s.tL2 with
        | some q =>
          if t2 - q.1 = 0 then .error .divByZero
          else .ok (s.dtz ++ [(t1, ((t1 - q.1) / (t2 - q.1) * (z2 - q.2) + q.2) - z1)])
        | none => .ok s.dtz
      match dtzE with
      | .error e => .error e
      | .ok dtz2 =>
        if s.i1 + 1 ≥ d1.length then
          .ok { s with i1 := s.i1 + 1, tL1 := some (t1, z1), dtz := dtz2 }
        else
          walk d1 d2 fuel { s with i1 := s.i1 + 1, tL1 := some (t1, z1),
                                   cur1 := d1.getD (s.i1 + 1) (0, 0), dtz := dtz2 }
    else if t2 < t1 then
      let dtzE : Except CAErr (List (ℚ × ℚ)) :=
        match s.tL1 with
        | some q =>
          if t1 - q.1 = 0 then .error .divByZero
          else .ok (s.dtz ++ [(t2, z2 - ((t2 - q.1) / (t1 - q.1) * (z1 - q.2) + q.2))])
        | none => .ok s.dtz
      match dtzE with
      | .error e => .error e
      | .ok dtz2 =>
        if s.i2 + 1 ≥ d2.length then
          .ok { s with i2 := s.i2 + 1, tL2 := some (t2, z2), dtz := dtz2 }
        else if s.i1 < d2.length then
          walk d1 d2 fuel { s with i2 := s.i2 + 1, tL2 := some (t2, z2),
                                   cur2 := d2.getD s.i1 (0, 0), dtz := dtz2 }
        else .error .indexError
    else
      let dtz2 := s.dtz ++ [(t1, z2 - z1)]
      if s.i1 + 1 ≥ d1.length ∧ s.i2 + 1 ≥ d2.length then
        .ok { s with dtz := dtz2 }
      else
        let moveIt : Nat :=
          if s.i1 + 1 ≥ d1.length then 2
          else if s.i2 + 1 ≥ d2.length then 1
          else if tAt d1 (s.i1 + 1) < tAt d2 (s.i2 + 1) then 1 else 2
        if moveIt = 1 then
          walk d1 d2 fuel { s with tL1 := some (t1, z1), i1 := s.i1 + 1,
                                   cur1 := d1.getD (s.i1 + 1) (0, 0), dtz := dtz2 }
        else
          walk d1 d2 fuel { s with tL2 := some (t2, z2), i2 := s.i2 + 1,
                                   cur2 := d2.getD (s.i2 + 1) (0, 0), dtz := dtz2 }

/-- The final integration loop of CalcAlignment (calcalignment.py lines
736-748): trapezoidal accumulation of dz and dt over consecutive samples,
with weight 0.001 for samples before focusAfterDated. -/
def integDtz (fAD : ℚ) : List (ℚ × ℚ) → ℚ → ℚ → ℚ → ℚ → ℚ × ℚ
  | [], _, _, dz, dt => (dz, dt)
  | p :: rest, t1, dz1, dz, dt =>
    let w : ℚ := if p.1 < fAD then 1 / 1000 else 1
    integDtz fAD rest p.1 p.2 (dz + (p.1 - t1) * w * (dz1 + p.2) / 2) (dt + (p.1 - t1) * w)

/-- CalcAlignment from calcalignment.py (lines 630-752). -/
def CalcAlignment (tzData1 tzData2 : List (ℚ × ℚ)) (focusAfterDated : Option ℚ)
    (timeTol : ℚ) : Except CAErr ℚ :=
  if tzData1.length = 0 ∨ tzData2.length = 0 then .ok 0
  else
    let s0 : CAState :=
      { i1 := 0, i2 := 0, tL1 := none, cur1 := tzData1.getD 0 (0, 0),
        tL2 := none, cur2 := tzData2.getD 0 (0, 0), dtz := [] }
    match walk tzData1 tzData2 (tzData1.length + tzData2.length + 1) s0 with
    | .error e => .error e
    | .ok s =>
      let fAD := focusAfterDated.getD 0
      let dtz : List (ℚ × ℚ) :=
        if s.dtz = [] then
          if s.i1 ≥ tzData1.length ∧ s.i2 = 0 then
            match s.tL1 with
            | some q => if q.1 + timeTol > s.cur2.1 then [((q.1 + s.cur2.1) / 2, s.cur2.2 - q.2)] else []
            | none => []
          else if s.i2 ≥ tzData2.length ∧ s.i1 = 0 then
            match s.tL2 with
            | some q => if q.1 + timeTol > s.cur1.1 then [((s.cur1.1 + q.1) / 2, q.2 - s.cur1.2)] else []
            | none => []
          else []
        else s.dtz
      if dtz = [] then .error .noOverlap
      else if dtz.length = 1 ∨ tAt dtz (dtz.length - 1) = tAt dtz 0 then
        .ok (-((zAt dtz (dtz.length - 1) + zAt dtz 0) / 2))
      else
        match dtz with
        | [] => .error .noOverlap
        | q :: rest =>
          let r := integDtz fAD rest q.1 q.2 0 0
          if r.2 = 0 then .error .divByZero
          else .ok (-(r.1 / r.2))

/-! Embedding of calcalignment.py: common keys, statistics.median, series
collections as insertion-ordered association lists. -/

/-- A series collection: insertion-ordered association list, modelling a
Python dict from survey name to tzPair list. -/
abbrev TzMap := List (String × List (ℚ × ℚ))

/-- Common keys of calcalignment.py (lines 36-40). -/
def MERGE : String := "merge"

def MEDIAN : String := "median"

def SEGMENT : String := "segment"

def MEDIAN_SEGMENT : String := MEDIAN ++ "_" ++ SEGMENT ++ "_"

def DZ : String := "dz"

/-- statistics.median: middle element of the sorted values for odd length,
mean of the two middle elements for even length.  Python raises on an empty
list; every call site guarantees a non-empty argument, and the value 0 used
here for that case is never reached.  (Sorting is by insertion sort: on a
total order the sorted permutation of a list of rationals is unique, so this
is the list sorted ascending exactly as Python produces it.) -/
def median (l : List ℚ) : ℚ :=
  let s := l.insertionSort (· ≤ ·)
  if l.length % 2 = 1 then s.getD (l.length / 2) 0
  else (s.getD (l.length / 2 - 1) 0 + s.getD (l.length / 2) 0) / 2

/-- Model of the Python statement someList[-1] = v. -/
def setLast (l : List (ℚ × ℚ)) (v : ℚ × ℚ) : List (ℚ × ℚ) := l.dropLast ++ [v]

/-- Lexicographic order on (t, z) pairs: the order used by Python's
list.sort() on tuples.  It is total and antisymmetric, so the sorted
permutation of a pair list is unique and insertion sort computes exactly
what Python's stable sort does. -/
def pairLE (p q : ℚ × ℚ) : Prop := p.1 < q.1 ∨ (p.1 = q.1 ∧ p.2 ≤ q.2)

instance : DecidableRel pairLE := fun p q => by unfold pairLE; infer_instance

instance : IsTotal (ℚ × ℚ) pairLE where
  total p q := by
    unfold pairLE
    rcases lt_trichotomy p.1 q.1 with h | h | h
    · exact Or.inl (Or.inl h)
    · rcases le_total p.2 q.2 with h2 | h2
      · exact Or.inl (Or.inr ⟨h, h2⟩)
      · exact Or.inr (Or.inr ⟨h.symm, h2⟩)
    · exact Or.inr (Or.inl h)

instance : IsTrans (ℚ × ℚ) pairLE where
  trans p q r hpq hqr := by
    unfold pairLE at *
    rcases hpq with h1 | ⟨h1, h1z⟩ <;> rcases hqr with h2 | ⟨h2, h2z⟩
    · exact Or.inl (lt_trans h1 h2)
    · exact Or.inl (h2 ▸ h1)
    · exact Or.inl (h1 ▸ h2)
    · exact Or.inr ⟨h1.trans h2, h1z.trans h2z⟩

/-- The duplicate-collapsing loop of MergeTZSeries (calcalignment.py lines
341-357), carried state: output list, current run of times, current run of
heights. -/
def mergeLoop (tol : ℚ) : List (ℚ × ℚ) → List (ℚ × ℚ) → List ℚ → List ℚ → List (ℚ × ℚ)
  | [], out, tDup, zDup =>
    if 1 < zDup.length then setLast out (median tDup, median zDup) else out
  | (t, z) :: rest, out, tDup, zDup =>
    if tDup ≠ [] ∧ |t - tDup.headD 0| < tol then
      mergeLoop tol rest out (tDup ++ [t]) (zDup ++ [z])
    else
      let out2 := if zDup ≠ [] then setLast out (median tDup, median zDup) else out
      mergeLoop tol rest (out2 ++ [(t, z)]) [t] [z]

/-- MergeTZSeries from calcalignment.py (lines 324-362). -/
def MergeTZSeries (tzData : TzMap) (timeTol : ℚ) : TzMap :=
  let tzPairs1 := ((tzData.map Prod.snd).flatten).insertionSort pairLE
  [(MERGE, mergeLoop timeTol tzPairs1 [] [] [])]

/-! Embedding of AnalyzeTZSeries (calcalignment.py lines 51-322). -/

/-- Per-series collapse of duplicate times (calcalignment.py lines 90-115),
carried state: output list, foundDupl flag, previous time, heights of the
current duplicate run. -/
def dedupLoop : List (ℚ × ℚ) → List (ℚ × ℚ) → Bool → Option ℚ → List ℚ → List (ℚ × ℚ)
  | [], subdict, foundDupl, tprev, zprev =>
    if foundDupl then setLast subdict (tprev.getD 0, median zprev) else subdict
  | tz :: rest, subdict, foundDupl, tprev, zprev =>
    if some tz.1 = tprev then
      dedupLoop rest subdict true tprev (zprev ++ [tz.2])
    else
      let subdict2 := if foundDupl then setLast subdict (tprev.getD 0, median zprev) else subdict
      dedupLoop rest (subdict2 ++ [tz]) false (some tz.1) [tz.2]

/-- Adjacent-duplicate collapse of one series. -/
def dedupTZ (tzPairs : List (ℚ × ℚ)) : List (ℚ × ℚ) := dedupLoop tzPairs [] false none []

/-- The sorted list of all distinct times of the collection (calcalignment.py
lines 77-82: a set of all times, then sorted). -/
def sortedTimes (tzData : TzMap) : List ℚ :=
  (((tzData.map Prod.snd).flatten).map Prod.fst).dedup.insertionSort (· ≤ ·)

/-- The index-advance loop at calcalignment.py lines 145-146 (also 236-237):
while idx < len(subdict) and subdict[idx][0] < t1: idx += 1.  Fuel of
subdict.length + 1 always suffices. -/
def advLoop (subdict : List (ℚ × ℚ)) (t1 : ℚ) : Nat → Nat → Nat
  | 0, idx => idx
  | fuel + 1, idx =>
    if idx < subdict.length ∧ tAt subdict idx < t1 then advLoop subdict t1 fuel (idx + 1)
    else idx

/-- Index advance with the end-of-series tolerance adjustment of
calcalignment.py lines 145-150. -/
def advanceIdx (subdict : List (ℚ × ℚ)) (t1 tol : ℚ) (idx : Nat) : Nat :=
  let j := advLoop subdict t1 (subdict.length + 1) idx
  if j = subdict.length ∧ tAt subdict (j - 1) > t1 - tol then j - 1 else j

/-- Local derivative of one series over one consensus interval
(calcalignment.py lines 154-165). -/
def derivOne (subdict : List (ℚ × ℚ)) (idx : Nat) (t0 t1 tol : ℚ) : Option ℚ :=
  if 0 < idx ∧ idx < subdict.length then
    let lt0 := tAt subdict (idx - 1)
    let lt1 := tAt subdict idx
    let tmid := (t0 + t1) / 2
    if lt0 - tol < tmid ∧ tmid ≤ lt1 + tol then
      some ((zAt subdict idx - zAt subdict (idx - 1)) / (lt1 - lt0))
    else none
  else none

/-- Model of otzlistlist[-1].append(v). -/
def appendLast (segs : List (List (ℚ × ℚ))) (v : ℚ × ℚ) : List (List (ℚ × ℚ)) :=
  segs.dropLast ++ [segs.getLastD [] ++ [v]]

/-- State of the median-integration loop of AnalyzeTZSeries (lines 121-179):
per-series cursor indices (positionally aligned with the series list), the
current consensus point (t1, z1), and the segments built so far. -/
structure MainState where
  idxs : List Nat
  t1 : ℚ
  z1 : ℚ
  segs : List (List (ℚ × ℚ))
deriving DecidableEq, Repr

/-- One iteration of the median-integration loop (lines 135-179) for the
consensus time t1: advance every cursor, collect the contributing local
derivatives, and either integrate their median or start a new segment. -/
def mainStep (subs : List (List (ℚ × ℚ))) (tol : ℚ) (s : MainState) (t1 : ℚ) : MainState :=
  let idxs2 := List.zipWith (fun sub idx => advanceIdx sub t1 tol idx) subs s.idxs
  let dzdt := (List.zipWith (fun sub idx => derivOne sub idx s.t1 t1 tol) subs idxs2).reduceOption
  if dzdt ≠ [] then
    let z1 := s.z1 + median dzdt * (t1 - s.t1)
    { idxs := idxs2, t1 := t1, z1 := z1, segs := appendLast s.segs (t1, z1) }
  else
    { idxs := idxs2, t1 := t1, z1 := 0, segs := s.segs ++ [[(t1, 0)]] }

/-- The median-integration loop over the consensus timeline. -/
def mainLoop (subs : List (List (ℚ × ℚ))) (tol : ℚ) : List ℚ → MainState → MainState
  | [], s => s
  | t1 :: rest, s => mainLoop subs tol rest (mainStep subs tol s t1)

/-- Segment assigned to a series: first segment whose consensus time range
contains the series' first time (calcalignment.py lines 188-195). -/
def segIdxFor (segs : List (List (ℚ × ℚ))) (t0 : ℚ) : Option Nat :=
  segs.findIdx? (fun sub => decide (tAt sub 0 ≤ t0 ∧ t0 ≤ tAt sub (sub.length - 1)))

/-- Shift of a length-1 series against its segment (calcalignment.py lines
209-214): scan the segment for the matching time; the dz entry stays unset
(None here) when no point of the segment carries that time. -/
def singletonDz (subdict seg : List (ℚ × ℚ)) : Option (ℚ × ℚ) :=
  let lt0 := tAt subdict 0
  seg.foldl (fun acc tz => if tz.1 = lt0 then some (tz.2 - zAt subdict 0, 0) else acc) none

/-- The per-series integration loop of calcalignment.py lines 225-257,
walking the segment's consensus points with a cursor into the series;
carried state: cursor, previous consensus point (t0, z0), accumulated dz and
dt. -/
def dzStep (subdict : List (ℚ × ℚ)) (aD : ℚ) :
    List (ℚ × ℚ) → Nat → ℚ → ℚ → ℚ → ℚ → ℚ × ℚ
  | [], _, _, _, dz, dt => (dz, dt)
  | (t1, z1) :: rest, idx, t0, z0, dz, dt =>
    let idx2 := advLoop subdict t1 (subdict.length + 1) idx
    if 0 < idx2 ∧ idx2 < subdict.length then
      let lt0 := tAt subdict (idx2 - 1)
      let lt1 := tAt subdict idx2
      if t0 ≥ lt0 ∧ t1 ≤ lt1 then
        let lz0 := zAt subdict (idx2 - 1)
        let lz1 := zAt subdict idx2
        let z0i := (t0 - lt0) / (lt1 - lt0) * (lz1 - lz0) + lz0
        let z1i := (t1 - lt0) / (lt1 - lt0) * (lz1 - lz0) + lz0
        let w : ℚ := if t0 < aD then 1 / 100 else 1
        dzStep subdict aD rest idx2 t1 z1 (dz + ((z0 - z0i) + (z1 - z1i)) / 2 * (t1 - t0) * w)
          (dt + (t1 - t0) * w)
      else dzStep subdict aD rest idx2 t1 z1 dz dt
    else dzStep subdict aD rest idx2 t1 z1 dz dt

/-- Shift of one series against its segment's consensus curve
(calcalignment.py lines 205-260), returning (dz, dt); None models a dz dict
entry that is never assigned. -/
def seriesDz (subdict seg : List (ℚ × ℚ)) (aD : ℚ) : Option (ℚ × ℚ) :=
  if subdict.length = 1 then singletonDz subdict seg
  else
    match seg with
    | [] => some (0, 0)
    | q :: rest =>
      let r := dzStep subdict aD rest 0 q.1 q.2 0 0
      if r.2 > 0 then some (r.1 / r.2, r.2) else some (r.1, r.2)

/-- Errors of AnalyzeTZSeries and the alignment drivers: IndexError on empty
data, KeyError on a missing dict entry, and the assert(0) at
calcalignment.py line 294 for an empty segment. -/
inductive AErr where
  | indexError : AErr
  | keyError : AErr
  | assertFail : AErr
deriving DecidableEq, Repr

/-- One per-series record of the shift computation: key, assigned segment,
dz, dt. -/
structure DzEntry where
  key : String
  iseg : Nat
  dz : ℚ
  dt : ℚ
deriving DecidableEq, Repr

/-- The per-series shift pass (calcalignment.py lines 203-260) over all
series in input order.  A missing segment assignment is the KeyError of
line 206 (for an empty input series Python raises IndexError at line 189
instead; both are modelled as the error that aborts the call at the same
series); a singleton series with no matching consensus time yields no
entry. -/
def collectDz (aD : ℚ) (segsL : List (List (ℚ × ℚ))) :
    List (String × List (ℚ × ℚ) × Option Nat) → Except AErr (List DzEntry)
  | [] => .ok []
  | (k, sub, asg) :: rest =>
    match asg with
    | none => .error .keyError
    | some iseg =>
      match seriesDz sub (segsL.getD iseg []) aD with
      | none => collectDz aD segsL rest
      | some r => (collectDz aD segsL rest).map (fun l => ⟨k, iseg, r.1, r.2⟩ :: l)

/-- Per-segment accumulation of weighted shifts (calcalignment.py lines
267-279): (sum of dz·w, sum of w, member count) over the entries of one
segment, weight w = max(0.001, dt). -/
def segSums (entries : List DzEntry) (iseg : Nat) : ℚ × ℚ × Nat :=
  entries.foldl (fun acc e =>
    if e.iseg = iseg then
      let w := max (1 / 1000) e.dt
      (acc.1 + e.dz * w, acc.2.1 + w, acc.2.2 + 1)
    else acc) (0, 0, 0)

/-- Average shift per segment (calcalignment.py lines 282-294); a segment
with zero member entries hits assert(0). -/
def segAvgs (entries : List DzEntry) (n : Nat) : Except AErr (List ℚ) :=
  (List.range n).mapM (fun iseg =>
    let s := segSums entries iseg
    if s.2.2 = 0 then .error .assertFail else .ok (s.1 / s.2.1))

/-- AnalyzeTZSeries from calcalignment.py (lines 51-322).  Returns the median
collection (key MEDIAN plus one key per segment), the series → segment-label
map, and the series → shift map. -/
def AnalyzeTZSeries (tzData : TzMap) (afterDate : Option ℚ) (timeTol : ℚ) :
    Except AErr (TzMap × List (String × String) × List (String × ℚ)) :=
  if tzData.length = 0 then
    .ok ([(MEDIAN, []), (MEDIAN_SEGMENT ++ Nat.repr 0, [])], [], [])
  else
    let aD := afterDate.getD (1 / 10000000000)
    let subs := tzData.map (fun kv => dedupTZ kv.2)
    let keys := tzData.map Prod.fst
    match sortedTimes tzData with
    | [] => .error .indexError
    | th :: trest =>
      let st := mainLoop subs timeTol trest
        { idxs := subs.map (fun _ => 0), t1 := th, z1 := 0, segs := [[(th, 0)]] }
      let segAsg := subs.map (fun sub => if sub.isEmpty then none else segIdxFor st.segs (tAt sub 0))
      match collectDz aD st.segs (List.zipWith (fun k sa => (k, sa.1, sa.2)) keys (subs.zip segAsg)) with
      | .error e => .error e
      | .ok entries =>
        match segAvgs entries st.segs.length with
        | .error e => .error e
        | .ok avgs =>
          let segsOut := List.zipWith
            (fun seg avg => seg.map (fun tz : ℚ × ℚ => (tz.1, tz.2 - avg))) st.segs avgs
          let dzOut := entries.map (fun e => (e.key, e.dz - avgs.getD e.iseg 0))
          let segMapOut := (keys.zip segAsg).filterMap
            (fun ka => ka.2.map (fun i => (ka.1, MEDIAN_SEGMENT ++ Nat.repr i)))
          let tzData2 := (MEDIAN, segsOut.flatten) ::
            segsOut.enum.map (fun si => (MEDIAN_SEGMENT ++ Nat.repr si.1, si.2))
          .ok (tzData2, segMapOut, dzOut)

/-! Embedding of the alignment drivers (calcalignment.py lines 364-628). -/

/-- ApplyZShift (calcalignment.py lines 578-589) as a pure map. -/
def ApplyZShift (tzData : TzMap) (dz : ℚ) : TzMap :=
  tzData.map (fun kv => (kv.1, kv.2.map (fun tz => (tz.1, tz.2 + dz))))

/-- Python dict assignment m[k] = v on an association list: replace in place
if the key exists, else append. -/
def alistSetG {β : Type} (m : List (String × β)) (k : String) (v : β) : List (String × β) :=
  if m.any (fun kv => kv.1 = k) then m.map (fun kv => if kv.1 = k then (k, v) else kv)
  else m ++ [(k, v)]

/-- AlignMedian from calcalignment.py (lines 364-382). -/
def AlignMedian (tzData : TzMap) (refDate : ℚ) (afterDate : Option ℚ) (timeTol : ℚ) :
    Except AErr TzMap :=
  match AnalyzeTZSeries tzData afterDate timeTol with
  | .error e => .error e
  | .ok (tzMeds, _, _) =>
    let med := (tzMeds.lookup MEDIAN).getD []
    match Interpolate med refDate false with
    | none => .error .indexError
    | some dz =>
      let d := alistSetG tzData MEDIAN med
      .ok (d.map (fun kv => (kv.1, kv.2.map (fun tz => (tz.1, tz.2 - dz)))))

/-- AlignAllMedian from calcalignment.py (lines 392-450). -/
def AlignAllMedian (tzData : TzMap) (refDate : ℚ) (afterDate : Option ℚ) (timeTol : ℚ) :
    Except AErr TzMap :=
  if tzData.length = 0 then .ok tzData
  else
    match AnalyzeTZSeries tzData afterDate timeTol with
    | .error e => .error e
    | .ok (tzMed, _, dzMap) =>
      match tzData.mapM (fun kv =>
        match dzMap.lookup kv.1 with
        | none => Except.error AErr.keyError
        | some dzk => Except.ok (kv.1, kv.2.map (fun tz : ℚ × ℚ => (tz.1, tz.2 + dzk)))) with
      | .error e => .error e
      | .ok d1 =>
        let med := (tzMed.lookup MEDIAN).getD []
        match Interpolate med refDate false with
        | none => .error .indexError
        | some dz =>
          let d2 := alistSetG d1 MEDIAN med
          .ok (d2.map (fun kv => (kv.1, kv.2.map (fun tz => (tz.1, tz.2 - dz)))))

/-- AlignAllMedian2Level from calcalignment.py (lines 461-576). -/
def AlignAllMedian2Level (tzMultiData : List (String × TzMap)) (refDate : ℚ)
    (afterDate : Option ℚ) (timeTol : ℚ) : Except AErr (List (String × TzMap)) :=
  if tzMultiData.length = 0 then .ok [(MEDIAN, [(MEDIAN, [])])]
  else
    match tzMultiData.mapM (fun kv =>
      (AlignAllMedian kv.2 refDate afterDate timeTol).map (fun r => (kv.1, r))) with
    | .error e => .error e
    | .ok tzOut0 =>
      let tzMeds : TzMap := tzOut0.map (fun kv => (kv.1, (kv.2.lookup MEDIAN).getD []))
      match AnalyzeTZSeries tzMeds afterDate timeTol with
      | .error e => .error e
      | .ok (tzAllMed, _, dzSpm) =>
        let tzOut1 := tzOut0.map (fun kv =>
          match dzSpm.lookup kv.1 with
          | some dzk => (kv.1, ApplyZShift kv.2 dzk)
          | none => kv)
        let tzMed2 := (tzAllMed.lookup MEDIAN).getD []
        match Interpolate tzMed2 refDate false with
        | none => .error .indexError
        | some dz =>
          let tzOut2 := alistSetG tzOut1 MEDIAN [(MEDIAN, tzMed2)]
          .ok (tzOut2.map (fun kv => (kv.1, ApplyZShift kv.2 (-dz))))

/-- The segment-search loop of AlignAllSegmentMedian (calcalignment.py lines
601-612): first non-MEDIAN entry of the median collection whose time range
covers refDate within the tolerance, with its interpolated value there. -/
def findCoverSeg : TzMap → ℚ → ℚ → Except AErr (Option (String × List (ℚ × ℚ) × ℚ))
  | [], _, _ => .ok none
  | (g, l) :: rest, refDate, tol =>
    if g = MEDIAN then findCoverSeg rest refDate tol
    else
      match l with
      | [] => .error .indexError
      | _ =>
        if tAt l 0 ≤ refDate + tol ∧ tAt l (l.length - 1) ≥ refDate - tol then
          match Interpolate l refDate false with
          | none => .error .indexError
          | some dz => .ok (some (g, l, dz))
        else findCoverSeg rest refDate tol

/-- AlignAllSegmentMedian from calcalignment.py (lines 591-628). -/
def AlignAllSegmentMedian (tzData : TzMap) (refDate : ℚ) (timeTol : ℚ)
    (afterDate : Option ℚ) : Except AErr TzMap :=
  match AnalyzeTZSeries tzData afterDate timeTol with
  | .error e => .error e
  | .ok (tzMed, segMap, _) =>
    match findCoverSeg tzMed refDate timeTol with
    | .error e => .error e
    | .ok none => .ok []
    | .ok (some (g0, tz0, dz)) =>
      let srvys := (segMap.filter (fun kv => kv.2 = g0)).map Prod.fst
      let d1 : TzMap := srvys.filterMap (fun s => (tzData.lookup s).map (fun l => (s, l)))
      let d2 := alistSetG d1 MEDIAN_SEGMENT tz0
      .ok (ApplyZShift d2 dz)

/-! Caller-visible effect of each alignment driver on its tzData argument.
The Python functions receive the caller's dict; the definitions below record
what that dict holds after the call, following the aliasing in the source. -/

/-- After AlignMedian (lines 364-382): the function assigns
tzData[MEDIAN] = median and rebinds every key of the caller's dict to a
freshly built shifted list, so on success the caller's mapping is exactly
the returned mapping; when the call raises, it has not yet been touched. -/
def AlignMedianEffect (tzData : TzMap) (refDate : ℚ) (afterDate : Option ℚ)
    (timeTol : ℚ) : TzMap :=
  match AlignMedian tzData refDate afterDate timeTol with
  | .ok r => r
  | .error _ => tzData

/-- After AlignAllMedian (lines 392-450): the function starts with
tzData = copy.deepcopy(tzData) (line 406) and from then on only reads or
modifies the copy, so the caller's mapping is unchanged. -/
def AlignAllMedianEffect (tzData : TzMap) (_refDate : ℚ) (_afterDate : Option ℚ)
    (_timeTol : ℚ) : TzMap := tzData

/-- After AlignAllMedian2Level (lines 461-576): every subordinate call goes
through AlignAllMedian's deepcopy and all later updates touch only the fresh
tzOut/tzMeds dicts, so the caller's nested mapping is unchanged. -/
def AlignAllMedian2LevelEffect (tzMultiData : List (String × TzMap)) (_refDate : ℚ)
    (_afterDate : Option ℚ) (_timeTol : ℚ) : List (String × TzMap) := tzMultiData

/-- After AlignAllSegmentMedian (lines 591-628): the dict built at line 622
aliases the caller's list objects, and ApplyZShift (line 626) overwrites
those lists element by element, so every series assigned to the found
segment is shifted in place inside the caller's mapping.  (A caller key equal
to the reserved MEDIAN_SEGMENT label is rebound at line 625 before the
shift, so the caller's own list under that key is not written.)  Series of
other segments — and the whole mapping when no segment covers refDate or the
call raises first — keep their original contents. -/
def AlignAllSegmentMedianEffect (tzData : TzMap) (refDate : ℚ) (timeTol : ℚ)
    (afterDate : Option ℚ) : TzMap :=
  match AnalyzeTZSeries tzData afterDate timeTol with
  | .error _ => tzData
  | .ok (tzMed, segMap, _) =>
    match findCoverSeg tzMed refDate timeTol with
    | .error _ => tzData
    | .ok none => tzData
    | .ok (some (g0, _, dz)) =>
      tzData.map (fun kv =>
        if segMap.lookup kv.1 = some g0 ∧ kv.1 ≠ MEDIAN_SEGMENT then
          (kv.1, kv.2.map (fun tz => (tz.1, tz.2 + dz)))
        else kv)

/-- The (time, difference) samples that CalcAlignment's merge-walk collects
for two series with identical timestamps and constant height offset c: two
samples per time point (one from the equal-time branch, one from the
interpolation branch after the second cursor has moved ahead), and a single
sample for the last time point. -/
def constPat (c : ℚ) : List (ℚ × ℚ) → List (ℚ × ℚ)
  | [] => []
  | [p] => [(p.1, c)]
  | p :: q :: rest => (p.1, c) :: (p.1, c) :: constPat c (q :: rest)

/-! Theorems. -/

/-- C10: if either of CalcAlignment's two input series is empty, the call
returns a shift of exactly 0 and raises no error; in particular the
NoOverlap error can only arise for two non-empty series. -/
theorem calcAlignment_empty_input (d1 d2 : List (ℚ × ℚ)) (f : Option ℚ) (tol : ℚ)
    (h : d1 = [] ∨ d2 = []) : CalcAlignment d1 d2 f tol = .ok 0 := by
  rcases h with h | h <;> subst h <;> simp [CalcAlignment]

theorem calcAlignment_empty_input_witness :
    CalcAlignment [] [(0, 1)] none 30 = .ok 0 :=
  calcAlignment_empty_input _ _ _ _ (Or.inl rfl)

/-- C6: the code contradicts the claimed near-touch behaviour.  With
tzData2 = [(0,5),(90,6)] ending at t = 90, within timeTol = 30 of tzData1's
first point t = 100, the claim demands a synthesized virtual sample and no
error, but the walk advances the second series with tzData2[i1]
(calcalignment.py line 678, i1 instead of i2), leaving (tL2, zL2) stuck at
the first point (0,5); the near-touch test then compares 0 + 30 > 100 and
fails, raising NoOverlapException.  The mirrored input (where the correctly
indexed line 707 is used) synthesizes the virtual sample as specified. -/
theorem calcAlignment_near_touch_bug :
    CalcAlignment [(100, 7)] [(0, 5), (90, 6)] none 30 = .error .noOverlap ∧
    CalcAlignment [(0, 5), (90, 6)] [(100, 7)] none 30 = .ok (-1) := by
  constructor <;> with_unfolding_all rfl

/-- C1 counterexample: with B = A + 1 on the same timestamps, CalcAlignment
returns -1, not the claimed constant 1. -/
theorem calcAlignment_const_shift_counterexample :
    CalcAlignment [(0, 0), (10, 0)] [(0, 1), (10, 1)] none 30 = .ok (-1) ∧
    (-1 : ℚ) ≠ 1 := ⟨by with_unfolding_all rfl, by norm_num⟩

/-- C7 counterexample: merging [(0,0),(29,0),(30,0)] with timeTol = 30
collapses the first two points to their median time 29/2, and the output
entries 29/2 and 30 lie within 30 of each other, refuting the claim that no
two output entries are within timeTol. -/
theorem mergeTZSeries_within_tol_counterexample :
    MergeTZSeries [("a", [(0, 0), (29, 0), (30, 0)])] 30 =
      [(MERGE, [(29 / 2, 0), (30, 0)])] ∧
    |(30 : ℚ) - 29 / 2| < 30 := ⟨by with_unfolding_all rfl, by norm_num [abs_lt]⟩

/-- C8 counterexample: at t = 1, equidistant from the bracketing times 0 and
2, GetClosest returns the higher-index point (2,5), not the claimed
lower-index point (0,0). -/
theorem getClosest_tie_counterexample :
    GetClosest [(0, 0), (2, 5)] 1 = some (2, 5) ∧
    |(1 : ℚ) - 0| = |(1 : ℚ) - 2| ∧
    ((2, 5) : ℚ × ℚ) ≠ (0, 0) := ⟨by with_unfolding_all rfl, by norm_num, by norm_num⟩

/-- C4 counterexample: AlignMedian mutates the caller's mapping (it gains the
MEDIAN key and its series are rebound to shifted lists), and
AlignAllSegmentMedian shifts the retained series in place, so not every
alignment operation leaves the caller's input unchanged. -/
theorem align_mutates_counterexample :
    AlignMedianEffect [("a", [(0, 1), (10, 2)])] 0 none 30 =
      [("a", [(0, 0), (10, 1)]), (MEDIAN, [(0, 0), (10, 1)])] ∧
    ([("a", [(0, 0), (10, 1)]), (MEDIAN, [(0, 0), (10, 1)])] : TzMap) ≠
      [("a", [(0, 1), (10, 2)])] ∧
    AlignAllSegmentMedianEffect [("a", [(0, 1), (10, 2)]), ("d", [(300, 1), (310, 0)])] 5 30 none
      = [("a", [(0, 5 / 2), (10, 7 / 2)]), ("d", [(300, 1), (310, 0)])] ∧
    ([("a", [(0, 5 / 2), (10, 7 / 2)]), ("d", [(300, 1), (310, 0)])] : TzMap) ≠
      [("a", [(0, 1), (10, 2)]), ("d", [(300, 1), (310, 0)])] := by
  refine ⟨by with_unfolding_all rfl, by simp, by with_unfolding_all rfl, by norm_num⟩

/-- C5 counterexample: on an empty input collection no detected segment
covers the reference date, yet AlignAllSegmentMedian raises (IndexError at
tzPairs[0][0], calcalignment.py line 606, on the empty segment produced for
empty input) instead of returning the empty collection. -/
theorem alignAllSegmentMedian_empty_raises :
    AlignAllSegmentMedian [] 50 30 none = .error .indexError := by
  with_unfolding_all rfl

/-! Characterization of the bisection loop. -/

theorem bisect_asc_interior (l : List (ℚ × ℚ)) (t : ℚ) :
    ∀ fuel i0 i9, i0 < i9 → i9 - i0 ≤ fuel → tAt l i0 < t → t ≤ tAt l i9 →
    ∃ a, bisect l t fuel (i0, i9) = (a, a + 1) ∧ i0 ≤ a ∧ a + 1 ≤ i9 ∧
      tAt l a < t ∧ t ≤ tAt l (a + 1) := by
  intro fuel
  induction fuel with
  | zero => intro i0 i9 h01 hf _ _; omega
  | succ fuel ih =>
    intro i0 i9 h01 hf hlo hhi
    rw [bisect]
    by_cases hgap : 1 < max i0 i9 - min i0 i9
    · rw [if_pos hgap]
      have hgap2 : i0 + 2 ≤ i9 := by omega
      have hmid1 : i0 < (i0 + i9) / 2 := by omega
      have hmid2 : (i0 + i9) / 2 < i9 := by omega
      by_cases hmid : tAt l ((i0 + i9) / 2) < t
      · rw [if_pos hmid]
        obtain ⟨a, ha, h1, h2, h3, h4⟩ :=
          ih ((i0 + i9) / 2) i9 hmid2 (by omega) hmid hhi
        exact ⟨a, ha, by omega, h2, h3, h4⟩
      · rw [if_neg hmid]
        obtain ⟨a, ha, h1, h2, h3, h4⟩ :=
          ih i0 ((i0 + i9) / 2) hmid1 (by omega) hlo (le_of_not_lt hmid)
        exact ⟨a, ha, h1, by omega, h3, h4⟩
    · rw [if_neg hgap]
      have h9 : i9 = i0 + 1 := by omega
      exact ⟨i0, by rw [h9], le_refl _, by omega, hlo, by rw [← h9]; exact hhi⟩

theorem bisect_desc_interior (l : List (ℚ × ℚ)) (t : ℚ) :
    ∀ fuel i0 i9, i9 < i0 → i0 - i9 ≤ fuel → tAt l i0 < t → t ≤ tAt l i9 →
    ∃ a, bisect l t fuel (i0, i9) = (a + 1, a) ∧ i9 ≤ a ∧ a + 1 ≤ i0 ∧
      tAt l (a + 1) < t ∧ t ≤ tAt l a := by
  intro fuel
  induction fuel with
  | zero => intro i0 i9 h01 hf _ _; omega
  | succ fuel ih =>
    intro i0 i9 h01 hf hlo hhi
    rw [bisect]
    by_cases hgap : 1 < max i0 i9 - min i0 i9
    · rw [if_pos hgap]
      have hgap2 : i9 + 2 ≤ i0 := by omega
      have hmid1 : i9 < (i0 + i9) / 2 := by omega
      have hmid2 : (i0 + i9) / 2 < i0 := by omega
      by_cases hmid : tAt l ((i0 + i9) / 2) < t
      · rw [if_pos hmid]
        obtain ⟨a, ha, h1, h2, h3, h4⟩ :=
          ih ((i0 + i9) / 2) i9 hmid1 (by omega) hmid hhi
        exact ⟨a, ha, h1, by omega, h3, h4⟩
      · rw [if_neg hmid]
        obtain ⟨a, ha, h1, h2, h3, h4⟩ :=
          ih i0 ((i0 + i9) / 2) hmid2 (by omega) hlo (le_of_not_lt hmid)
        exact ⟨a, ha, by omega, h2, h3, h4⟩
    · rw [if_neg hgap]
      have h9 : i0 = i9 + 1 := by omega
      exact ⟨i9, by rw [h9], le_refl _, by omega, by rw [← h9]; exact hlo, hhi⟩

theorem bisect_asc_below (l : List (ℚ × ℚ)) (t : ℚ) :
    ∀ fuel i0 i9, i0 < i9 → i9 - i0 ≤ fuel →
    (∀ j, i0 ≤ j → j ≤ i9 → ¬ tAt l j < t) →
    bisect l t fuel (i0, i9) = (i0, i0 + 1) := by
  intro fuel
  induction fuel with
  | zero => intro i0 i9 h01 hf _; omega
  | succ fuel ih =>
    intro i0 i9 h01 hf hall
    rw [bisect]
    by_cases hgap : 1 < max i0 i9 - min i0 i9
    · rw [if_pos hgap]
      have hgap2 : i0 + 2 ≤ i9 := by omega
      rw [if_neg (hall _ (by omega) (by omega))]
      exact ih i0 ((i0 + i9) / 2) (by omega) (by omega)
        (fun j h1 h2 => hall j h1 (by omega))
    · rw [if_neg hgap]
      have h9 : i9 = i0 + 1 := by omega
      rw [h9]

theorem bisect_desc_below (l : List (ℚ × ℚ)) (t : ℚ) :
    ∀ fuel i0 i9, i9 < i0 → i0 - i9 ≤ fuel →
    (∀ j, i9 ≤ j → j ≤ i0 → ¬ tAt l j < t) →
    bisect l t fuel (i0, i9) = (i0, i0 - 1) := by
  intro fuel
  induction fuel with
  | zero => intro i0 i9 h01 hf _; omega
  | succ fuel ih =>
    intro i0 i9 h01 hf hall
    rw [bisect]
    by_cases hgap : 1 < max i0 i9 - min i0 i9
    · rw [if_pos hgap]
      have hgap2 : i9 + 2 ≤ i0 := by omega
      rw [if_neg (hall _ (by omega) (by omega))]
      exact ih i0 ((i0 + i9) / 2) (by omega) (by omega)
        (fun j h1 h2 => hall j (by omega) h2)
    · rw [if_neg hgap]
      have h9 : i9 = i0 - 1 := by omega
      rw [h9]

theorem bisect_asc_above (l : List (ℚ × ℚ)) (t : ℚ) :
    ∀ fuel i0 i9, i0 < i9 → i9 - i0 ≤ fuel →
    (∀ j, i0 ≤ j → j ≤ i9 → tAt l j < t) →
    bisect l t fuel (i0, i9) = (i9 - 1, i9) := by
  intro fuel
  induction fuel with
  | zero => intro i0 i9 h01 hf _; omega
  | succ fuel ih =>
    intro i0 i9 h01 hf hall
    rw [bisect]
    by_cases hgap : 1 < max i0 i9 - min i0 i9
    · rw [if_pos hgap]
      have hgap2 : i0 + 2 ≤ i9 := by omega
      rw [if_pos (hall _ (by omega) (by omega))]
      exact ih ((i0 + i9) / 2) i9 (by omega) (by omega)
        (fun j h1 h2 => hall j (by omega) h2)
    · rw [if_neg hgap]
      have h9 : i9 = i0 + 1 := by omega
      rw [h9]
      simp

theorem bisect_desc_above (l : List (ℚ × ℚ)) (t : ℚ) :
    ∀ fuel i0 i9, i9 < i0 → i0 - i9 ≤ fuel →
    (∀ j, i9 ≤ j → j ≤ i0 → tAt l j < t) →
    bisect l t fuel (i0, i9) = (i9 + 1, i9) := by
  intro fuel
  induction fuel with
  | zero => intro i0 i9 h01 hf _; omega
  | succ fuel ih =>
    intro i0 i9 h01 hf hall
    rw [bisect]
    by_cases hgap : 1 < max i0 i9 - min i0 i9
    · rw [if_pos hgap]
      have hgap2 : i9 + 2 ≤ i0 := by omega
      rw [if_pos (hall _ (by omega) (by omega))]
      exact ih ((i0 + i9) / 2) i9 (by omega) (by omega)
        (fun j h1 h2 => hall j h1 (by omega))
    · rw [if_neg hgap]
      have h9 : i0 = i9 + 1 := by omega
      rw [h9]

/-! Monotonicity helpers for sorted series. -/

theorem tAt_adj_of_chain {l : List (ℚ × ℚ)}
    (hs : List.Chain' (fun p q : ℚ × ℚ => p.1 < q.1) l) :
    ∀ i, i + 1 < l.length → tAt l i < tAt l (i + 1) := by
  intro i hi
  rw [List.chain'_iff_get] at hs
  have := hs i (by omega)
  unfold tAt
  rwa [List.getD_eq_getElem _ _ (by omega), List.getD_eq_getElem _ _ hi]

theorem tAt_mono_of_adj {l : List (ℚ × ℚ)}
    (hadj : ∀ i, i + 1 < l.length → tAt l i < tAt l (i + 1)) :
    ∀ i j, i < j → j < l.length → tAt l i < tAt l j := by
  intro i j hij hj
  induction j with
  | zero => omega
  | succ j ihj =>
    rcases Nat.lt_or_ge i j with h | h
    · exact lt_trans (ihj h (by omega)) (hadj j hj)
    · have : i = j := by omega
      subst this
      exact hadj i hj

/-- C8 amended: over a non-empty strictly time-increasing sequence,
GetClosest returns the first point when t is at or below the minimum time,
the last point when t is at or above the maximum, the single point of a
length-1 sequence for every t, and, for t strictly between the bracketing
pair, the closer of the two — with an equal-distance tie going to the
higher-index point (the code's strict comparison picks index i9 on ties),
not the lower-index point as claimed. -/
theorem getClosest_spec (l : List (ℚ × ℚ)) (t : ℚ) (hne : l ≠ [])
    (hs : List.Chain' (fun p q : ℚ × ℚ => p.1 < q.1) l) :
    (l.length = 1 → GetClosest l t = l.head?) ∧
    (t ≤ tAt l 0 → GetClosest l t = some (l.getD 0 (0, 0))) ∧
    (tAt l (l.length - 1) ≤ t → GetClosest l t = some (l.getD (l.length - 1) (0, 0))) ∧
    (∀ i, i + 1 < l.length → tAt l i < t → t ≤ tAt l (i + 1) →
      GetClosest l t = some (if |t - tAt l i| < |t - tAt l (i + 1)| then l.getD i (0, 0)
        else l.getD (i + 1) (0, 0))) := by
  have hadj := tAt_adj_of_chain hs
  have hmono := tAt_mono_of_adj hadj
  have hlen : 0 < l.length := List.length_pos.mpr hne
  by_cases h2 : l.length < 2
  · have h1 : l.length = 1 := by omega
    obtain ⟨p, hp⟩ := List.length_eq_one.mp h1
    subst hp
    refine ⟨fun _ => ?_, fun _ => ?_, fun _ => ?_, fun i hi => by simp at hi⟩ <;>
      simp [GetClosest]
  · have hdesc : ¬ tAt l 0 > tAt l (l.length - 1) :=
      not_lt.mpr (le_of_lt (hmono 0 (l.length - 1) (by omega) (by omega)))
    have hstep : GetClosest l t =
        (if t ≤ tAt l 0 then some (l.getD 0 (0, 0))
         else if t ≥ tAt l (l.length - 1) then some (l.getD (l.length - 1) (0, 0))
         else
           some (if |t - tAt l (bisect l t l.length (0, l.length - 1)).1| <
                    |t - tAt l (bisect l t l.length (0, l.length - 1)).2| then
                   l.getD (bisect l t l.length (0, l.length - 1)).1 (0, 0)
                 else l.getD (bisect l t l.length (0, l.length - 1)).2 (0, 0))) := by
      simp only [GetClosest, if_neg h2, if_neg hdesc]
    refine ⟨fun h1 => by omega, fun ht => ?_, fun ht => ?_, fun i hi hil hir => ?_⟩
    · rw [hstep, if_pos ht]
    · rw [hstep]
      have hx : ¬ t ≤ tAt l 0 := by
        have := hmono 0 (l.length - 1) (by omega) (by omega)
        push_neg
        linarith
      rw [if_neg hx, if_pos (ge_iff_le.mpr ht)]
    · have hlow : tAt l 0 < t := by
        rcases Nat.eq_zero_or_pos i with h | h
        · rwa [h] at hil
        · exact lt_trans (hmono 0 i h (by omega)) hil
      have hhigh : t ≤ tAt l (l.length - 1) := by
        rcases Nat.lt_or_ge (i + 1) (l.length - 1) with h | h
        · exact le_of_lt (lt_of_le_of_lt hir (hmono (i + 1) (l.length - 1) h (by omega)))
        · have : i + 1 = l.length - 1 := by omega
          rwa [this] at hir
      rw [hstep, if_neg (not_le.mpr hlow)]
      rcases eq_or_lt_of_le hhigh with heq | hlt
      · -- t equals the maximum time: overflow branch, and the bracket's upper
        -- point is the last point
        rw [if_pos (ge_iff_le.mpr (le_of_eq heq.symm))]
        have hi1 : i + 1 = l.length - 1 := by
          by_contra hne1
          have h1 : i + 1 < l.length - 1 := by omega
          have := hmono (i + 1) (l.length - 1) h1 (by omega)
          rw [← heq] at this
          exact absurd (lt_of_le_of_lt hir this) (lt_irrefl t)
        have habs : ¬ |t - tAt l i| < |t - tAt l (i + 1)| := by
          rw [hi1, ← heq]
          simp only [sub_self, abs_zero]
          exact not_lt.mpr (abs_nonneg _)
        rw [if_neg habs, hi1]
      · rw [if_neg (not_le.mpr hlt)]
        obtain ⟨a, ha, hb1, hb2, hb3, hb4⟩ :=
          bisect_asc_interior l t l.length 0 (l.length - 1) (by omega) (by omega) hlow hhigh
        have hmono_le : ∀ i j, i ≤ j → j < l.length → tAt l i ≤ tAt l j := by
          intro i j hij hj
          rcases eq_or_lt_of_le hij with h | h
          · rw [h]
          · exact (hmono i j h hj).le
        have hai : a = i := by
          rcases Nat.lt_trichotomy a i with h | h | h
        -- a < i: then a + 1 ≤ i and t ≤ tAt (a+1) ≤ tAt i < t
          · exact absurd (lt_of_le_of_lt
              (le_trans hb4 (hmono_le (a + 1) i h (by omega))) hil) (lt_irrefl t)
          · exact h
        -- i < a: then i + 1 ≤ a and t ≤ tAt (i+1) ≤ tAt a < t
          · exact absurd (lt_of_le_of_lt
              (le_trans hir (hmono_le (i + 1) a h (by omega))) hb3) (lt_irrefl t)
        rw [ha] at *
        simp only [hai]

theorem tAt_anti_of_adj {l : List (ℚ × ℚ)}
    (hadj : ∀ i, i + 1 < l.length → tAt l (i + 1) < tAt l i) :
    ∀ i j, i < j → j < l.length → tAt l j < tAt l i := by
  intro i j hij hj
  induction j with
  | zero => omega
  | succ j ihj =>
    rcases Nat.lt_or_ge i j with h | h
    · exact lt_trans (hadj j hj) (ihj h (by omega))
    · have : i = j := by omega
      subst this
      exact hadj i hj

theorem asc_bracket_unique {l : List (ℚ × ℚ)}
    (hadj : ∀ i, i + 1 < l.length → tAt l i < tAt l (i + 1)) {t : ℚ} {a b : Nat}
    (hal : a + 1 < l.length) (ha1 : tAt l a < t) (ha2 : t ≤ tAt l (a + 1))
    (hbl : b + 1 < l.length) (hb1 : tAt l b < t) (hb2 : t ≤ tAt l (b + 1)) : a = b := by
  have hmono_le : ∀ i j, i ≤ j → j < l.length → tAt l i ≤ tAt l j := by
    intro i j hij hj
    rcases eq_or_lt_of_le hij with h | h
    · rw [h]
    · exact (tAt_mono_of_adj hadj i j h hj).le
  rcases Nat.lt_trichotomy a b with h | h | h
  · exact absurd (lt_of_le_of_lt (le_trans ha2 (hmono_le (a + 1) b h (by omega))) hb1)
      (lt_irrefl t)
  · exact h
  · exact absurd (lt_of_le_of_lt (le_trans hb2 (hmono_le (b + 1) a h (by omega))) ha1)
      (lt_irrefl t)

theorem getD_reverse (l : List (ℚ × ℚ)) (k : Nat) (hk : k < l.length) :
    l.reverse.getD k (0, 0) = l.getD (l.length - 1 - k) (0, 0) := by
  rw [List.getD_eq_getElem _ _ (by simpa using hk), List.getD_eq_getElem _ _ (by omega)]
  exact List.getElem_reverse _

theorem tAt_reverse (l : List (ℚ × ℚ)) (k : Nat) (hk : k < l.length) :
    tAt l.reverse k = tAt l (l.length - 1 - k) := by
  unfold tAt
  rw [getD_reverse l k hk]

theorem zAt_reverse (l : List (ℚ × ℚ)) (k : Nat) (hk : k < l.length) :
    zAt l.reverse k = zAt l (l.length - 1 - k) := by
  unfold zAt
  rw [getD_reverse l k hk]

theorem getClosest_reverse_desc (l : List (ℚ × ℚ)) (t : ℚ) (hne : l ≠ [])
    (hs : List.Chain' (fun p q : ℚ × ℚ => q.1 < p.1) l) :
    GetClosest l t = GetClosest l.reverse t := by
  have hlen : 0 < l.length := List.length_pos.mpr hne
  by_cases h2 : l.length < 2
  · have h1 : l.length = 1 := by omega
    obtain ⟨p, hp⟩ := List.length_eq_one.mp h1
    subst hp
    rfl
  · have hadj : ∀ i, i + 1 < l.length → tAt l (i + 1) < tAt l i := by
      intro i hi
      rw [List.chain'_iff_get] at hs
      have := hs i (by omega)
      unfold tAt
      rwa [List.getD_eq_getElem _ _ hi, List.getD_eq_getElem _ _ (by omega)]
    have hanti := tAt_anti_of_adj hadj
    have hrlen : l.reverse.length = l.length := List.length_reverse l
    have hradj : ∀ i, i + 1 < l.reverse.length → tAt l.reverse i < tAt l.reverse (i + 1) := by
      intro i hi
      rw [hrlen] at hi
      rw [tAt_reverse l i (by omega), tAt_reverse l (i + 1) hi]
      exact hanti (l.length - 1 - (i + 1)) (l.length - 1 - i) (by omega) (by omega)
    have hdesc : tAt l 0 > tAt l (l.length - 1) := hanti 0 (l.length - 1) (by omega) (by omega)
    have hrdesc : ¬ tAt l.reverse 0 > tAt l.reverse (l.reverse.length - 1) := by
      rw [hrlen, tAt_reverse l 0 (by omega), tAt_reverse l (l.length - 1) (by omega)]
      have e2 : l.length - 1 - (l.length - 1) = 0 := by omega
      rw [Nat.sub_zero, e2]
      exact not_lt.mpr hdesc.le
    have hr2 : ¬ l.reverse.length < 2 := by rw [hrlen]; omega
    have hstepL : GetClosest l t =
        (if t ≤ tAt l (l.length - 1) then some (l.getD (l.length - 1) (0, 0))
         else if t ≥ tAt l 0 then some (l.getD 0 (0, 0))
         else
           some (if |t - tAt l (bisect l t l.length (l.length - 1, 0)).1| <
                    |t - tAt l (bisect l t l.length (l.length - 1, 0)).2| then
                   l.getD (bisect l t l.length (l.length - 1, 0)).1 (0, 0)
                 else l.getD (bisect l t l.length (l.length - 1, 0)).2 (0, 0))) := by
      simp only [GetClosest, if_neg h2, if_pos hdesc]
    have hstepR : GetClosest l.reverse t =
        (if t ≤ tAt l.reverse 0 then some (l.reverse.getD 0 (0, 0))
         else if t ≥ tAt l.reverse (l.reverse.length - 1) then
           some (l.reverse.getD (l.reverse.length - 1) (0, 0))
         else
           some (if |t - tAt l.reverse (bisect l.reverse t l.reverse.length
                        (0, l.reverse.length - 1)).1| <
                    |t - tAt l.reverse (bisect l.reverse t l.reverse.length
                        (0, l.reverse.length - 1)).2| then
                   l.reverse.getD (bisect l.reverse t l.reverse.length
                     (0, l.reverse.length - 1)).1 (0, 0)
                 else l.reverse.getD (bisect l.reverse t l.reverse.length
                     (0, l.reverse.length - 1)).2 (0, 0))) := by
      simp only [GetClosest, if_neg hr2, if_neg hrdesc]
    have e0 : tAt l.reverse 0 = tAt l (l.length - 1) := by
      rw [tAt_reverse l 0 (by omega), Nat.sub_zero]
    have e0p : l.reverse.getD 0 (0, 0) = l.getD (l.length - 1) (0, 0) := by
      rw [getD_reverse l 0 (by omega), Nat.sub_zero]
    have e9 : tAt l.reverse (l.reverse.length - 1) = tAt l 0 := by
      rw [hrlen, tAt_reverse l (l.length - 1) (by omega)]
      congr 1
      omega
    have e9p : l.reverse.getD (l.reverse.length - 1) (0, 0) = l.getD 0 (0, 0) := by
      rw [hrlen, getD_reverse l (l.length - 1) (by omega)]
      congr 1
      omega
    have he0 : ∀ p : Prop, (t ≤ tAt l (l.length - 1) → p) → t ≤ tAt l.reverse 0 → p :=
      fun p h ht => h (e0 ▸ ht)
    by_cases hc1 : t ≤ tAt l (l.length - 1)
    · rw [hstepL, if_pos hc1]
      rw [hstepR, if_pos (show t ≤ tAt l.reverse 0 from e0.symm ▸ hc1), e0p]
    · by_cases hc2 : t ≥ tAt l 0
      · rw [hstepL, if_neg hc1, if_pos hc2]
        rw [hstepR, if_neg (show ¬ t ≤ tAt l.reverse 0 from e0.symm ▸ hc1),
          if_pos (show t ≥ tAt l.reverse (l.reverse.length - 1) from e9.symm ▸ hc2), e9p]
      · rw [hstepL, if_neg hc1, if_neg hc2]
        rw [hstepR, if_neg (show ¬ t ≤ tAt l.reverse 0 from e0.symm ▸ hc1),
          if_neg (show ¬ t ≥ tAt l.reverse (l.reverse.length - 1) from e9.symm ▸ hc2)]
        push_neg at hc1 hc2
        obtain ⟨a, ha, hb1, hb2, hb3, hb4⟩ :=
          bisect_desc_interior l t l.length (l.length - 1) 0 (by omega) (by omega) hc1 hc2.le
        obtain ⟨a2, ha2, hd1, hd2, hd3, hd4⟩ :=
          bisect_asc_interior l.reverse t l.reverse.length 0 (l.reverse.length - 1)
            (by rw [hrlen]; omega) (by omega) (by rw [e0]; exact hc1) (by rw [e9]; exact hc2.le)
        have hid : a2 = l.length - 2 - a := by
          refine asc_bracket_unique hradj (by rw [hrlen] at *; omega) hd3 hd4 ?_ ?_ ?_
          · rw [hrlen]; omega
          · rw [tAt_reverse l _ (by omega)]
            have : l.length - 1 - (l.length - 2 - a) = a + 1 := by omega
            rw [this]
            exact hb3
          · rw [tAt_reverse l _ (by omega)]
            have : l.length - 1 - (l.length - 2 - a + 1) = a := by omega
            rw [this]
            exact hb4
        subst hid
        rw [ha, ha2]
        have f1 : tAt l.reverse (l.length - 2 - a) = tAt l (a + 1) := by
          rw [tAt_reverse l _ (by omega)]
          congr 1
          omega
        have f2 : tAt l.reverse (l.length - 2 - a + 1) = tAt l a := by
          rw [tAt_reverse l _ (by omega)]
          congr 1
          omega
        have f3 : l.reverse.getD (l.length - 2 - a) (0, 0) = l.getD (a + 1) (0, 0) := by
          rw [getD_reverse l _ (by omega)]
          congr 1
          omega
        have f4 : l.reverse.getD (l.length - 2 - a + 1) (0, 0) = l.getD a (0, 0) := by
          rw [getD_reverse l _ (by omega)]
          congr 1
          omega
        simp only [f1, f2, f3, f4]

theorem interpolate_reverse_desc (l : List (ℚ × ℚ)) (t : ℚ) (e : Bool) (hne : l ≠ [])
    (hs : List.Chain' (fun p q : ℚ × ℚ => q.1 < p.1) l) :
    Interpolate l t e = Interpolate l.reverse t e := by
  have hlen : 0 < l.length := List.length_pos.mpr hne
  by_cases h2 : l.length < 2
  · have h1 : l.length = 1 := by omega
    obtain ⟨p, hp⟩ := List.length_eq_one.mp h1
    subst hp
    rfl
  · have hadj : ∀ i, i + 1 < l.length → tAt l (i + 1) < tAt l i := by
      intro i hi
      rw [List.chain'_iff_get] at hs
      have := hs i (by omega)
      unfold tAt
      rwa [List.getD_eq_getElem _ _ hi, List.getD_eq_getElem _ _ (by omega)]
    have hanti := tAt_anti_of_adj hadj
    have hrlen : l.reverse.length = l.length := List.length_reverse l
    have hradj : ∀ i, i + 1 < l.reverse.length → tAt l.reverse i < tAt l.reverse (i + 1) := by
      intro i hi
      rw [hrlen] at hi
      rw [tAt_reverse l i (by omega), tAt_reverse l (i + 1) hi]
      exact hanti (l.length - 1 - (i + 1)) (l.length - 1 - i) (by omega) (by omega)
    have hdesc : tAt l 0 > tAt l (l.length - 1) := hanti 0 (l.length - 1) (by omega) (by omega)
    have hrdesc : ¬ tAt l.reverse 0 > tAt l.reverse (l.reverse.length - 1) := by
      rw [hrlen, tAt_reverse l 0 (by omega), tAt_reverse l (l.length - 1) (by omega)]
      have e2 : l.length - 1 - (l.length - 1) = 0 := by omega
      rw [Nat.sub_zero, e2]
      exact not_lt.mpr hdesc.le
    have hr2 : ¬ l.reverse.length < 2 := by rw [hrlen]; omega
    have e0 : tAt l.reverse 0 = tAt l (l.length - 1) := by
      rw [tAt_reverse l 0 (by omega), Nat.sub_zero]
    have z0 : zAt l.reverse 0 = zAt l (l.length - 1) := by
      rw [zAt_reverse l 0 (by omega), Nat.sub_zero]
    have e9 : tAt l.reverse (l.reverse.length - 1) = tAt l 0 := by
      rw [hrlen, tAt_reverse l (l.length - 1) (by omega)]
      congr 1
      omega
    have z9 : zAt l.reverse (l.reverse.length - 1) = zAt l 0 := by
      rw [hrlen, zAt_reverse l (l.length - 1) (by omega)]
      congr 1
      omega
    have hstepL : Interpolate l t e =
        (if e = false ∧ t ≤ tAt l (l.length - 1) then some (zAt l (l.length - 1))
         else if e = false ∧ t ≥ tAt l 0 then some (zAt l 0)
         else
           if tAt l (bisect l t l.length (l.length - 1, 0)).2 -
              tAt l (bisect l t l.length (l.length - 1, 0)).1 = 0 then none
           else some (zAt l (bisect l t l.length (l.length - 1, 0)).1 +
             (zAt l (bisect l t l.length (l.length - 1, 0)).2 -
              zAt l (bisect l t l.length (l.length - 1, 0)).1) /
             (tAt l (bisect l t l.length (l.length - 1, 0)).2 -
              tAt l (bisect l t l.length (l.length - 1, 0)).1) *
             (t - tAt l (bisect l t l.length (l.length - 1, 0)).1))) := by
      simp only [Interpolate, if_neg h2, if_pos hdesc]
    have hstepR : Interpolate l.reverse t e =
        (if e = false ∧ t ≤ tAt l.reverse 0 then some (zAt l.reverse 0)
         else if e = false ∧ t ≥ tAt l.reverse (l.reverse.length - 1) then
           some (zAt l.reverse (l.reverse.length - 1))
         else
           if tAt l.reverse (bisect l.reverse t l.reverse.length (0, l.reverse.length - 1)).2 -
              tAt l.reverse (bisect l.reverse t l.reverse.length (0, l.reverse.length - 1)).1
                = 0 then none
           else some (zAt l.reverse (bisect l.reverse t l.reverse.length
               (0, l.reverse.length - 1)).1 +
             (zAt l.reverse (bisect l.reverse t l.reverse.length (0, l.reverse.length - 1)).2 -
              zAt l.reverse (bisect l.reverse t l.reverse.length (0, l.reverse.length - 1)).1) /
             (tAt l.reverse (bisect l.reverse t l.reverse.length (0, l.reverse.length - 1)).2 -
              tAt l.reverse (bisect l.reverse t l.reverse.length (0, l.reverse.length - 1)).1) *
             (t - tAt l.reverse (bisect l.reverse t l.reverse.length
               (0, l.reverse.length - 1)).1))) := by
      simp only [Interpolate, if_neg hr2, if_neg hrdesc]
    have hinterior : tAt l (l.length - 1) < t → t ≤ tAt l 0 →
        (if tAt l (bisect l t l.length (l.length - 1, 0)).2 -
            tAt l (bisect l t l.length (l.length - 1, 0)).1 = 0 then none
         else some (zAt l (bisect l t l.length (l.length - 1, 0)).1 +
           (zAt l (bisect l t l.length (l.length - 1, 0)).2 -
            zAt l (bisect l t l.length (l.length - 1, 0)).1) /
           (tAt l (bisect l t l.length (l.length - 1, 0)).2 -
            tAt l (bisect l t l.length (l.length - 1, 0)).1) *
           (t - tAt l (bisect l t l.length (l.length - 1, 0)).1))) =
        (if tAt l.reverse (bisect l.reverse t l.reverse.length (0, l.reverse.length - 1)).2 -
            tAt l.reverse (bisect l.reverse t l.reverse.length (0, l.reverse.length - 1)).1
              = 0 then none
         else some (zAt l.reverse (bisect l.reverse t l.reverse.length
             (0, l.reverse.length - 1)).1 +
           (zAt l.reverse (bisect l.reverse t l.reverse.length (0, l.reverse.length - 1)).2 -
            zAt l.reverse (bisect l.reverse t l.reverse.length (0, l.reverse.length - 1)).1) /
           (tAt l.reverse (bisect l.reverse t l.reverse.length (0, l.reverse.length - 1)).2 -
            tAt l.reverse (bisect l.reverse t l.reverse.length (0, l.reverse.length - 1)).1) *
           (t - tAt l.reverse (bisect l.reverse t l.reverse.length
             (0, l.reverse.length - 1)).1))) := by
      intro hlo hhi
      obtain ⟨a, ha, hb1, hb2, hb3, hb4⟩ :=
        bisect_desc_interior l t l.length (l.length - 1) 0 (by omega) (by omega) hlo hhi
      obtain ⟨a2, ha2, hd1, hd2, hd3, hd4⟩ :=
        bisect_asc_interior l.reverse t l.reverse.length 0 (l.reverse.length - 1)
          (by rw [hrlen]; omega) (by omega) (by rw [e0]; exact hlo) (by rw [e9]; exact hhi)
      have hid : a2 = l.length - 2 - a := by
        refine asc_bracket_unique hradj (by rw [hrlen] at *; omega) hd3 hd4 ?_ ?_ ?_
        · rw [hrlen]; omega
        · rw [tAt_reverse l _ (by omega)]
          have hx : l.length - 1 - (l.length - 2 - a) = a + 1 := by omega
          rw [hx]
          exact hb3
        · rw [tAt_reverse l _ (by omega)]
          have hx : l.length - 1 - (l.length - 2 - a + 1) = a := by omega
          rw [hx]
          exact hb4
      subst hid
      rw [ha, ha2]
      have f1 : tAt l.reverse (l.length - 2 - a) = tAt l (a + 1) := by
        rw [tAt_reverse l _ (by omega)]
        congr 1
        omega
      have f2 : tAt l.reverse (l.length - 2 - a + 1) = tAt l a := by
        rw [tAt_reverse l _ (by omega)]
        congr 1
        omega
      have g1 : zAt l.reverse (l.length - 2 - a) = zAt l (a + 1) := by
        rw [zAt_reverse l _ (by omega)]
        congr 1
        omega
      have g2 : zAt l.reverse (l.length - 2 - a + 1) = zAt l a := by
        rw [zAt_reverse l _ (by omega)]
        congr 1
        omega
      simp only [f1, f2, g1, g2]
    cases e with
    | false =>
      by_cases hc1 : t ≤ tAt l (l.length - 1)
      · have pL : ((false : Bool) = false ∧ t ≤ tAt l (l.length - 1)) := ⟨rfl, hc1⟩
        have pR : ((false : Bool) = false ∧ t ≤ tAt l.reverse 0) := ⟨rfl, e0.symm ▸ hc1⟩
        rw [hstepL, if_pos pL]
        rw [hstepR, if_pos pR, z0]
      · have nL1 : ¬ ((false : Bool) = false ∧ t ≤ tAt l (l.length - 1)) := fun h => hc1 h.2
        have nR1 : ¬ ((false : Bool) = false ∧ t ≤ tAt l.reverse 0) :=
          fun h => hc1 (e0 ▸ h.2)
        by_cases hc2 : t ≥ tAt l 0
        · have pL2 : ((false : Bool) = false ∧ t ≥ tAt l 0) := ⟨rfl, hc2⟩
          have pR2 : ((false : Bool) = false ∧ t ≥ tAt l.reverse (l.reverse.length - 1)) :=
            ⟨rfl, e9.symm ▸ hc2⟩
          rw [hstepL, if_neg nL1, if_pos pL2]
          rw [hstepR, if_neg nR1, if_pos pR2, z9]
        · have nL2 : ¬ ((false : Bool) = false ∧ t ≥ tAt l 0) := fun h => hc2 h.2
          have nR2 : ¬ ((false : Bool) = false ∧ t ≥ tAt l.reverse (l.reverse.length - 1)) :=
            fun h => hc2 (e9 ▸ h.2)
          rw [hstepL, if_neg nL1, if_neg nL2]
          rw [hstepR, if_neg nR1, if_neg nR2]
          push_neg at hc1 hc2
          exact hinterior hc1 hc2.le
    | true =>
      have hL1 : ¬ ((true : Bool) = false ∧ t ≤ tAt l (l.length - 1)) := fun h => by
        simpa using h.1
      have hL2 : ¬ ((true : Bool) = false ∧ t ≥ tAt l 0) := fun h => by simpa using h.1
      have hR1 : ¬ ((true : Bool) = false ∧ t ≤ tAt l.reverse 0) := fun h => by simpa using h.1
      have hR2 : ¬ ((true : Bool) = false ∧ t ≥ tAt l.reverse (l.reverse.length - 1)) :=
        fun h => by simpa using h.1
      rw [hstepL, if_neg hL1, if_neg hL2]
      rw [hstepR, if_neg hR1, if_neg hR2]
      by_cases hc1 : t ≤ tAt l (l.length - 1)
      · -- below the whole range: both searches end at the two lowest-time points
        have hBl := bisect_desc_below l t l.length (l.length - 1) 0 (by omega) (by omega)
          (fun j h1 h9 => by
            rcases Nat.lt_or_ge j (l.length - 1) with h | h
            · exact not_lt.mpr (le_of_lt (lt_of_le_of_lt hc1 (hanti j (l.length - 1) h (by omega))))
            · have hj : j = l.length - 1 := by omega
              rw [hj]
              exact not_lt.mpr hc1)
        have hBr := bisect_asc_below l.reverse t l.reverse.length 0 (l.reverse.length - 1)
          (by rw [hrlen]; omega) (by omega)
          (fun j h1 h9 => by
            rw [tAt_reverse l j (by omega)]
            rcases Nat.lt_or_ge (l.length - 1 - j) (l.length - 1) with h | h
            · exact not_lt.mpr
                (le_of_lt (lt_of_le_of_lt hc1 (hanti _ (l.length - 1) h (by omega))))
            · have hj : l.length - 1 - j = l.length - 1 := by omega
              rw [hj]
              exact not_lt.mpr hc1)
        rw [hBl, hBr]
        have f1 : tAt l.reverse 0 = tAt l (l.length - 1) := e0
        have f2 : tAt l.reverse (0 + 1) = tAt l (l.length - 1 - 1) := by
          rw [tAt_reverse l 1 (by omega)]
        have g1 : zAt l.reverse 0 = zAt l (l.length - 1) := z0
        have g2 : zAt l.reverse (0 + 1) = zAt l (l.length - 1 - 1) := by
          rw [zAt_reverse l 1 (by omega)]
        simp only [f1, f2, g1, g2]
      · by_cases hc3 : t ≤ tAt l 0
        · exact hinterior (not_le.mp hc1) hc3
        · -- above the whole range: both searches end at the two highest-time points
          push_neg at hc3
          have hBl := bisect_desc_above l t l.length (l.length - 1) 0 (by omega) (by omega)
            (fun j h1 h9 => by
              rcases Nat.eq_zero_or_pos j with h | h
              · rw [h]
                exact hc3
              · exact lt_trans (hanti 0 j h (by omega)) hc3)
          have hBr := bisect_asc_above l.reverse t l.reverse.length 0 (l.reverse.length - 1)
            (by rw [hrlen]; omega) (by omega)
            (fun j h1 h9 => by
              rw [tAt_reverse l j (by omega)]
              rcases Nat.eq_zero_or_pos (l.length - 1 - j) with h | h
              · rw [h]
                exact hc3
              · exact lt_trans (hanti 0 _ h (by omega)) hc3)
          rw [hBl, hBr]
          have f1 : tAt l.reverse (l.reverse.length - 1 - 1) = tAt l (0 + 1) := by
            rw [hrlen, tAt_reverse l (l.length - 1 - 1) (by omega)]
            congr 1
            omega
          have f2 : tAt l.reverse (l.reverse.length - 1) = tAt l 0 := e9
          have g1 : zAt l.reverse (l.reverse.length - 1 - 1) = zAt l (0 + 1) := by
            rw [hrlen, zAt_reverse l (l.length - 1 - 1) (by omega)]
            congr 1
            omega
          have g2 : zAt l.reverse (l.reverse.length - 1) = zAt l 0 := z9
          simp only [f1, f2, g1, g2]

/-- C9: on a non-empty series with strictly decreasing times, GetClosest and
Interpolate (for either value of the extrapolation flag) return the same
result as on the strictly increasing reversal — the lookups are
direction-agnostic. -/
theorem lookup_reverse_invariant (l : List (ℚ × ℚ)) (t : ℚ) (e : Bool) (hne : l ≠ [])
    (hs : List.Chain' (fun p q : ℚ × ℚ => q.1 < p.1) l) :
    GetClosest l t = GetClosest l.reverse t ∧
    Interpolate l t e = Interpolate l.reverse t e :=
  ⟨getClosest_reverse_desc l t hne hs, interpolate_reverse_desc l t e hne hs⟩

theorem lookup_reverse_invariant_witness :
    GetClosest [((10 : ℚ), (7 : ℚ)), (0, 3)] 4 =
      GetClosest [((10 : ℚ), (7 : ℚ)), (0, 3)].reverse 4 ∧
    Interpolate [((10 : ℚ), (7 : ℚ)), (0, 3)] 4 true =
      Interpolate [((10 : ℚ), (7 : ℚ)), (0, 3)].reverse 4 true :=
  lookup_reverse_invariant _ 4 true (by simp) (by norm_num [List.chain'_cons])

theorem getClosest_spec_witness :
    GetClosest [((0 : ℚ), (0 : ℚ)), (2, 5)] 1 = some (2, 5) := by
  have h := (getClosest_spec [(0, 0), (2, 5)] 1 (by simp)
    (by simp [List.chain'_cons])).2.2.2 0 (by simp)
    (by simp [tAt]) (by simp [tAt])
  rw [h]
  with_unfolding_all rfl
/-! The merge-walk of CalcAlignment on two series with identical timestamps
and constant height offset c. -/

theorem shift_getD (A : List (ℚ × ℚ)) (c : ℚ) (k : Nat) (hk : k < A.length) :
    (A.map (fun p : ℚ × ℚ => (p.1, p.2 + c))).getD k (0, 0) =
      ((A.getD k (0, 0)).1, (A.getD k (0, 0)).2 + c) := by
  rw [List.getD_eq_getElem _ _ (by simpa using hk), List.getD_eq_getElem _ _ hk,
    List.getElem_map]

theorem shift_tAt (A : List (ℚ × ℚ)) (c : ℚ) (k : Nat) (hk : k < A.length) :
    tAt (A.map (fun p : ℚ × ℚ => (p.1, p.2 + c))) k = tAt A k := by
  unfold tAt
  rw [shift_getD A c k hk]

theorem walk_shifted_stepA (A : List (ℚ × ℚ)) (c : ℚ)
    (k : Nat) (hk : k + 1 < A.length) (D : List (ℚ × ℚ))
    (tl1 tl2 : Option (ℚ × ℚ)) (f : Nat) :
    walk A (A.map (fun p : ℚ × ℚ => (p.1, p.2 + c))) (f + 1)
      { i1 := k, i2 := k, tL1 := tl1, cur1 := A.getD k (0, 0), tL2 := tl2,
        cur2 := (A.map (fun p : ℚ × ℚ => (p.1, p.2 + c))).getD k (0, 0), dtz := D } =
    walk A (A.map (fun p : ℚ × ℚ => (p.1, p.2 + c))) f
      { i1 := k, i2 := k + 1, tL1 := tl1, cur1 := A.getD k (0, 0),
        tL2 := some ((A.getD k (0, 0)).1, (A.getD k (0, 0)).2 + c),
        cur2 := (A.map (fun p : ℚ × ℚ => (p.1, p.2 + c))).getD (k + 1) (0, 0),
        dtz := D ++ [((A.getD k (0, 0)).1, c)] } := by
  rw [shift_getD A c k (by omega)]
  simp only [walk]
  rw [if_neg (lt_irrefl (A.getD k (0, 0)).1), if_neg (lt_irrefl (A.getD k (0, 0)).1)]
  have hbreak : ¬ (k + 1 ≥ A.length ∧
      k + 1 ≥ (A.map (fun p : ℚ × ℚ => (p.1, p.2 + c))).length) :=
    fun h => absurd h.1 (by omega)
  rw [if_neg hbreak]
  rw [if_neg (show ¬ k + 1 ≥ A.length by omega)]
  rw [if_neg (show ¬ k + 1 ≥ (A.map (fun p : ℚ × ℚ => (p.1, p.2 + c))).length by
    rw [List.length_map]; omega)]
  rw [shift_tAt A c (k + 1) hk, if_neg (lt_irrefl (tAt A (k + 1)))]
  rw [if_neg (show ¬ (2 : Nat) = 1 by omega)]
  have hz : (A.getD k (0, 0)).2 + c - (A.getD k (0, 0)).2 = c := by ring
  rw [hz]

theorem walk_shifted_stepB (A : List (ℚ × ℚ)) (c : ℚ)
    (hs : List.Chain' (fun p q : ℚ × ℚ => p.1 < q.1) A)
    (k : Nat) (hk : k + 1 < A.length) (D : List (ℚ × ℚ))
    (tl1 : Option (ℚ × ℚ)) (f : Nat) :
    walk A (A.map (fun p : ℚ × ℚ => (p.1, p.2 + c))) (f + 1)
      { i1 := k, i2 := k + 1, tL1 := tl1, cur1 := A.getD k (0, 0),
        tL2 := some ((A.getD k (0, 0)).1, (A.getD k (0, 0)).2 + c),
        cur2 := (A.map (fun p : ℚ × ℚ => (p.1, p.2 + c))).getD (k + 1) (0, 0),
        dtz := D } =
    walk A (A.map (fun p : ℚ × ℚ => (p.1, p.2 + c))) f
      { i1 := k + 1, i2 := k + 1, tL1 := some (A.getD k (0, 0)),
        cur1 := A.getD (k + 1) (0, 0),
        tL2 := some ((A.getD k (0, 0)).1, (A.getD k (0, 0)).2 + c),
        cur2 := (A.map (fun p : ℚ × ℚ => (p.1, p.2 + c))).getD (k + 1) (0, 0),
        dtz := D ++ [((A.getD k (0, 0)).1, c)] } := by
  have hlt : (A.getD k (0, 0)).1 < (A.getD (k + 1) (0, 0)).1 := by
    have := tAt_adj_of_chain hs k hk
    unfold tAt at this
    exact this
  rw [shift_getD A c (k + 1) hk]
  simp only [walk]
  rw [if_pos hlt]
  rw [if_neg (sub_ne_zero.mpr (ne_of_gt hlt))]
  dsimp only
  rw [if_neg (show ¬ k + 1 ≥ A.length by omega)]
  have harith : ((A.getD k (0, 0)).1 - (A.getD k (0, 0)).1) /
        ((A.getD (k + 1) (0, 0)).1 - (A.getD k (0, 0)).1) *
        ((A.getD (k + 1) (0, 0)).2 + c - ((A.getD k (0, 0)).2 + c)) +
        ((A.getD k (0, 0)).2 + c) - (A.getD k (0, 0)).2 = c := by
    rw [sub_self, zero_div, zero_mul, zero_add]
    ring
  rw [harith]

theorem walk_shifted_final (A : List (ℚ × ℚ)) (c : ℚ) (hne : A ≠ [])
    (D : List (ℚ × ℚ)) (tl1 tl2 : Option (ℚ × ℚ)) (f : Nat) :
    walk A (A.map (fun p : ℚ × ℚ => (p.1, p.2 + c))) (f + 1)
      { i1 := A.length - 1, i2 := A.length - 1, tL1 := tl1,
        cur1 := A.getD (A.length - 1) (0, 0), tL2 := tl2,
        cur2 := (A.map (fun p : ℚ × ℚ => (p.1, p.2 + c))).getD (A.length - 1) (0, 0),
        dtz := D } =
    .ok { i1 := A.length - 1, i2 := A.length - 1, tL1 := tl1,
          cur1 := A.getD (A.length - 1) (0, 0), tL2 := tl2,
          cur2 := (A.map (fun p : ℚ × ℚ => (p.1, p.2 + c))).getD (A.length - 1) (0, 0),
          dtz := D ++ [((A.getD (A.length - 1) (0, 0)).1, c)] } := by
  have hlen : 0 < A.length := List.length_pos.mpr hne
  rw [shift_getD A c (A.length - 1) (by omega)]
  simp only [walk]
  rw [if_neg (lt_irrefl (A.getD (A.length - 1) (0, 0)).1),
    if_neg (lt_irrefl (A.getD (A.length - 1) (0, 0)).1)]
  rw [if_pos (show A.length - 1 + 1 ≥ A.length ∧ A.length - 1 + 1 ≥
      (A.map (fun p : ℚ × ℚ => (p.1, p.2 + c))).length from
    ⟨by omega, by rw [List.length_map]; omega⟩)]
  have hz : (A.getD (A.length - 1) (0, 0)).2 + c - (A.getD (A.length - 1) (0, 0)).2 = c := by
    ring
  rw [hz]

theorem walk_shifted_full (A : List (ℚ × ℚ)) (c : ℚ)
    (hs : List.Chain' (fun p q : ℚ × ℚ => p.1 < q.1) A) :
    ∀ m k D tl1 tl2 fuel, k < A.length → A.length - 1 - k = m → 2 * m + 1 ≤ fuel →
    ∃ s : CAState,
      walk A (A.map (fun p : ℚ × ℚ => (p.1, p.2 + c))) fuel
        { i1 := k, i2 := k, tL1 := tl1, cur1 := A.getD k (0, 0), tL2 := tl2,
          cur2 := (A.map (fun p : ℚ × ℚ => (p.1, p.2 + c))).getD k (0, 0), dtz := D } =
        .ok s ∧
      s.dtz = D ++ constPat c (A.drop k) := by
  intro m
  induction m with
  | zero =>
    intro k D tl1 tl2 fuel hk hm hf
    have hk1 : k = A.length - 1 := by omega
    subst hk1
    obtain ⟨f, rfl⟩ : ∃ f, fuel = f + 1 := ⟨fuel - 1, by omega⟩
    rw [walk_shifted_final A c (List.ne_nil_of_length_pos (by omega)) D tl1 tl2 f]
    refine ⟨_, rfl, ?_⟩
    have hL1 : A.length - 1 < A.length := by omega
    have h1 := List.drop_eq_getElem_cons hL1
    have h2 : A.length - 1 + 1 = A.length := by omega
    rw [h2, List.drop_length] at h1
    rw [h1, List.getD_eq_getElem A (0, 0) hL1]
    rfl
  | succ m ih =>
    intro k D tl1 tl2 fuel hk hm hf
    have hk1 : k + 1 < A.length := by omega
    obtain ⟨f, rfl⟩ : ∃ f, fuel = (f + 1) + 1 := ⟨fuel - 2, by omega⟩
    rw [walk_shifted_stepA A c k hk1 D tl1 tl2 (f + 1)]
    rw [walk_shifted_stepB A c hs k hk1 (D ++ [((A.getD k (0, 0)).1, c)]) tl1 f]
    obtain ⟨s, hws, hdtz⟩ := ih (k + 1)
      ((D ++ [((A.getD k (0, 0)).1, c)]) ++ [((A.getD k (0, 0)).1, c)])
      (some (A.getD k (0, 0)))
      (some ((A.getD k (0, 0)).1, (A.getD k (0, 0)).2 + c)) f (by omega) (by omega) (by omega)
    refine ⟨s, hws, ?_⟩
    rw [hdtz]
    have hk0 : k < A.length := by omega
    have h1 := List.drop_eq_getElem_cons hk0
    obtain ⟨hd, tl, hcons⟩ : ∃ hd tl, A.drop (k + 1) = hd :: tl :=
      List.exists_cons_of_ne_nil (List.ne_nil_of_length_pos (by
        rw [List.length_drop]; omega))
    rw [hcons] at h1
    rw [h1, List.getD_eq_getElem A (0, 0) hk0]
    simp [hcons, constPat, List.append_assoc]

theorem constPat_snd (c : ℚ) : ∀ L : List (ℚ × ℚ), ∀ p ∈ constPat c L, p.2 = c := by
  intro L
  induction L with
  | nil => intro p hp; simp [constPat] at hp
  | cons a rest ih =>
    cases rest with
    | nil =>
      intro p hp
      simp only [constPat, List.mem_singleton] at hp
      rw [hp]
    | cons b rest2 =>
      intro p hp
      simp only [constPat, List.mem_cons] at hp
      rcases hp with h | h | h
      · rw [h]
      · rw [h]
      · exact ih p (by simpa [constPat] using h)

theorem constPat_last (c : ℚ) : ∀ L : List (ℚ × ℚ), L ≠ [] →
    ∃ q : ℚ × ℚ, L.getLast? = some q ∧ (constPat c L).getLast? = some (q.1, c) := by
  intro L
  induction L with
  | nil => intro h; exact absurd rfl h
  | cons a rest ih =>
    cases rest with
    | nil => intro _; exact ⟨a, rfl, rfl⟩
    | cons b rest2 =>
      intro _
      obtain ⟨q, hq1, hq2⟩ := ih (by simp)
      refine ⟨q, ?_, ?_⟩
      · rw [List.getLast?_cons_cons]
        exact hq1
      · rw [show constPat c (a :: b :: rest2) =
          (a.1, c) :: (a.1, c) :: constPat c (b :: rest2) from rfl]
        obtain ⟨ph, pt, hP⟩ : ∃ ph pt, constPat c (b :: rest2) = ph :: pt := by
          cases rest2 with
          | nil => exact ⟨(b.1, c), [], rfl⟩
          | cons d r3 => exact ⟨(b.1, c), (b.1, c) :: constPat c (d :: r3), rfl⟩
        rw [hP, List.getLast?_cons_cons, List.getLast?_cons_cons, ← hP]
        exact hq2

theorem constPat_chain (c : ℚ) : ∀ L : List (ℚ × ℚ),
    List.Chain' (fun u v : ℚ × ℚ => u.1 ≤ v.1) L →
    List.Chain' (fun u v : ℚ × ℚ => u.1 ≤ v.1) (constPat c L) := by
  intro L
  induction L with
  | nil => intro _; simp [constPat]
  | cons a rest ih =>
    cases rest with
    | nil => intro _; simp [constPat]
    | cons b r2 =>
      intro hch
      rw [List.chain'_cons] at hch
      have h2 := ih hch.2
      rw [show constPat c (a :: b :: r2) =
        (a.1, c) :: (a.1, c) :: constPat c (b :: r2) from rfl]
      rw [List.chain'_cons]
      refine ⟨le_refl a.1, ?_⟩
      obtain ⟨ph, pt, hP⟩ : ∃ ph pt, constPat c (b :: r2) = ph :: pt ∧ ph = (b.1, c) := by
        cases r2 with
        | nil => exact ⟨(b.1, c), [], rfl, rfl⟩
        | cons d r3 => exact ⟨(b.1, c), (b.1, c) :: constPat c (d :: r3), rfl, rfl⟩
      rw [hP.1, List.chain'_cons]
      refine ⟨?_, by rw [← hP.1]; exact h2⟩
      rw [hP.2]
      exact hch.1

theorem tAt_last (L : List (ℚ × ℚ)) (q : ℚ × ℚ) (h : L.getLast? = some q) :
    tAt L (L.length - 1) = q.1 := by
  have hne : L ≠ [] := by
    intro he
    rw [he] at h
    simp at h
  have hlt : L.length - 1 < L.length := by
    have := List.length_pos.mpr hne
    omega
  unfold tAt
  rw [List.getD_eq_getElem _ _ hlt]
  rw [List.getLast?_eq_getElem?, List.getElem?_eq_getElem hlt] at h
  simp only [Option.some.injEq] at h
  rw [h]

theorem integ_const (c fAD : ℚ) : ∀ (L : List (ℚ × ℚ)) (t1 dz dt : ℚ),
    (∀ p ∈ L, p.2 = c) → dz = c * dt →
    List.Chain' (· ≤ ·) (t1 :: L.map Prod.fst) →
    (integDtz fAD L t1 c dz dt).1 = c * (integDtz fAD L t1 c dz dt).2 ∧
    dt + ((L.map Prod.fst).getLastD t1 - t1) / 1000 ≤ (integDtz fAD L t1 c dz dt).2 := by
  intro L
  induction L with
  | nil =>
    intro t1 dz dt hall hdz hch
    simp only [integDtz, List.map_nil, List.getLastD_nil]
    exact ⟨hdz, by simp⟩
  | cons p rest ih =>
    intro t1 dz dt hall hdz hch
    have hp2 : p.2 = c := hall p (by simp)
    have hch2 : List.Chain' (· ≤ ·) (p.1 :: rest.map Prod.fst) := by
      rw [List.map_cons, List.chain'_cons] at hch
      exact hch.2
    have ht1p : t1 ≤ p.1 := by
      rw [List.map_cons, List.chain'_cons] at hch
      exact hch.1
    simp only [integDtz, hp2]
    have hw : (1 : ℚ) / 1000 ≤ (if p.1 < fAD then (1 : ℚ) / 1000 else 1) := by
      split
      · exact le_refl _
      · norm_num
    have hw0 : (0 : ℚ) < (if p.1 < fAD then (1 : ℚ) / 1000 else 1) := by
      split <;> norm_num
    obtain ⟨ih1, ih2⟩ := ih p.1
      (dz + (p.1 - t1) * (if p.1 < fAD then (1 : ℚ) / 1000 else 1) * (c + c) / 2)
      (dt + (p.1 - t1) * (if p.1 < fAD then (1 : ℚ) / 1000 else 1))
      (fun q hq => hall q (by simp [hq]))
      (by rw [hdz]; ring) hch2
    refine ⟨ih1, ?_⟩
    rw [List.map_cons, List.getLastD_cons]
    have hmul : (p.1 - t1) * ((1 : ℚ) / 1000) ≤
        (p.1 - t1) * (if p.1 < fAD then (1 : ℚ) / 1000 else 1) :=
      mul_le_mul_of_nonneg_left hw (by linarith)
    have hd1 : (p.1 - t1) / 1000 = (p.1 - t1) * ((1 : ℚ) / 1000) := by ring
    have hsplit : ∀ x : ℚ, (x - t1) / 1000 = (x - p.1) / 1000 + (p.1 - t1) / 1000 := by
      intro x
      ring
    rw [hsplit]
    linarith [ih2]

/-- C1 amended: for two non-empty series with identical strictly increasing
timestamps where every height of B is the corresponding height of A plus a
constant c, CalcAlignment(A, B) returns -c (the negation of the claimed
value): the collected samples are B - A = c throughout, and the function
returns the negated weighted mean (calcalignment.py line 752). -/
theorem calcAlignment_const_shift (A : List (ℚ × ℚ)) (c : ℚ) (f : Option ℚ) (tol : ℚ)
    (hne : A ≠ []) (hs : List.Chain' (fun p q : ℚ × ℚ => p.1 < q.1) A) :
    CalcAlignment A (A.map (fun p : ℚ × ℚ => (p.1, p.2 + c))) f tol = .ok (-c) := by
  have hlen : 0 < A.length := List.length_pos.mpr hne
  have hcond : ¬ (A.length = 0 ∨ (A.map (fun p : ℚ × ℚ => (p.1, p.2 + c))).length = 0) := by
    rw [List.length_map]
    omega
  obtain ⟨s, hws, hdtz⟩ := walk_shifted_full A c hs (A.length - 1) 0 [] none none
    (A.length + (A.map (fun p : ℚ × ℚ => (p.1, p.2 + c))).length + 1) hlen rfl
    (by rw [List.length_map]; omega)
  have hdtz2 : s.dtz = constPat c A := by simpa using hdtz
  simp only [CalcAlignment, if_neg hcond]
  rw [hws]
  dsimp only
  rw [hdtz2]
  cases A with
  | nil => exact absurd rfl hne
  | cons a rest =>
    cases rest with
    | nil =>
      rw [if_neg (show ¬ constPat c [a] = [] by simp [constPat])]
      rw [if_pos (show (constPat c [a]).length = 1 ∨
          tAt (constPat c [a]) ((constPat c [a]).length - 1) = tAt (constPat c [a]) 0 from
        Or.inl (by simp [constPat]))]
      rw [show constPat c [a] = [(a.1, c)] from rfl]
      have hz : zAt [(a.1, c)] (1 - 1) = c := by simp [zAt]
      have hz0 : zAt [(a.1, c)] 0 = c := by simp [zAt]
      simp only [List.length_singleton, hz, hz0]
      rw [if_neg (show ¬ ([(a.1, c)] : List (ℚ × ℚ)) = [] by simp)]
      congr 1
      ring
    | cons b rest2 =>
      have hadj := tAt_adj_of_chain hs
      obtain ⟨q, hq1, hq2⟩ := constPat_last c (a :: b :: rest2) (by simp)
      have hlastA : tAt (a :: b :: rest2) ((a :: b :: rest2).length - 1) = q.1 :=
        tAt_last _ _ hq1
      have hfirstlt : a.1 < q.1 := by
        have h0 : tAt (a :: b :: rest2) 0 = a.1 := by simp [tAt]
        have := tAt_mono_of_adj hadj 0 ((a :: b :: rest2).length - 1) (by simp) (by simp)
        rw [h0, hlastA] at this
        exact this
      have hCne : constPat c (a :: b :: rest2) ≠ [] := by
        rw [show constPat c (a :: b :: rest2) =
          (a.1, c) :: (a.1, c) :: constPat c (b :: rest2) from rfl]
        simp
      rw [if_neg hCne]
      have hfirstP : tAt (constPat c (a :: b :: rest2)) 0 = a.1 := by
        rw [show constPat c (a :: b :: rest2) =
          (a.1, c) :: (a.1, c) :: constPat c (b :: rest2) from rfl]
        simp [tAt]
      have hlastP : tAt (constPat c (a :: b :: rest2))
          ((constPat c (a :: b :: rest2)).length - 1) = q.1 := by
        have := tAt_last (constPat c (a :: b :: rest2)) (q.1, c) hq2
        simpa using this
      rw [if_neg (show ¬ ((constPat c (a :: b :: rest2)).length = 1 ∨
          tAt (constPat c (a :: b :: rest2)) ((constPat c (a :: b :: rest2)).length - 1) =
            tAt (constPat c (a :: b :: rest2)) 0) from by
        rw [not_or]
        constructor
        · rw [show constPat c (a :: b :: rest2) =
            (a.1, c) :: (a.1, c) :: constPat c (b :: rest2) from rfl]
          simp
        · rw [hlastP, hfirstP]
          exact ne_of_gt hfirstlt)]
      rw [show constPat c (a :: b :: rest2) =
        (a.1, c) :: (a.1, c) :: constPat c (b :: rest2) from rfl]
      dsimp only
      have hchainA : List.Chain' (fun u v : ℚ × ℚ => u.1 ≤ v.1) (a :: b :: rest2) := by
        apply List.Chain'.imp _ hs
        intro u v h
        exact h.le
      have hchainP := constPat_chain c (a :: b :: rest2) hchainA
      rw [show constPat c (a :: b :: rest2) =
        (a.1, c) :: (a.1, c) :: constPat c (b :: rest2) from rfl] at hchainP
      have hchmap : List.Chain' (· ≤ ·)
          (a.1 :: ((a.1, c) :: constPat c (b :: rest2)).map Prod.fst) := by
        have := (List.chain'_map (Prod.fst (α := ℚ) (β := ℚ))).mpr hchainP
        simpa using this
      obtain ⟨ih1, ih2⟩ := integ_const c (f.getD 0) ((a.1, c) :: constPat c (b :: rest2))
        a.1 0 0
        (by
          intro p hp
          rcases List.mem_cons.mp hp with h | h
          · rw [h]
          · exact constPat_snd c (b :: rest2) p h)
        (by ring) hchmap
      have hlastMap : (((a.1, c) :: constPat c (b :: rest2)).map Prod.fst).getLastD a.1
          = q.1 := by
        have h1 : ((a.1, c) :: constPat c (b :: rest2)).getLast? = some (q.1, c) := by
          have h0 := hq2
          rw [show constPat c (a :: b :: rest2) =
            (a.1, c) :: (a.1, c) :: constPat c (b :: rest2) from rfl] at h0
          rwa [List.getLast?_cons_cons] at h0
        rw [List.getLastD_eq_getLast?, List.getLast?_map, h1]
        rfl
      rw [hlastMap] at ih2
      have hpos : 0 < (integDtz (f.getD 0) ((a.1, c) :: constPat c (b :: rest2))
          a.1 c 0 0).2 := by
        have hq : (0 : ℚ) < (q.1 - a.1) / 1000 := by
          apply div_pos
          · linarith
          · norm_num
        linarith
      rw [if_neg (show ¬ ((a.1, c) :: (a.1, c) :: constPat c (b :: rest2)) = [] by simp)]
      rw [if_neg (ne_of_gt hpos)]
      rw [ih1, mul_div_assoc, div_self (ne_of_gt hpos), mul_one]

theorem calcAlignment_const_shift_witness :
    CalcAlignment [((0 : ℚ), (5 : ℚ)), (10, 6)]
      ([((0 : ℚ), (5 : ℚ)), (10, 6)].map (fun p : ℚ × ℚ => (p.1, p.2 + 3))) none 30 =
      .ok (-3) :=
  calcAlignment_const_shift [(0, 5), (10, 6)] 3 none 30 (by simp)
    (by norm_num [List.chain'_cons])

/-! Bounds for statistics.median, and sortedness of MergeTZSeries. -/

theorem median_lb (l : List ℚ) (lo : ℚ) (hne : l ≠ []) (h : ∀ x ∈ l, lo ≤ x) :
    lo ≤ median l := by
  have hlen : 0 < l.length := List.length_pos.mpr hne
  have hperm := List.perm_insertionSort (· ≤ ·) l
  have hlen2 : (l.insertionSort (· ≤ ·)).length = l.length := hperm.length_eq
  have hmem : ∀ i, i < l.length → lo ≤ (l.insertionSort (· ≤ ·)).getD i 0 := by
    intro i hi
    apply h
    rw [List.getD_eq_getElem _ _ (by omega)]
    exact hperm.subset (List.getElem_mem _)
  unfold median
  split
  · exact hmem _ (by omega)
  · have h1 := hmem (l.length / 2 - 1) (by omega)
    have h2 := hmem (l.length / 2) (by omega)
    linarith

theorem median_ub (l : List ℚ) (hi : ℚ) (hne : l ≠ []) (h : ∀ x ∈ l, x < hi) :
    median l < hi := by
  have hlen : 0 < l.length := List.length_pos.mpr hne
  have hperm := List.perm_insertionSort (· ≤ ·) l
  have hlen2 : (l.insertionSort (· ≤ ·)).length = l.length := hperm.length_eq
  have hmem : ∀ i, i < l.length → (l.insertionSort (· ≤ ·)).getD i 0 < hi := by
    intro i hi2
    apply h
    rw [List.getD_eq_getElem _ _ (by omega)]
    exact hperm.subset (List.getElem_mem _)
  unfold median
  split
  · exact hmem _ (by omega)
  · have h1 := hmem (l.length / 2 - 1) (by omega)
    have h2 := hmem (l.length / 2) (by omega)
    linarith

theorem setLast_concat (l : List (ℚ × ℚ)) (x v : ℚ × ℚ) :
    setLast (l ++ [x]) v = l ++ [v] := by
  unfold setLast
  rw [List.dropLast_concat]

theorem mergeLoop_sorted (tol : ℚ) (htol : 0 < tol) :
    ∀ (rest : List (ℚ × ℚ)) (fin : List (ℚ × ℚ)) (cur : ℚ × ℚ) (tDup zDup : List ℚ),
    tDup ≠ [] → zDup ≠ [] →
    tDup.headD 0 = cur.1 →
    (∀ x ∈ tDup, cur.1 ≤ x ∧ x - cur.1 < tol) →
    List.Pairwise (· ≤ ·) (tDup ++ rest.map Prod.fst) →
    List.Pairwise (fun p q : ℚ × ℚ => p.1 < q.1) fin →
    (∀ y ∈ fin, y.1 < cur.1) →
    List.Pairwise (fun p q : ℚ × ℚ => p.1 < q.1)
      (mergeLoop tol rest (fin ++ [cur]) tDup zDup) := by
  intro rest
  induction rest with
  | nil =>
    intro fin cur tDup zDup htne hzne hhead hbound hsort hfin hfinlt
    have hmedlo : cur.1 ≤ median tDup := median_lb _ _ htne (fun x hx => (hbound x hx).1)
    simp only [mergeLoop]
    split
    · rw [setLast_concat]
      rw [List.pairwise_append]
      refine ⟨hfin, by simp, ?_⟩
      intro y hy q hq
      rw [List.mem_singleton] at hq
      rw [hq]
      exact lt_of_lt_of_le (hfinlt y hy) hmedlo
    · rw [List.pairwise_append]
      refine ⟨hfin, by simp, ?_⟩
      intro y hy q hq
      rw [List.mem_singleton] at hq
      rw [hq]
      exact hfinlt y hy
  | cons p rest2 ih =>
    intro fin cur tDup zDup htne hzne hhead hbound hsort hfin hfinlt
    obtain ⟨t, z⟩ := p
    have hmemcur : cur.1 ∈ tDup := by
      rw [← hhead]
      cases tDup with
      | nil => exact absurd rfl htne
      | cons t0 ts => simp
    have hsplit := List.pairwise_append.mp hsort
    have hcur_le_t : cur.1 ≤ t := by
      apply hsplit.2.2 cur.1 hmemcur
      simp
    have hmedlo : cur.1 ≤ median tDup := median_lb _ _ htne (fun x hx => (hbound x hx).1)
    have hmedhi : median tDup < cur.1 + tol :=
      median_ub _ _ htne (fun x hx => by linarith [(hbound x hx).2])
    simp only [mergeLoop]
    split
    · -- (t, z) joins the current run
      rename_i hcond
      have habs : t - cur.1 < tol := by
        have h2 := hcond.2
        rw [hhead, abs_lt] at h2
        linarith [h2.2]
      apply ih fin cur (tDup ++ [t]) (zDup ++ [z]) (by simp) (by simp)
      · cases tDup with
        | nil => exact absurd rfl htne
        | cons t0 ts => simpa using hhead
      · intro x hx
        rcases List.mem_append.mp hx with h | h
        · exact hbound x h
        · rw [List.mem_singleton] at h
          rw [h]
          exact ⟨hcur_le_t, habs⟩
      · rw [List.append_assoc]
        simpa using hsort
      · exact hfin
      · exact hfinlt
    · -- (t, z) closes the current run
      rename_i hcond
      have hge : tol ≤ t - cur.1 := by
        rcases not_and_or.mp hcond with h | h
        · exact absurd htne h
        · rw [hhead, not_lt, abs_of_nonneg (by linarith)] at h
          exact h
      rw [setLast_concat]
      have hall_lt_t : ∀ y ∈ fin ++ [(median tDup, median zDup)], y.1 < t := by
        intro y hy
        rcases List.mem_append.mp hy with h | h
        · have := hfinlt y h
          linarith
        · rw [List.mem_singleton] at h
          rw [h]
          dsimp only
          linarith
      apply ih (fin ++ [(median tDup, median zDup)]) (t, z) [t] [z] (by simp) (by simp)
        (by simp)
      · intro x hx
        rw [List.mem_singleton] at hx
        rw [hx]
        exact ⟨le_refl t, by linarith⟩
      · have h2 := hsplit.2.1
        simpa using h2
      · rw [List.pairwise_append]
        refine ⟨hfin, by simp, ?_⟩
        intro y hy q hq
        rw [List.mem_singleton] at hq
        rw [hq]
        exact lt_of_lt_of_le (hfinlt y hy) hmedlo
      · exact hall_lt_t

/-- C7 amended: for every input collection and positive timeTolerance the
merged series is strictly sorted by time; merged entries can, however, lie
within timeTolerance of each other, since a run's median time sits below the
run start plus the tolerance while the next run starts at least the
tolerance after the run start. -/
theorem mergeTZSeries_sorted (d : TzMap) (tol : ℚ) (htol : 0 < tol) :
    ∃ m, MergeTZSeries d tol = [(MERGE, m)] ∧
      List.Pairwise (fun p q : ℚ × ℚ => p.1 < q.1) m := by
  refine ⟨_, rfl, ?_⟩
  have hsorted : List.Sorted pairLE (((d.map Prod.snd).flatten).insertionSort pairLE) :=
    List.sorted_insertionSort pairLE _
  have hmap : List.Pairwise (· ≤ ·)
      ((((d.map Prod.snd).flatten).insertionSort pairLE).map Prod.fst) := by
    apply List.Pairwise.map Prod.fst _ hsorted
    intro a b hab
    rcases hab with h | ⟨h, _⟩
    · exact le_of_lt h
    · exact le_of_eq h
  cases h : ((d.map Prod.snd).flatten).insertionSort pairLE with
  | nil => simp [MergeTZSeries, h, mergeLoop]
  | cons p rest =>
    obtain ⟨t, z⟩ := p
    rw [h] at hmap
    show List.Pairwise (fun p q : ℚ × ℚ => p.1 < q.1)
      (mergeLoop tol ((t, z) :: rest) [] [] [])
    have hstep : mergeLoop tol ((t, z) :: rest) [] [] [] =
        mergeLoop tol rest ([] ++ [(t, z)]) [t] [z] := by
      simp only [mergeLoop]
      rw [if_neg (show ¬ (([] : List ℚ) ≠ [] ∧ |t - ([] : List ℚ).headD 0| < tol) from
        fun hc => hc.1 rfl)]
      rw [if_neg (show ¬ (([] : List ℚ) ≠ []) from fun hc => hc rfl)]
    rw [hstep]
    apply mergeLoop_sorted tol htol rest [] (t, z) [t] [z] (by simp) (by simp) (by simp)
    · intro x hx
      rw [List.mem_singleton] at hx
      rw [hx]
      exact ⟨le_refl t, by linarith⟩
    · simpa using hmap
    · simp
    · simp

theorem mergeTZSeries_sorted_witness :
    ∃ m, MergeTZSeries [("a", [(0, 0), (29, 0), (30, 0)])] 30 = [(MERGE, m)] ∧
      List.Pairwise (fun p q : ℚ × ℚ => p.1 < q.1) m :=
  mergeTZSeries_sorted [("a", [(0, 0), (29, 0), (30, 0)])] 30 (by norm_num)


theorem alistSetG_keys (m : TzMap) (k : String) (v : List (ℚ × ℚ)) :
    (alistSetG m k v).map Prod.fst =
      if m.any (fun kv => kv.1 = k) then m.map Prod.fst else m.map Prod.fst ++ [k] := by
  unfold alistSetG
  split
  · rw [List.map_map]
    apply List.map_congr_left
    intro kv _
    simp only [Function.comp_apply]
    split
    · rename_i hh
      exact hh.symm
    · rfl
  · simp

/-- C4 amended: AlignAllMedian and AlignAllMedian2Level leave the caller's
input mapping unchanged (both copy on entry, calcalignment.py line 406);
AlignMedian hands the caller back the shifted mapping whose key list is the
input's keys with the MEDIAN key replaced in place or appended; and
AlignAllSegmentMedian keeps exactly the caller's keys, only overwriting the
heights of the series of the found segment in place. -/
theorem align_effects :
    (∀ (d : TzMap) (r : ℚ) (a : Option ℚ) (t : ℚ), AlignAllMedianEffect d r a t = d) ∧
    (∀ (md : List (String × TzMap)) (r : ℚ) (a : Option ℚ) (t : ℚ),
      AlignAllMedian2LevelEffect md r a t = md) ∧
    (∀ (d : TzMap) (r : ℚ) (a : Option ℚ) (t : ℚ) (res : TzMap),
      AlignMedian d r a t = .ok res →
      AlignMedianEffect d r a t = res ∧
      res.map Prod.fst = (if d.any (fun kv => kv.1 = MEDIAN) then d.map Prod.fst
                          else d.map Prod.fst ++ [MEDIAN])) ∧
    (∀ (d : TzMap) (r t : ℚ) (a : Option ℚ),
      (AlignAllSegmentMedianEffect d r t a).map Prod.fst = d.map Prod.fst) := by
  refine ⟨fun _ _ _ _ => rfl, fun _ _ _ _ => rfl, ?_, ?_⟩
  · intro d r a t res h
    constructor
    · unfold AlignMedianEffect
      rw [h]
    · unfold AlignMedian at h
      rcases hA : AnalyzeTZSeries d a t with e | out
      · rw [hA] at h
        exact absurd h (by simp)
      · rw [hA] at h
        obtain ⟨tzMeds, rest2⟩ := out
        rcases hI : Interpolate ((tzMeds.lookup MEDIAN).getD []) r false with _ | dz
        · simp only [hI] at h
          exact absurd h (by simp)
        · simp only [hI] at h
          have hres : res = (alistSetG d MEDIAN ((tzMeds.lookup MEDIAN).getD [])).map
              (fun kv => (kv.1, kv.2.map (fun tz : ℚ × ℚ => (tz.1, tz.2 - dz)))) := by
            have := h
            simp only [Except.ok.injEq] at this
            exact this.symm
          rw [hres, List.map_map]
          have hcomp : (Prod.fst ∘ fun kv : String × List (ℚ × ℚ) =>
              (kv.1, kv.2.map (fun tz : ℚ × ℚ => (tz.1, tz.2 - dz)))) = Prod.fst := by
            funext kv
            rfl
          rw [hcomp, alistSetG_keys]
  · intro d r t a
    unfold AlignAllSegmentMedianEffect
    rcases hA : AnalyzeTZSeries d a t with e | out
    · rfl
    · obtain ⟨tzMed, segMap, dzm⟩ := out
      dsimp only
      rcases hF : findCoverSeg tzMed r t with e | og
      · rfl
      · rcases og with _ | ⟨g0, tz0, dz⟩
        · rfl
        · dsimp only
          rw [List.map_map]
          apply List.map_congr_left
          intro kv _
          simp only [Function.comp_apply]
          split
          · rfl
          · rfl

theorem align_effects_witness :
    AlignAllMedianEffect [("a", [(0, 1), (10, 2)])] 0 none 30 = [("a", [(0, 1), (10, 2)])] ∧
    AlignMedianEffect [("a", [(0, 1), (10, 2)])] 0 none 30 =
      [("a", [(0, 0), (10, 1)]), (MEDIAN, [(0, 0), (10, 1)])] := by
  constructor
  · exact align_effects.1 [("a", [(0, 1), (10, 2)])] 0 none 30
  · exact (align_effects.2.2.1 [("a", [(0, 1), (10, 2)])] 0 none 30
      [("a", [(0, 0), (10, 1)]), (MEDIAN, [(0, 0), (10, 1)])]
      (by with_unfolding_all rfl)).1

/-! Infrastructure for AnalyzeTZSeries: duplicate collapse, the sorted
timeline, cursor advances, and per-interval derivatives. -/

theorem dedupLoop_no_dup : ∀ (l acc : List (ℚ × ℚ)) (zp : List ℚ) (tp : ℚ),
    List.Chain' (· ≠ ·) (tp :: l.map Prod.fst) →
    dedupLoop l acc false (some tp) zp = acc ++ l := by
  intro l
  induction l with
  | nil => intro acc zp tp _; simp [dedupLoop]
  | cons a rest ih =>
    intro acc zp tp hch
    rw [List.map_cons, List.chain'_cons] at hch
    simp only [dedupLoop]
    rw [if_neg (show ¬ (some a.1 = some tp) from fun h => hch.1 (by
      injection h with h2
      exact h2.symm))]
    simp only [Bool.false_eq_true, if_false]
    rw [ih (acc ++ [a]) [a.2] a.1 hch.2]
    simp

theorem dedupTZ_distinct (S : List (ℚ × ℚ))
    (hs : List.Chain' (· ≠ ·) (S.map Prod.fst)) : dedupTZ S = S := by
  cases S with
  | nil => rfl
  | cons a rest =>
    unfold dedupTZ
    simp only [dedupLoop]
    rw [if_neg (show ¬ (some a.1 = none) by simp)]
    simp only [Bool.false_eq_true, if_false]
    rw [dedupLoop_no_dup rest ([] ++ [a]) [a.2] a.1 (by simpa using hs)]
    simp

theorem sortedTimes_pair (kA kB : String) (S : List (ℚ × ℚ))
    (hs : List.Chain' (fun p q : ℚ × ℚ => p.1 < q.1) S) :
    sortedTimes [(kA, S), (kB, S)] = S.map Prod.fst := by
  unfold sortedTimes
  have hTch : List.Chain' (· < ·) (S.map Prod.fst) := (List.chain'_map Prod.fst).mpr hs
  have hTpw : List.Pairwise (· < ·) (S.map Prod.fst) := List.chain'_iff_pairwise.mp hTch
  have hTnodup : (S.map Prod.fst).Nodup := List.Pairwise.imp ne_of_lt hTpw
  have hTsorted : List.Sorted (· ≤ ·) (S.map Prod.fst) := List.Pairwise.imp le_of_lt hTpw
  have hflat : (([(kA, S), (kB, S)].map Prod.snd).flatten).map Prod.fst =
      S.map Prod.fst ++ S.map Prod.fst := by simp
  rw [hflat]
  have hdnodup : (S.map Prod.fst ++ S.map Prod.fst).dedup.Nodup := List.nodup_dedup _
  have hperm1 := List.perm_insertionSort (· ≤ ·) (S.map Prod.fst ++ S.map Prod.fst).dedup
  have hpermT : ((S.map Prod.fst ++ S.map Prod.fst).dedup).Perm (S.map Prod.fst) := by
    apply List.perm_of_nodup_nodup_toFinset_eq hdnodup hTnodup
    ext x
    simp [List.mem_dedup]
  exact List.eq_of_perm_of_sorted (hperm1.trans hpermT)
    (List.sorted_insertionSort _ _) hTsorted

theorem advLoop_next (sub : List (ℚ × ℚ)) (t1 : ℚ) (j : Nat) (hj : j + 1 ≤ sub.length)
    (h1 : tAt sub j < t1) (h2 : j + 1 < sub.length → ¬ tAt sub (j + 1) < t1) :
    advLoop sub t1 (sub.length + 1) j = j + 1 := by
  obtain ⟨m, hm⟩ : ∃ m, sub.length = m + 1 := ⟨sub.length - 1, by omega⟩
  rw [hm]
  show advLoop sub t1 (m + 1 + 1) j = j + 1
  rw [advLoop]
  rw [if_pos ⟨by omega, h1⟩]
  rcases Nat.lt_or_ge (j + 1) sub.length with h | h
  · obtain ⟨m2, hm2⟩ : ∃ m2, m + 1 = m2 + 1 := ⟨m, rfl⟩
    rw [advLoop]
    rw [if_neg (fun hc => h2 h hc.2)]
  · obtain ⟨m2, hm2⟩ : ∃ m2, m + 1 = m2 + 1 := ⟨m, rfl⟩
    rw [advLoop]
    rw [if_neg (fun hc => by omega)]

theorem derivOne_adj (sub : List (ℚ × ℚ)) (j : Nat) (tol : ℚ) (htol : 0 ≤ tol)
    (hj : j + 1 < sub.length) (hlt : tAt sub j < tAt sub (j + 1)) :
    derivOne sub (j + 1) (tAt sub j) (tAt sub (j + 1)) tol =
      some ((zAt sub (j + 1) - zAt sub j) / (tAt sub (j + 1) - tAt sub j)) := by
  unfold derivOne
  rw [if_pos (show 0 < j + 1 ∧ j + 1 < sub.length from ⟨by omega, hj⟩)]
  simp only [Nat.add_sub_cancel]
  rw [if_pos (show tAt sub j - tol < (tAt sub j + tAt sub (j + 1)) / 2 ∧
      (tAt sub j + tAt sub (j + 1)) / 2 ≤ tAt sub (j + 1) + tol from
    ⟨by linarith, by linarith⟩)]

theorem median_two (x : ℚ) : median [x, x] = x := by
  unfold median
  simp only [List.insertionSort, List.orderedInsert]
  rw [if_pos (le_refl x)]
  norm_num

theorem mapShift_getD (A : List (ℚ × ℚ)) (f : ℚ → ℚ) (k : Nat) (hk : k < A.length) :
    (A.map (fun p : ℚ × ℚ => (p.1, f p.2))).getD k (0, 0) =
      ((A.getD k (0, 0)).1, f (A.getD k (0, 0)).2) := by
  rw [List.getD_eq_getElem _ _ (by simpa using hk), List.getD_eq_getElem _ _ hk,
    List.getElem_map]

/-- Two identical series advance their cursors in lockstep and integrate the
common derivative: one step of the median loop from the aligned state. -/
theorem mainStep_pair (S : List (ℚ × ℚ)) (tol : ℚ) (htol : 0 ≤ tol)
    (hs : List.Chain' (fun p q : ℚ × ℚ => p.1 < q.1) S)
    (j : Nat) (hj : j + 1 < S.length) :
    mainStep [S, S] tol
      { idxs := [j, j], t1 := tAt S j, z1 := zAt S j - zAt S 0,
        segs := [(S.take (j + 1)).map (fun p : ℚ × ℚ => (p.1, p.2 - zAt S 0))] }
      (tAt S (j + 1)) =
      { idxs := [j + 1, j + 1], t1 := tAt S (j + 1), z1 := zAt S (j + 1) - zAt S 0,
        segs := [(S.take (j + 2)).map (fun p : ℚ × ℚ => (p.1, p.2 - zAt S 0))] } := by
  have hlt : tAt S j < tAt S (j + 1) := tAt_adj_of_chain hs j hj
  have hadv : advanceIdx S (tAt S (j + 1)) tol j = j + 1 := by
    unfold advanceIdx
    rw [advLoop_next S (tAt S (j + 1)) j (by omega) hlt (fun _ => lt_irrefl _)]
    exact if_neg (fun hc => absurd hc.1 (by omega))
  have hderiv := derivOne_adj S j tol htol hj hlt
  have hΔ : tAt S (j + 1) - tAt S j ≠ 0 := sub_ne_zero.mpr (ne_of_gt hlt)
  unfold mainStep
  dsimp only
  simp only [List.zipWith_cons_cons, List.zipWith_nil_left, hadv, hderiv,
    List.reduceOption_cons_of_some, List.reduceOption_nil]
  rw [if_pos (List.cons_ne_nil _ _)]
  rw [median_two]
  have hz : zAt S j - zAt S 0 +
      (zAt S (j + 1) - zAt S j) / (tAt S (j + 1) - tAt S j) * (tAt S (j + 1) - tAt S j) =
      zAt S (j + 1) - zAt S 0 := by
    rw [div_mul_cancel₀ _ hΔ]
    ring
  rw [hz]
  have hseg : appendLast [(S.take (j + 1)).map (fun p : ℚ × ℚ => (p.1, p.2 - zAt S 0))]
      (tAt S (j + 1), zAt S (j + 1) - zAt S 0) =
      [(S.take (j + 2)).map (fun p : ℚ × ℚ => (p.1, p.2 - zAt S 0))] := by
    unfold appendLast
    simp only [List.dropLast_single, List.getLastD_cons, List.getLastD_nil, List.nil_append]
    have ht2 : S.take (j + 2) = S.take (j + 1) ++ [S.get ⟨j + 1, hj⟩] := by
      rw [List.take_succ]
      rw [List.getElem?_eq_getElem hj]
      rfl
    rw [ht2, List.map_append, List.map_cons, List.map_nil]
    have hg : tAt S (j + 1) = (S.get ⟨j + 1, hj⟩).1 := by
      unfold tAt
      rw [List.getD_eq_getElem _ _ hj]
      rfl
    have hgz : zAt S (j + 1) = (S.get ⟨j + 1, hj⟩).2 := by
      unfold zAt
      rw [List.getD_eq_getElem _ _ hj]
      rfl
    rw [hg, hgz]
  rw [hseg]

/-- Iterating the median loop over the tail of the shared timeline keeps the
two identical series in the aligned state all the way to the last point. -/
theorem mainLoop_pair (S : List (ℚ × ℚ)) (tol : ℚ) (htol : 0 ≤ tol)
    (hs : List.Chain' (fun p q : ℚ × ℚ => p.1 < q.1) S) :
    ∀ m j, j < S.length → S.length - 1 - j = m →
    mainLoop [S, S] tol ((S.map Prod.fst).drop (j + 1))
      { idxs := [j, j], t1 := tAt S j, z1 := zAt S j - zAt S 0,
        segs := [(S.take (j + 1)).map (fun p : ℚ × ℚ => (p.1, p.2 - zAt S 0))] } =
      { idxs := [S.length - 1, S.length - 1], t1 := tAt S (S.length - 1),
        z1 := zAt S (S.length - 1) - zAt S 0,
        segs := [(S.take (S.length - 1 + 1)).map
          (fun p : ℚ × ℚ => (p.1, p.2 - zAt S 0))] } := by
  intro m
  induction m with
  | zero =>
    intro j hj hm
    have hje : j = S.length - 1 := by omega
    subst hje
    have hd : (S.map Prod.fst).drop (S.length - 1 + 1) = [] := by
      apply List.drop_eq_nil_of_le
      simp
      omega
    rw [hd]
    rfl
  | succ m ih =>
    intro j hj hm
    have hj1 : j + 1 < S.length := by omega
    have hj1m : j + 1 < (S.map Prod.fst).length := by simpa using hj1
    have hd : (S.map Prod.fst).drop (j + 1) =
        tAt S (j + 1) :: (S.map Prod.fst).drop (j + 2) := by
      rw [List.drop_eq_getElem_cons hj1m]
      congr 1
      rw [List.getElem_map]
      unfold tAt
      rw [List.getD_eq_getElem _ _ hj1]
    rw [hd]
    show mainLoop [S, S] tol ((S.map Prod.fst).drop (j + 2))
      (mainStep [S, S] tol _ (tAt S (j + 1))) = _
    rw [mainStep_pair S tol htol hs j hj1]
    exact ih (j + 1) hj1 (by omega)

/-- Per-series integration of one series against its own shifted copy: the
accumulated dz stays proportional to the accumulated weight, and the weight
grows at least with elapsed time over 100. -/
theorem dzStep_pair (S : List (ℚ × ℚ)) (aD : ℚ)
    (hs : List.Chain' (fun p q : ℚ × ℚ => p.1 < q.1) S) :
    ∀ m j dz dt, j < S.length → S.length - 1 - j = m →
    dz = -(zAt S 0) * dt → (tAt S j - tAt S 0) / 100 ≤ dt →
    ∃ dtf, dzStep S aD ((S.drop (j + 1)).map (fun p : ℚ × ℚ => (p.1, p.2 - zAt S 0))) j
        (tAt S j) (zAt S j - zAt S 0) dz dt = (-(zAt S 0) * dtf, dtf) ∧
      (tAt S (S.length - 1) - tAt S 0) / 100 ≤ dtf := by
  intro m
  induction m with
  | zero =>
    intro j dz dt hj hm hdz hdt
    have hje : j = S.length - 1 := by omega
    have hd : S.drop (j + 1) = [] := List.drop_eq_nil_of_le (by omega)
    rw [hd, List.map_nil]
    exact ⟨dt, by rw [dzStep, hdz], by rw [← hje]; exact hdt⟩
  | succ m ih =>
    intro j dz dt hj hm hdz hdt
    have hj1 : j + 1 < S.length := by omega
    have hlt : tAt S j < tAt S (j + 1) := tAt_adj_of_chain hs j hj1
    have hΔ : tAt S (j + 1) - tAt S j ≠ 0 := sub_ne_zero.mpr (ne_of_gt hlt)
    have hadv : advLoop S (tAt S (j + 1)) (S.length + 1) j = j + 1 :=
      advLoop_next S (tAt S (j + 1)) j (by omega) hlt (fun _ => lt_irrefl _)
    have hd : (S.drop (j + 1)).map (fun p : ℚ × ℚ => (p.1, p.2 - zAt S 0)) =
        (tAt S (j + 1), zAt S (j + 1) - zAt S 0) ::
          (S.drop (j + 2)).map (fun p : ℚ × ℚ => (p.1, p.2 - zAt S 0)) := by
      rw [List.drop_eq_getElem_cons hj1, List.map_cons]
      congr 2
      · unfold tAt
        rw [List.getD_eq_getElem _ _ hj1]
      · unfold zAt
        rw [List.getD_eq_getElem _ _ hj1]
    rw [hd]
    simp only [dzStep, hadv, Nat.add_sub_cancel]
    rw [if_pos (show 0 < j + 1 ∧ j + 1 < S.length from ⟨by omega, hj1⟩)]
    rw [if_pos (show tAt S j ≥ tAt S j ∧ tAt S (j + 1) ≤ tAt S (j + 1) from
      ⟨le_refl _, le_refl _⟩)]
    have hz0i : (tAt S j - tAt S j) / (tAt S (j + 1) - tAt S j) *
        (zAt S (j + 1) - zAt S j) + zAt S j = zAt S j := by
      rw [sub_self, zero_div, zero_mul, zero_add]
    have hz1i : (tAt S (j + 1) - tAt S j) / (tAt S (j + 1) - tAt S j) *
        (zAt S (j + 1) - zAt S j) + zAt S j = zAt S (j + 1) := by
      rw [div_self hΔ, one_mul]
      ring
    rw [hz0i, hz1i]
    have hw : (1 : ℚ) / 100 ≤ if tAt S j < aD then (1 : ℚ) / 100 else 1 := by
      rcases lt_or_ge (tAt S j) aD with h | h
      · rw [if_pos h]
      · rw [if_neg (not_lt.mpr h)]
        norm_num
    have hwle := mul_le_mul_of_nonneg_left hw (le_of_lt (sub_pos.mpr hlt))
    apply ih (j + 1)
    · exact hj1
    · omega
    · rw [hdz]
      ring
    · linarith [hdt, hwle]

theorem mapShift_tAt (A : List (ℚ × ℚ)) (f : ℚ → ℚ) (k : Nat) (hk : k < A.length) :
    tAt (A.map (fun p : ℚ × ℚ => (p.1, f p.2))) k = tAt A k := by
  unfold tAt
  rw [mapShift_getD A f k hk]

/-- Shifting a series by its own first height and integrating it against that
shifted copy yields the shift minus the first height, with nonnegative
weight. -/
theorem seriesDz_self (S : List (ℚ × ℚ)) (aD : ℚ) (hne : S ≠ [])
    (hs : List.Chain' (fun p q : ℚ × ℚ => p.1 < q.1) S) :
    ∃ dtv, seriesDz S (S.map (fun p : ℚ × ℚ => (p.1, p.2 - zAt S 0))) aD =
        some (-(zAt S 0), dtv) ∧ 0 ≤ dtv := by
  match S, hne with
  | p :: rest, _ =>
  by_cases h1 : (p :: rest).length = 1
  · have hr : rest = [] := by
      simp only [List.length_cons] at h1
      exact List.eq_nil_of_length_eq_zero (by omega)
    subst hr
    refine ⟨0, ?_, le_refl 0⟩
    unfold seriesDz
    rw [if_pos h1]
    unfold singletonDz
    simp only [List.map_cons, List.map_nil, List.foldl]
    rw [if_pos (show p.1 = tAt [p] 0 from rfl)]
    unfold zAt
    norm_num
  · have hlen : 2 ≤ (p :: rest).length := by
      simp only [List.length_cons] at h1 ⊢
      omega
    obtain ⟨dtf, heq, hbound⟩ := dzStep_pair (p :: rest) aD hs ((p :: rest).length - 1 - 0)
      0 0 0 (by omega) rfl (by ring) (by rw [sub_self, zero_div])
    have hpos : 0 < dtf := by
      have hmono := tAt_mono_of_adj (tAt_adj_of_chain hs) 0 ((p :: rest).length - 1)
        (by omega) (by omega)
      have : 0 < (tAt (p :: rest) ((p :: rest).length - 1) - tAt (p :: rest) 0) / 100 := by
        apply div_pos (by linarith) (by norm_num)
      linarith
    refine ⟨dtf, ?_, le_of_lt hpos⟩
    unfold seriesDz
    rw [if_neg h1]
    simp only [List.map_cons]
    have hrw : dzStep (p :: rest) aD (rest.map (fun q : ℚ × ℚ =>
        (q.1, q.2 - zAt (p :: rest) 0))) 0 p.1 (p.2 - zAt (p :: rest) 0) 0 0 =
        (-zAt (p :: rest) 0 * dtf, dtf) := heq
    show (let r := dzStep (p :: rest) aD (rest.map (fun q : ℚ × ℚ =>
        (q.1, q.2 - zAt (p :: rest) 0))) 0 p.1 (p.2 - zAt (p :: rest) 0) 0 0
      if r.2 > 0 then some (r.1 / r.2, r.2) else some (r.1, r.2)) =
      some (-zAt (p :: rest) 0, dtf)
    rw [hrw]
    rw [if_pos hpos]
    rw [mul_div_cancel_right₀ _ (ne_of_gt hpos)]

/-- The self-shifted consensus segment covers the first time of the series,
and it is the first (only) segment, so the assignment is segment 0. -/
theorem segIdxFor_self (S : List (ℚ × ℚ)) (hne : S ≠ [])
    (hs : List.Chain' (fun p q : ℚ × ℚ => p.1 < q.1) S) :
    segIdxFor [S.map (fun p : ℚ × ℚ => (p.1, p.2 - zAt S 0))] (tAt S 0) = some 0 := by
  have hlen : 0 < S.length := List.length_pos.mpr hne
  have h0 : tAt (S.map (fun p : ℚ × ℚ => (p.1, p.2 - zAt S 0))) 0 = tAt S 0 :=
    mapShift_tAt S (fun z => z - zAt S 0) 0 hlen
  have hlast : tAt S 0 ≤ tAt S (S.length - 1) := by
    rcases Nat.eq_or_lt_of_le (Nat.one_le_of_lt (Nat.lt_of_lt_of_le hlen (le_refl _))) with h | h
    · exact le_of_eq (by rw [← h])
    · rcases Nat.lt_or_ge 1 S.length with h2 | h2
      · exact le_of_lt (tAt_mono_of_adj (tAt_adj_of_chain hs) 0 (S.length - 1)
          (by omega) (by omega))
      · have : S.length = 1 := by omega
        rw [this]
  have hlast2 : tAt (S.map (fun p : ℚ × ℚ => (p.1, p.2 - zAt S 0)))
      ((S.map (fun p : ℚ × ℚ => (p.1, p.2 - zAt S 0))).length - 1) =
      tAt S (S.length - 1) := by
    rw [List.length_map]
    exact mapShift_tAt S (fun z => z - zAt S 0) (S.length - 1) (by omega)
  unfold segIdxFor
  rw [List.findIdx?_cons]
  rw [h0, hlast2]
  rw [if_pos (by exact decide_eq_true ⟨le_refl _, hlast⟩)]

/-- Averaging two identical entries of segment 0. -/
theorem segAvgs_pair (kA kB : String) (dz dt : ℚ) :
    segAvgs [⟨kA, 0, dz, dt⟩, ⟨kB, 0, dz, dt⟩] 1 =
      .ok [(0 + dz * max (1 / 1000) dt + dz * max (1 / 1000) dt) /
        (0 + max (1 / 1000) dt + max (1 / 1000) dt)] := by
  with_unfolding_all rfl

/-- C2: for a two-series input to AnalyzeTZSeries in which both series are the
same non-empty strictly time-increasing sequence, the call succeeds, the
consensus (median) curve equals the input series point-for-point (one segment,
whose curve is also the input series), both series are assigned to segment 0,
and both returned per-series shifts are exactly 0. -/
theorem analyzeTZSeries_identical_pair (kA kB : String) (S : List (ℚ × ℚ))
    (afterDate : Option ℚ) (tol : ℚ) (htol : 0 ≤ tol) (hk : kA ≠ kB) (hne : S ≠ [])
    (hs : List.Chain' (fun p q : ℚ × ℚ => p.1 < q.1) S) :
    AnalyzeTZSeries [(kA, S), (kB, S)] afterDate tol =
      .ok ([(MEDIAN, S), (MEDIAN_SEGMENT ++ Nat.repr 0, S)],
           [(kA, MEDIAN_SEGMENT ++ Nat.repr 0), (kB, MEDIAN_SEGMENT ++ Nat.repr 0)],
           [(kA, 0), (kB, 0)]) := by
  have hlen : 0 < S.length := List.length_pos.mpr hne
  have hTlt : List.Chain' (· < ·) (S.map Prod.fst) := (List.chain'_map Prod.fst).mpr hs
  have hded : dedupTZ S = S := dedupTZ_distinct S (hTlt.imp (fun _ _ h => ne_of_lt h))
  have hST := sortedTimes_pair kA kB S hs
  have hT : S.map Prod.fst = tAt S 0 :: (S.map Prod.fst).drop (0 + 1) := by
    conv_lhs => rw [← List.drop_zero (S.map Prod.fst)]
    rw [List.drop_eq_getElem_cons (show 0 < (S.map Prod.fst).length by simpa using hlen)]
    congr 1
    rw [List.getElem_map]
    unfold tAt
    rw [List.getD_eq_getElem _ _ hlen]
  have htake : S.take (S.length - 1 + 1) = S := by
    rw [show S.length - 1 + 1 = S.length from by omega]
    exact List.take_length S
  have hst := mainLoop_pair S tol htol hs (S.length - 1 - 0) 0 hlen rfl
  rw [sub_self, htake] at hst
  have hseg0 : (S.take (0 + 1)).map (fun p : ℚ × ℚ => (p.1, p.2 - zAt S 0)) =
      [(tAt S 0, (0 : ℚ))] := by
    rw [List.take_succ, List.take_zero, List.getElem?_eq_getElem hlen]
    simp only [List.nil_append, Option.toList_some, List.map_cons, List.map_nil]
    congr 1
    refine Prod.ext_iff.mpr ⟨?_, ?_⟩
    · show (S[0].1 : ℚ) = tAt S 0
      unfold tAt
      rw [List.getD_eq_getElem _ _ hlen]
    · show (S[0].2 - zAt S 0 : ℚ) = 0
      unfold zAt
      rw [List.getD_eq_getElem _ _ hlen]
      exact sub_self _
  rw [hseg0] at hst
  obtain ⟨dtv, hsd, hdtv⟩ := seriesDz_self S (afterDate.getD (1 / 10000000000)) hne hs
  have hsi := segIdxFor_self S hne hs
  have hw : (0 : ℚ) < max (1 / 1000) dtv :=
    lt_of_lt_of_le (by norm_num) (le_max_left _ _)
  have havg : (0 + -zAt S 0 * max (1 / 1000) dtv + -zAt S 0 * max (1 / 1000) dtv) /
      (0 + max (1 / 1000) dtv + max (1 / 1000) dtv) = -zAt S 0 := by
    rw [show (0 + -zAt S 0 * max (1 / 1000) dtv + -zAt S 0 * max (1 / 1000) dtv : ℚ) =
      -zAt S 0 * (max (1 / 1000) dtv + max (1 / 1000) dtv) from by ring]
    rw [show ((0 : ℚ) + max (1 / 1000) dtv + max (1 / 1000) dtv) =
      max (1 / 1000) dtv + max (1 / 1000) dtv from by ring]
    exact mul_div_cancel_right₀ _ (by linarith)
  unfold AnalyzeTZSeries
  rw [if_neg (show ¬ (([(kA, S), (kB, S)] : TzMap).length = 0) by simp)]
  dsimp only
  simp only [List.map_cons, List.map_nil]
  rw [hded]
  rw [hST, hT]
  dsimp only
  rw [hst]
  dsimp only
  rw [if_neg (fun hc => hne (List.isEmpty_iff.mp hc))]
  rw [hsi]
  simp only [List.zip_cons_cons, List.zip_nil_right, List.zipWith_cons_cons,
    List.zipWith_nil_right]
  simp only [collectDz, List.getD_cons_zero]
  rw [hsd]
  simp only [Except.map]
  rw [show ([S.map (fun p : ℚ × ℚ => (p.1, p.2 - zAt S 0))] :
    List (List (ℚ × ℚ))).length = 1 from rfl]
  rw [segAvgs_pair kA kB (-zAt S 0) dtv]
  dsimp only
  rw [havg]
  simp only [List.zipWith_cons_cons, List.zipWith_nil_right]
  have hcollapse : (S.map (fun p : ℚ × ℚ => (p.1, p.2 - zAt S 0))).map
      (fun tz : ℚ × ℚ => (tz.1, tz.2 - -zAt S 0)) = S := by
    rw [List.map_map]
    have hpt : ∀ p : ℚ × ℚ, p ∈ S → ((fun tz : ℚ × ℚ => (tz.1, tz.2 - -zAt S 0)) ∘
        (fun q : ℚ × ℚ => (q.1, q.2 - zAt S 0))) p = id p := by
      intro p _
      simp only [Function.comp_apply, id_eq]
      refine Prod.ext_iff.mpr ⟨rfl, ?_⟩
      show p.2 - zAt S 0 - -zAt S 0 = p.2
      ring
    rw [List.map_congr_left hpt, List.map_id]
  rw [hcollapse]
  simp only [List.flatten_cons, List.flatten_nil, List.append_nil]
  rw [show List.enum [S] = [(0, S)] from rfl]
  simp only [List.map_cons, List.map_nil, List.filterMap_cons, Option.map_some',
    List.getD_cons_zero, List.filterMap_nil]
  rw [sub_self]

/-- Witness for the identical-pair theorem at a concrete input. -/
theorem analyzeTZSeries_identical_pair_witness :
    ((0 : ℚ) ≤ 30 ∧ ("a" : String) ≠ "b" ∧
      ([((0 : ℚ), (5 : ℚ)), (10, 7)] : List (ℚ × ℚ)) ≠ [] ∧
      List.Chain' (fun p q : ℚ × ℚ => p.1 < q.1) [((0 : ℚ), (5 : ℚ)), (10, 7)]) ∧
    AnalyzeTZSeries [("a", [(0, 5), (10, 7)]), ("b", [(0, 5), (10, 7)])] none 30 =
      .ok ([(MEDIAN, [(0, 5), (10, 7)]), (MEDIAN_SEGMENT ++ Nat.repr 0, [(0, 5), (10, 7)])],
           [("a", MEDIAN_SEGMENT ++ Nat.repr 0), ("b", MEDIAN_SEGMENT ++ Nat.repr 0)],
           [("a", 0), ("b", 0)]) := by
  have hch : List.Chain' (fun p q : ℚ × ℚ => p.1 < q.1) [((0 : ℚ), (5 : ℚ)), (10, 7)] :=
    List.chain'_cons.mpr ⟨by norm_num, List.chain'_singleton _⟩
  exact ⟨⟨by norm_num, by decide, List.cons_ne_nil _ _, hch⟩,
    analyzeTZSeries_identical_pair "a" "b" [(0, 5), (10, 7)] none 30 (by norm_num)
      (by decide) (List.cons_ne_nil _ _) hch⟩

/-! General properties of the cursor-advance loop, for the segment-partition
invariant. -/

theorem advLoop_char (sub : List (ℚ × ℚ)) (t1 : ℚ) :
    ∀ fuel idx, idx ≤ sub.length → sub.length - idx ≤ fuel →
    idx ≤ advLoop sub t1 fuel idx ∧ advLoop sub t1 fuel idx ≤ sub.length ∧
      (advLoop sub t1 fuel idx < sub.length → ¬ tAt sub (advLoop sub t1 fuel idx) < t1) ∧
      (∀ i, idx ≤ i → i < advLoop sub t1 fuel idx → tAt sub i < t1) := by
  intro fuel
  induction fuel with
  | zero =>
    intro idx h1 h2
    simp only [advLoop]
    exact ⟨le_refl _, h1, fun h => absurd h (by omega), fun i hi1 hi2 => by omega⟩
  | succ fuel ih =>
    intro idx h1 h2
    rw [advLoop]
    by_cases hc : idx < sub.length ∧ tAt sub idx < t1
    · rw [if_pos hc]
      obtain ⟨ha, hb, hcc, hd⟩ := ih (idx + 1) (by omega) (by omega)
      refine ⟨by omega, hb, hcc, ?_⟩
      intro i hi1 hi2
      rcases Nat.eq_or_lt_of_le hi1 with he | hlt2
      · rw [← he]
        exact hc.2
      · exact hd i (by omega) hi2
    · rw [if_neg hc]
      push_neg at hc
      exact ⟨le_refl _, h1, fun h => not_lt.mpr (hc h), fun i hi1 hi2 => by omega⟩

theorem advLoop_start (sub : List (ℚ × ℚ)) (t1 : ℚ) (s : Nat)
    (hs : s ≤ advLoop sub t1 (sub.length + 1) 0) (hsl : s ≤ sub.length) :
    advLoop sub t1 (sub.length + 1) s = advLoop sub t1 (sub.length + 1) 0 := by
  obtain ⟨a0, b0, c0, d0⟩ := advLoop_char sub t1 (sub.length + 1) 0 (by omega) (by omega)
  obtain ⟨as2, bs, cs, ds⟩ := advLoop_char sub t1 (sub.length + 1) s hsl (by omega)
  rcases lt_trichotomy (advLoop sub t1 (sub.length + 1) s)
    (advLoop sub t1 (sub.length + 1) 0) with h | h | h
  · exact absurd (d0 _ (by omega) h) (cs (lt_of_lt_of_le h b0))
  · exact h
  · exact absurd (ds _ hs h) (c0 (lt_of_lt_of_le h bs))

theorem advLoop_mono_t (sub : List (ℚ × ℚ)) (t t' : ℚ) (h : t ≤ t') :
    advLoop sub t (sub.length + 1) 0 ≤ advLoop sub t' (sub.length + 1) 0 := by
  obtain ⟨a0, b0, c0, d0⟩ := advLoop_char sub t (sub.length + 1) 0 (by omega) (by omega)
  obtain ⟨a1, b1, c1, d1⟩ := advLoop_char sub t' (sub.length + 1) 0 (by omega) (by omega)
  by_contra hcon
  push_neg at hcon
  exact absurd (lt_of_lt_of_le (d0 _ (Nat.zero_le _) hcon) h)
    (c1 (lt_of_lt_of_le hcon b0))

/-- In a strictly time-sorted series the first point carries the minimum
time. -/
theorem chain_first_le_mem (sub : List (ℚ × ℚ))
    (hs : List.Chain' (fun p q : ℚ × ℚ => p.1 < q.1) sub) :
    ∀ p ∈ sub, tAt sub 0 ≤ p.1 := by
  intro p hp
  obtain ⟨i, hi, hget⟩ := List.getElem_of_mem hp
  have : tAt sub i = p.1 := by
    unfold tAt
    rw [List.getD_eq_getElem _ _ hi, hget]
  rcases Nat.eq_zero_or_pos i with h0 | h0
  · rw [← this, h0]
  · rw [← this]
    exact le_of_lt (tAt_mono_of_adj (tAt_adj_of_chain hs) 0 i h0 hi)

/-- In a strictly increasing list of times every member is at most the last
element. -/
theorem chain_mem_le_getLast (l : List ℚ) (hs : List.Chain' (· < ·) l)
    (m : ℚ) (hm : l.getLast? = some m) : ∀ x ∈ l, x ≤ m := by
  intro x hx
  obtain ⟨i, hi, hget⟩ := List.getElem_of_mem hx
  have hlpos : 0 < l.length := by
    cases l with
    | nil => simp at hx
    | cons a r => simp
  have hlast : l[l.length - 1] = m := by
    rw [List.getLast?_eq_getElem? l] at hm
    rw [List.getElem?_eq_getElem (by omega)] at hm
    injection hm
  have hpw : List.Pairwise (· < ·) l := List.chain'_iff_pairwise.mp hs
  rcases Nat.lt_or_ge i (l.length - 1) with h | h
  · have := List.pairwise_iff_getElem.mp hpw i (l.length - 1) hi (by omega) h
    rw [hget, hlast] at this
    exact le_of_lt this
  · have hieq : i = l.length - 1 := by omega
    subst hieq
    rw [hlast] at hget
    rw [← hget]

/-- The consensus timeline is strictly increasing. -/
theorem sortedTimes_chain (tzData : TzMap) :
    List.Chain' (· < ·) (sortedTimes tzData) := by
  unfold sortedTimes
  have hnodup : ((((tzData.map Prod.snd).flatten).map Prod.fst).dedup).Nodup :=
    List.nodup_dedup _
  have hperm := List.perm_insertionSort (· ≤ ·)
    (((tzData.map Prod.snd).flatten).map Prod.fst).dedup
  have hsorted := List.sorted_insertionSort (· ≤ ·)
    (((tzData.map Prod.snd).flatten).map Prod.fst).dedup
  have hnodup2 := hperm.nodup_iff.mpr hnodup
  rw [List.chain'_iff_pairwise]
  exact (hsorted.and hnodup2).imp (fun h => lt_of_le_of_ne h.1 h.2)

/-- Membership on the consensus timeline: exactly the times of the input
collection. -/
theorem sortedTimes_mem (tzData : TzMap) (x : ℚ) :
    x ∈ sortedTimes tzData ↔ x ∈ ((tzData.map Prod.snd).flatten).map Prod.fst := by
  unfold sortedTimes
  rw [(List.perm_insertionSort _ _).mem_iff, List.mem_dedup]

theorem appendLast_times (segs : List (List (ℚ × ℚ))) (v : ℚ × ℚ) (hne : segs ≠ []) :
    ((appendLast segs v).map (fun sg => sg.map Prod.fst)).flatten =
      (segs.map (fun sg => sg.map Prod.fst)).flatten ++ [v.1] := by
  unfold appendLast
  conv_rhs => rw [← List.dropLast_append_getLast hne]
  rw [List.getLastD_eq_getLast?, List.getLast?_eq_getLast _ hne]
  simp [List.map_append, List.flatten_append]

theorem appendLast_length (segs : List (List (ℚ × ℚ))) (v : ℚ × ℚ) (hne : segs ≠ []) :
    (appendLast segs v).length = segs.length := by
  unfold appendLast
  rw [List.length_append, List.length_dropLast]
  have : 0 < segs.length := List.length_pos.mpr hne
  simp
  omega

theorem appendLast_getD_lt (segs : List (List (ℚ × ℚ))) (v : ℚ × ℚ) (k : Nat)
    (hk : k < segs.length - 1) :
    (appendLast segs v).getD k [] = segs.getD k [] := by
  unfold appendLast
  rw [List.getD_append _ _ _ _ (by rw [List.length_dropLast]; omega)]
  rw [List.getD_eq_getElem _ _ (by rw [List.length_dropLast]; omega),
    List.getD_eq_getElem _ _ (by omega)]
  exact List.getElem_dropLast _ _ _

theorem appendLast_getD_last (segs : List (List (ℚ × ℚ))) (v : ℚ × ℚ)
    (hne : segs ≠ []) :
    (appendLast segs v).getD (segs.length - 1) [] = segs.getLastD [] ++ [v] := by
  unfold appendLast
  rw [List.getD_append_right _ _ _ _ (by rw [List.length_dropLast])]
  rw [List.length_dropLast, Nat.sub_self]
  rfl

theorem appendLast_no_nil (segs : List (List (ℚ × ℚ))) (v : ℚ × ℚ)
    (h : [] ∉ segs) : [] ∉ appendLast segs v := by
  unfold appendLast
  intro hmem
  rcases List.mem_append.mp hmem with h1 | h1
  · exact h ((List.dropLast_sublist segs).subset h1)
  · rcases List.mem_singleton.mp h1 with h2
    exact absurd h2.symm (by simp)

theorem tAt_append_one (sg : List (ℚ × ℚ)) (v : ℚ × ℚ) (h : sg ≠ []) :
    tAt (sg ++ [v]) 0 = tAt sg 0 := by
  unfold tAt
  rw [List.getD_append _ _ _ _ (List.length_pos.mpr h)]

theorem reduceOption_nil_iff {α : Type} (l : List (Option α)) :
    l.reduceOption = [] ↔ ∀ x ∈ l, x = none := by
  induction l with
  | nil => simp
  | cons a rest ih =>
    cases a with
    | none => simpa [List.reduceOption_cons_of_none] using ih
    | some v => simp [List.reduceOption_cons_of_some]

theorem findIdx_eval {α : Type} (p : α → Bool) (dflt : α) :
    ∀ (l : List α) (k s : Nat), k < l.length →
    (∀ j, j < k → p (l.getD j dflt) = false) → p (l.getD k dflt) = true →
    List.findIdx? p l s = some (s + k) := by
  intro l
  induction l with
  | nil =>
    intro k s hk h1 h2
    exact absurd hk (by simp)
  | cons a rest ih =>
    intro k s hk hbef hat
    rw [List.findIdx?_cons]
    cases k with
    | zero =>
      rw [if_pos (by exact hat), Nat.add_zero]
    | succ k =>
      have h0 : p a = false := hbef 0 (by omega)
      rw [if_neg (by rw [h0]; exact Bool.false_ne_true)]
      rw [ih k (s + 1) (by simpa using Nat.lt_of_succ_lt_succ hk)
        (fun j hj => hbef (j + 1) (by omega)) hat]
      congr 1
      omega

/-- One step of the median loop preserves the segment invariants: the cursors
stay at or below the first index not left of the current time, every segment
stays non-empty, the consensus times recorded so far extend by the new time,
and each segment after the first starts at a time that splits every series
(all points at or after it, or all strictly before it). -/
theorem mainStep_invariant
    (subs : List (List (ℚ × ℚ))) (tol : ℚ) (htol : 0 ≤ tol)
    (tsAll : List ℚ)
    (hsub_ne : ∀ sub ∈ subs, sub ≠ [])
    (hsub_ch : ∀ sub ∈ subs, List.Chain' (fun p q : ℚ × ℚ => p.1 < q.1) sub)
    (hmem : ∀ sub ∈ subs, ∀ p ∈ sub, p.1 ∈ tsAll)
    (processed : List ℚ) (t1 : ℚ) (s : MainState)
    (h01 : s.t1 < t1)
    (h02 : ∀ u ∈ tsAll, u < t1 → u ≤ s.t1)
    (hlenidx : s.idxs.length = subs.length)
    (hcur : ∀ i, i < subs.length →
      s.idxs.getD i 0 ≤ advLoop (subs.getD i []) s.t1 ((subs.getD i []).length + 1) 0 ∧
      s.idxs.getD i 0 ≤ (subs.getD i []).length)
    (hsegne : s.segs ≠ [])
    (hnonil : [] ∉ s.segs)
    (hflat : (s.segs.map (fun sg => sg.map Prod.fst)).flatten = processed)
    (hbound : ∀ k, 0 < k → k < s.segs.length → ∀ i, i < subs.length →
      (∀ p ∈ subs.getD i [], tAt (s.segs.getD k []) 0 ≤ p.1) ∨
      (∀ p ∈ subs.getD i [], p.1 < tAt (s.segs.getD k []) 0)) :
    (mainStep subs tol s t1).t1 = t1 ∧
    (mainStep subs tol s t1).idxs.length = subs.length ∧
    (∀ i, i < subs.length →
      (mainStep subs tol s t1).idxs.getD i 0 ≤
        advLoop (subs.getD i []) t1 ((subs.getD i []).length + 1) 0 ∧
      (mainStep subs tol s t1).idxs.getD i 0 ≤ (subs.getD i []).length) ∧
    (mainStep subs tol s t1).segs ≠ [] ∧
    [] ∉ (mainStep subs tol s t1).segs ∧
    ((mainStep subs tol s t1).segs.map (fun sg => sg.map Prod.fst)).flatten =
      processed ++ [t1] ∧
    (∀ k, 0 < k → k < (mainStep subs tol s t1).segs.length → ∀ i, i < subs.length →
      (∀ p ∈ subs.getD i [], tAt ((mainStep subs tol s t1).segs.getD k []) 0 ≤ p.1) ∨
      (∀ p ∈ subs.getD i [], p.1 < tAt ((mainStep subs tol s t1).segs.getD k []) 0)) := by
  have hlen2 : (List.zipWith (fun sub idx => advanceIdx sub t1 tol idx) subs s.idxs).length
      = subs.length := by
    rw [List.length_zipWith, hlenidx, min_self]
  have hidx2 : ∀ i, i < subs.length →
      (List.zipWith (fun sub idx => advanceIdx sub t1 tol idx) subs s.idxs).getD i 0 =
        advanceIdx (subs.getD i []) t1 tol (s.idxs.getD i 0) := by
    intro i hi
    rw [List.getD_eq_getElem _ _ (by rw [hlen2]; exact hi)]
    rw [List.getElem_zipWith]
    rw [List.getD_eq_getElem subs [] hi, List.getD_eq_getElem s.idxs 0 (by omega)]
  have hadv : ∀ i, i < subs.length →
      advanceIdx (subs.getD i []) t1 tol (s.idxs.getD i 0) =
        (if advLoop (subs.getD i []) t1 ((subs.getD i []).length + 1) 0 =
              (subs.getD i []).length ∧
            tAt (subs.getD i [])
              (advLoop (subs.getD i []) t1 ((subs.getD i []).length + 1) 0 - 1) >
              t1 - tol
          then advLoop (subs.getD i []) t1 ((subs.getD i []).length + 1) 0 - 1
          else advLoop (subs.getD i []) t1 ((subs.getD i []).length + 1) 0) := by
    intro i hi
    obtain ⟨hc1, hc2⟩ := hcur i hi
    have hmono : advLoop (subs.getD i []) s.t1 ((subs.getD i []).length + 1) 0 ≤
        advLoop (subs.getD i []) t1 ((subs.getD i []).length + 1) 0 :=
      advLoop_mono_t _ _ _ (le_of_lt h01)
    unfold advanceIdx
    rw [advLoop_start _ _ _ (le_trans hc1 hmono) hc2]
  have hidx2le : ∀ i, i < subs.length →
      (List.zipWith (fun sub idx => advanceIdx sub t1 tol idx) subs s.idxs).getD i 0 ≤
        advLoop (subs.getD i []) t1 ((subs.getD i []).length + 1) 0 ∧
      (List.zipWith (fun sub idx => advanceIdx sub t1 tol idx) subs s.idxs).getD i 0 ≤
        (subs.getD i []).length := by
    intro i hi
    rw [hidx2 i hi, hadv i hi]
    obtain ⟨-, hb, -, -⟩ := advLoop_char (subs.getD i []) t1
      ((subs.getD i []).length + 1) 0 (by omega) (by omega)
    by_cases hhack : advLoop (subs.getD i []) t1 ((subs.getD i []).length + 1) 0 =
        (subs.getD i []).length ∧
        tAt (subs.getD i [])
          (advLoop (subs.getD i []) t1 ((subs.getD i []).length + 1) 0 - 1) > t1 - tol
    · rw [if_pos hhack]
      omega
    · rw [if_neg hhack]
      omega
  have hsplit : (List.zipWith (fun sub idx => derivOne sub idx s.t1 t1 tol) subs
        (List.zipWith (fun sub idx => advanceIdx sub t1 tol idx) subs s.idxs)).reduceOption
        = [] →
      ∀ i, i < subs.length →
      (∀ p ∈ subs.getD i [], t1 ≤ p.1) ∨ (∀ p ∈ subs.getD i [], p.1 < t1) := by
    intro hnil i hi
    have hlenz : (List.zipWith (fun sub idx => derivOne sub idx s.t1 t1 tol) subs
        (List.zipWith (fun sub idx => advanceIdx sub t1 tol idx) subs s.idxs)).length
        = subs.length := by
      rw [List.length_zipWith, hlen2, min_self]
    have hel : (List.zipWith (fun sub idx => derivOne sub idx s.t1 t1 tol) subs
        (List.zipWith (fun sub idx => advanceIdx sub t1 tol idx) subs s.idxs)).getD i none
        = derivOne (subs.getD i [])
          ((List.zipWith (fun sub idx => advanceIdx sub t1 tol idx) subs s.idxs).getD i 0)
          s.t1 t1 tol := by
      rw [List.getD_eq_getElem _ _ (by rw [hlenz]; exact hi)]
      rw [List.getElem_zipWith]
      rw [List.getD_eq_getElem subs [] hi,
        List.getD_eq_getElem _ 0 (by rw [hlen2]; exact hi)]
    have hnone : derivOne (subs.getD i [])
        ((List.zipWith (fun sub idx => advanceIdx sub t1 tol idx) subs s.idxs).getD i 0)
        s.t1 t1 tol = none := by
      rw [← hel]
      apply (reduceOption_nil_iff _).mp hnil
      rw [List.getD_eq_getElem _ _ (by rw [hlenz]; exact hi)]
      exact List.getElem_mem _
    have hsubmem : subs.getD i [] ∈ subs := by
      rw [List.getD_eq_getElem subs [] hi]
      exact List.getElem_mem _
    have hsne : subs.getD i [] ≠ [] := hsub_ne _ hsubmem
    have hsch := hsub_ch _ hsubmem
    have hslen : 0 < (subs.getD i []).length := List.length_pos.mpr hsne
    obtain ⟨hFa, hFb, hFc, hFd⟩ := advLoop_char (subs.getD i []) t1
      ((subs.getD i []).length + 1) 0 (by omega) (by omega)
    rcases Nat.eq_zero_or_pos (advLoop (subs.getD i []) t1
      ((subs.getD i []).length + 1) 0) with hF0 | hFpos
    · left
      intro p hp
      have := hFc (by omega)
      rw [hF0] at this
      exact le_trans (not_lt.mp this) (chain_first_le_mem _ hsch p hp)
    · rcases Nat.eq_or_lt_of_le hFb with hFlen | hFlt
      · right
        intro p hp
        obtain ⟨j, hj, hget⟩ := List.getElem_of_mem hp
        have : tAt (subs.getD i []) j < t1 := hFd j (Nat.zero_le _) (by omega)
        have he : tAt (subs.getD i []) j = p.1 := by
          unfold tAt
          rw [List.getD_eq_getElem _ _ hj, hget]
        rw [← he]
        exact this
      · exfalso
        rw [hidx2 i hi, hadv i hi] at hnone
        rw [if_neg (fun hc => by omega)] at hnone
        unfold derivOne at hnone
        rw [if_pos (show 0 < advLoop (subs.getD i []) t1 ((subs.getD i []).length + 1) 0 ∧
            advLoop (subs.getD i []) t1 ((subs.getD i []).length + 1) 0 <
              (subs.getD i []).length from ⟨hFpos, hFlt⟩)] at hnone
        have hlt0lt : tAt (subs.getD i [])
            (advLoop (subs.getD i []) t1 ((subs.getD i []).length + 1) 0 - 1) < t1 :=
          hFd _ (Nat.zero_le _) (by omega)
        have hlt0ts : tAt (subs.getD i [])
            (advLoop (subs.getD i []) t1 ((subs.getD i []).length + 1) 0 - 1) ∈ tsAll := by
          have hjlt : advLoop (subs.getD i []) t1 ((subs.getD i []).length + 1) 0 - 1 <
              (subs.getD i []).length := by omega
          have : tAt (subs.getD i [])
              (advLoop (subs.getD i []) t1 ((subs.getD i []).length + 1) 0 - 1) =
              ((subs.getD i []).get ⟨_, hjlt⟩).1 := by
            unfold tAt
            rw [List.getD_eq_getElem _ _ hjlt]
            rfl
          rw [this]
          exact hmem _ hsubmem _ (List.get_mem _ _ hjlt)
        have hlt0le : tAt (subs.getD i [])
            (advLoop (subs.getD i []) t1 ((subs.getD i []).length + 1) 0 - 1) ≤ s.t1 :=
          h02 _ hlt0ts hlt0lt
        have hlt1ge : t1 ≤ tAt (subs.getD i [])
            (advLoop (subs.getD i []) t1 ((subs.getD i []).length + 1) 0) :=
          not_lt.mp (hFc hFlt)
        rw [if_pos (show tAt (subs.getD i [])
            (advLoop (subs.getD i []) t1 ((subs.getD i []).length + 1) 0 - 1) - tol <
              (s.t1 + t1) / 2 ∧ (s.t1 + t1) / 2 ≤
              tAt (subs.getD i [])
                (advLoop (subs.getD i []) t1 ((subs.getD i []).length + 1) 0) + tol from
          ⟨by linarith, by linarith⟩)] at hnone
        exact Option.some_ne_none _ hnone
  by_cases hdz : (List.zipWith (fun sub idx => derivOne sub idx s.t1 t1 tol) subs
      (List.zipWith (fun sub idx => advanceIdx sub t1 tol idx) subs s.idxs)).reduceOption ≠ []
  · have hms : mainStep subs tol s t1 =
        { idxs := List.zipWith (fun sub idx => advanceIdx sub t1 tol idx) subs s.idxs,
          t1 := t1,
          z1 := s.z1 + median ((List.zipWith (fun sub idx => derivOne sub idx s.t1 t1 tol)
            subs (List.zipWith (fun sub idx => advanceIdx sub t1 tol idx) subs s.idxs)).reduceOption) * (t1 - s.t1),
          segs := appendLast s.segs (t1, s.z1 +
            median ((List.zipWith (fun sub idx => derivOne sub idx s.t1 t1 tol)
              subs (List.zipWith (fun sub idx => advanceIdx sub t1 tol idx) subs s.idxs)).reduceOption) * (t1 - s.t1)) } := by
      unfold mainStep
      rw [if_pos hdz]
    rw [hms]
    have hlastne : s.segs.getLastD [] ≠ [] := by
      rw [List.getLastD_eq_getLast?, List.getLast?_eq_getLast _ hsegne]
      intro he
      exact hnonil (he ▸ List.getLast_mem hsegne)
    refine ⟨rfl, hlen2, hidx2le, ?_, ?_, ?_, ?_⟩
    · unfold appendLast
      simp
    · exact appendLast_no_nil _ _ hnonil
    · rw [appendLast_times _ _ hsegne, hflat]
    · intro k hk0 hklen i hi
      rw [appendLast_length _ _ hsegne] at hklen
      rcases Nat.lt_or_ge k (s.segs.length - 1) with hkl | hkg
      · rw [appendLast_getD_lt _ _ _ hkl]
        exact hbound k hk0 (by omega) i hi
      · have hke : k = s.segs.length - 1 := by omega
        rw [hke, appendLast_getD_last _ _ hsegne]
        rw [tAt_append_one _ _ hlastne]
        have : s.segs.getLastD [] = s.segs.getD (s.segs.length - 1) [] := by
          rw [List.getLastD_eq_getLast?, List.getLast?_eq_getElem?]
          rw [List.getElem?_eq_getElem (by omega)]
          rw [List.getD_eq_getElem _ _ (by omega)]
          rfl
        rw [this]
        exact hbound _ (by omega) (by omega) i hi
  · push_neg at hdz
    have hms : mainStep subs tol s t1 =
        { idxs := List.zipWith (fun sub idx => advanceIdx sub t1 tol idx) subs s.idxs,
          t1 := t1, z1 := 0, segs := s.segs ++ [[(t1, 0)]] } := by
      unfold mainStep
      rw [if_neg (by simpa using hdz)]
    rw [hms]
    refine ⟨rfl, hlen2, hidx2le, by simp, ?_, ?_, ?_⟩
    · intro hmemnil
      rcases List.mem_append.mp hmemnil with h1 | h1
      · exact hnonil h1
      · simp at h1
    · rw [List.map_append, List.flatten_append, hflat]
      simp
    · intro k hk0 hklen i hi
      rw [List.length_append, List.length_singleton] at hklen
      rcases Nat.lt_or_ge k s.segs.length with hkl | hkg
      · rw [List.getD_append _ _ _ _ hkl]
        exact hbound k hk0 hkl i hi
      · have hke : k = s.segs.length := by omega
        rw [hke, List.getD_append_right _ _ _ _ (le_refl _), Nat.sub_self]
        have : tAt ([[(t1, (0 : ℚ))]].getD 0 []) 0 = t1 := rfl
        rw [this]
        exact hsplit hdz i hi

/-- The median loop, run over the rest of the consensus timeline, keeps all
segment invariants and ends with the full timeline tiled by the segments. -/
theorem mainLoop_invariant
    (subs : List (List (ℚ × ℚ))) (tol : ℚ) (htol : 0 ≤ tol)
    (tsAll : List ℚ)
    (hts : List.Chain' (· < ·) tsAll)
    (hsub_ne : ∀ sub ∈ subs, sub ≠ [])
    (hsub_ch : ∀ sub ∈ subs, List.Chain' (fun p q : ℚ × ℚ => p.1 < q.1) sub)
    (hmem : ∀ sub ∈ subs, ∀ p ∈ sub, p.1 ∈ tsAll) :
    ∀ (rest processed : List ℚ) (s : MainState),
    tsAll = processed ++ rest →
    processed.getLast? = some s.t1 →
    s.idxs.length = subs.length →
    (∀ i, i < subs.length →
      s.idxs.getD i 0 ≤ advLoop (subs.getD i []) s.t1 ((subs.getD i []).length + 1) 0 ∧
      s.idxs.getD i 0 ≤ (subs.getD i []).length) →
    s.segs ≠ [] →
    [] ∉ s.segs →
    (s.segs.map (fun sg => sg.map Prod.fst)).flatten = processed →
    (∀ k, 0 < k → k < s.segs.length → ∀ i, i < subs.length →
      (∀ p ∈ subs.getD i [], tAt (s.segs.getD k []) 0 ≤ p.1) ∨
      (∀ p ∈ subs.getD i [], p.1 < tAt (s.segs.getD k []) 0)) →
    (mainLoop subs tol rest s).segs ≠ [] ∧
    [] ∉ (mainLoop subs tol rest s).segs ∧
    ((mainLoop subs tol rest s).segs.map (fun sg => sg.map Prod.fst)).flatten = tsAll ∧
    (∀ k, 0 < k → k < (mainLoop subs tol rest s).segs.length → ∀ i, i < subs.length →
      (∀ p ∈ subs.getD i [], tAt ((mainLoop subs tol rest s).segs.getD k []) 0 ≤ p.1) ∨
      (∀ p ∈ subs.getD i [], p.1 < tAt ((mainLoop subs tol rest s).segs.getD k []) 0)) := by
  intro rest
  induction rest with
  | nil =>
    intro processed s hsplit hlast hlen hcur hsegne hnonil hflat hbound
    rw [List.append_nil] at hsplit
    subst hsplit
    exact ⟨hsegne, hnonil, hflat, hbound⟩
  | cons t1 rest' ih =>
    intro processed s hsplit hlast hlen hcur hsegne hnonil hflat hbound
    have hchsplit := hsplit ▸ hts
    rw [List.chain'_append] at hchsplit
    obtain ⟨hchp, hchr, hchj⟩ := hchsplit
    have h01 : s.t1 < t1 := hchj s.t1 hlast t1 rfl
    have h02 : ∀ u ∈ tsAll, u < t1 → u ≤ s.t1 := by
      intro u hu hult
      rw [hsplit] at hu
      rcases List.mem_append.mp hu with h | h
      · exact chain_mem_le_getLast processed hchp s.t1 hlast u h
      · exfalso
        have hpw : List.Pairwise (· < ·) (t1 :: rest') :=
          List.chain'_iff_pairwise.mp hchr
        rcases List.mem_cons.mp h with he | he
        · rw [he] at hult
          exact lt_irrefl _ hult
        · exact absurd hult (not_lt.mpr (le_of_lt ((List.pairwise_cons.mp hpw).1 u he)))
    obtain ⟨hc1, hc2, hc3, hc4, hc5, hc6, hc7⟩ := mainStep_invariant subs tol htol tsAll
      hsub_ne hsub_ch hmem processed t1 s h01 h02 hlen hcur hsegne hnonil hflat hbound
    show (mainLoop subs tol rest' (mainStep subs tol s t1)).segs ≠ [] ∧ _
    refine ih (processed ++ [t1]) (mainStep subs tol s t1) ?_ ?_ hc2 ?_ hc4 hc5 hc6 hc7
    · rw [hsplit, List.append_assoc]
      rfl
    · rw [hc1, List.getLast?_concat]
    · rw [hc1]
      exact hc3

/-- In a strictly time-sorted series the last point carries the maximum
time. -/
theorem chain_mem_le_last (sub : List (ℚ × ℚ))
    (hs : List.Chain' (fun p q : ℚ × ℚ => p.1 < q.1) sub) :
    ∀ p ∈ sub, p.1 ≤ tAt sub (sub.length - 1) := by
  intro p hp
  obtain ⟨i, hi, hget⟩ := List.getElem_of_mem hp
  have he : tAt sub i = p.1 := by
    unfold tAt
    rw [List.getD_eq_getElem _ _ hi, hget]
  rcases Nat.lt_or_ge i (sub.length - 1) with h | h
  · rw [← he]
    exact le_of_lt (tAt_mono_of_adj (tAt_adj_of_chain hs) i (sub.length - 1) h (by omega))
  · have : i = sub.length - 1 := by omega
    rw [← he, this]

theorem tAt_mem_times (seg : List (ℚ × ℚ)) (i : Nat) (hi : i < seg.length) :
    tAt seg i ∈ seg.map Prod.fst := by
  unfold tAt
  rw [List.getD_eq_getElem _ _ hi]
  exact List.mem_map.mpr ⟨seg[i], List.getElem_mem _, rfl⟩

theorem pw_first_le (l : List ℚ) (h : List.Pairwise (· < ·) l) :
    ∀ x ∈ l, l.getD 0 0 ≤ x := by
  intro x hx
  obtain ⟨i, hi, hget⟩ := List.getElem_of_mem hx
  rw [List.getD_eq_getElem _ _ (by omega)]
  rcases Nat.eq_zero_or_pos i with h0 | h0
  · subst h0
    exact le_of_eq hget
  · rw [← hget]
    exact le_of_lt (List.pairwise_iff_getElem.mp h 0 i (by omega) hi h0)

theorem pw_mem_le_last (l : List ℚ) (h : List.Pairwise (· < ·) l) :
    ∀ x ∈ l, x ≤ l.getD (l.length - 1) 0 := by
  intro x hx
  obtain ⟨i, hi, hget⟩ := List.getElem_of_mem hx
  rw [List.getD_eq_getElem _ _ (by omega)]
  rcases Nat.lt_or_ge i (l.length - 1) with h0 | h0
  · rw [← hget]
    exact le_of_lt (List.pairwise_iff_getElem.mp h i (l.length - 1) hi (by omega) h0)
  · have hieq : i = l.length - 1 := by omega
    subst hieq
    exact le_of_eq hget.symm

theorem tAt_eq_times_getD (seg : List (ℚ × ℚ)) (i : Nat) (hi : i < seg.length) :
    tAt seg i = (seg.map Prod.fst).getD i 0 := by
  unfold tAt
  rw [List.getD_eq_getElem _ _ hi, List.getD_eq_getElem _ _ (by simpa using hi),
    List.getElem_map]

/-- The first segment whose consensus time range contains a time x that is one
of segment k's own consensus times is segment k itself: earlier segments end
strictly before x, and segment k brackets it. -/
theorem segIdxFor_covering (segs : List (List (ℚ × ℚ))) (hnonil : [] ∉ segs)
    (hparts : ∀ l ∈ segs.map (fun sg => sg.map Prod.fst), List.Pairwise (· < ·) l)
    (hcross : List.Pairwise (fun l1 l2 => ∀ x ∈ l1, ∀ y ∈ l2, x < y)
      (segs.map (fun sg => sg.map Prod.fst)))
    (x : ℚ) (k : Nat) (hk : k < segs.length)
    (hxk : x ∈ (segs.getD k []).map Prod.fst) :
    segIdxFor segs x = some k := by
  have hM : ∀ j, j < segs.length →
      (segs.map (fun sg => sg.map Prod.fst)).getD j [] = (segs.getD j []).map Prod.fst := by
    intro j hj
    rw [List.getD_eq_getElem _ _ (by simpa using hj), List.getD_eq_getElem _ _ hj,
      List.getElem_map]
  have hMmem : ∀ j, j < segs.length →
      (segs.getD j []).map Prod.fst ∈ segs.map (fun sg => sg.map Prod.fst) := by
    intro j hj
    rw [← hM j hj]
    rw [List.getD_eq_getElem _ _ (by simpa using hj)]
    exact List.getElem_mem _
  have hnej : ∀ j, j < segs.length → segs.getD j [] ≠ [] := by
    intro j hj he
    apply hnonil
    rw [← he]
    rw [List.getD_eq_getElem _ _ hj]
    exact List.getElem_mem _
  unfold segIdxFor
  have := findIdx_eval
    (fun sub => decide (tAt sub 0 ≤ x ∧ x ≤ tAt sub (sub.length - 1))) [] segs k 0 hk
    ?_ ?_
  · rw [this, Nat.zero_add]
  · intro j hj
    apply decide_eq_false
    intro hcov
    have hxj : tAt (segs.getD j []) ((segs.getD j []).length - 1) < x := by
      have hc := List.pairwise_iff_getElem.mp hcross j k (by simpa using (by omega : j < segs.length))
        (by simpa using hk) (by omega)
      rw [List.getElem_map, List.getElem_map] at hc
      have hbj : tAt (segs.getD j []) ((segs.getD j []).length - 1) ∈
          (segs.getD j []).map Prod.fst := by
        have hlp : 0 < (segs.getD j []).length :=
          List.length_pos.mpr (hnej j (by omega))
        exact tAt_mem_times _ _ (by omega)
      have hgj : segs[j] = segs.getD j [] := (List.getD_eq_getElem _ _ (by omega)).symm
      have hgk : segs[k] = segs.getD k [] := (List.getD_eq_getElem _ _ hk).symm
      rw [hgj, hgk] at hc
      exact hc _ hbj x hxk
    exact absurd hcov.2 (not_le.mpr hxj)
  · apply decide_eq_true
    have hpw := hparts _ (hMmem k hk)
    have hlp : 0 < (segs.getD k []).length := List.length_pos.mpr (hnej k hk)
    constructor
    · rw [tAt_eq_times_getD _ _ hlp]
      exact pw_first_le _ hpw x hxk
    · rw [tAt_eq_times_getD _ _ (by omega)]
      have : ((segs.getD k []).map Prod.fst).getD ((segs.getD k []).length - 1) 0 =
          ((segs.getD k []).map Prod.fst).getD
            (((segs.getD k []).map Prod.fst).length - 1) 0 := by
        rw [List.length_map]
      rw [this]
      exact pw_mem_le_last _ hpw x hxk

/-- The per-series shift pass succeeds when every series has a segment
assignment and a defined shift, and yields one entry per series in order. -/
theorem collectDz_all_some (aD : ℚ) (segsL : List (List (ℚ × ℚ))) :
    ∀ lst : List (String × List (ℚ × ℚ) × Option Nat),
    (∀ e ∈ lst, ∃ g, e.2.2 = some g ∧
      ∃ r : ℚ × ℚ, seriesDz e.2.1 (segsL.getD g []) aD = some r) →
    ∃ entries, collectDz aD segsL lst = .ok entries ∧
      entries.map DzEntry.key = lst.map Prod.fst ∧
      (∀ e ∈ lst, ∃ ent ∈ entries, ent.key = e.1 ∧ e.2.2 = some ent.iseg) := by
  intro lst
  induction lst with
  | nil =>
    intro h
    exact ⟨[], rfl, rfl, by simp⟩
  | cons e rest ih =>
    intro h
    obtain ⟨g, hg, r, hr⟩ := h e (List.mem_cons_self _ _)
    obtain ⟨entries', heq, hkeys, hmem⟩ := ih (fun e2 he2 => h e2 (List.mem_cons_of_mem _ he2))
    obtain ⟨k, sub, asg⟩ := e
    simp only at hg hr
    subst hg
    refine ⟨⟨k, g, r.1, r.2⟩ :: entries', ?_, ?_, ?_⟩
    · show collectDz aD segsL ((k, sub, some g) :: rest) = _
      simp only [collectDz]
      rw [hr, heq]
      rfl
    · simp only [List.map_cons, hkeys]
    · intro e2 he2
      rcases List.mem_cons.mp he2 with he | he
      · subst he
        exact ⟨⟨k, g, r.1, r.2⟩, List.mem_cons_self _ _, rfl, rfl⟩
      · obtain ⟨ent, hent, h1, h2⟩ := hmem e2 he
        exact ⟨ent, List.mem_cons_of_mem _ hent, h1, h2⟩

theorem foldl_count_mono (k : Nat) :
    ∀ (entries : List DzEntry) (acc : ℚ × ℚ × Nat),
    acc.2.2 ≤ (entries.foldl (fun acc e =>
      if e.iseg = k then
        let w := max (1 / 1000) e.dt
        (acc.1 + e.dz * w, acc.2.1 + w, acc.2.2 + 1)
      else acc) acc).2.2 := by
  intro entries
  induction entries with
  | nil => intro acc; exact le_refl _
  | cons e rest ih =>
    intro acc
    rw [List.foldl_cons]
    by_cases he : e.iseg = k
    · rw [if_pos he]
      exact le_trans (Nat.le_succ _)
        (ih (acc.1 + e.dz * max (1 / 1000) e.dt, acc.2.1 + max (1 / 1000) e.dt, acc.2.2 + 1))
    · rw [if_neg he]
      exact ih acc

theorem foldl_count_pos (k : Nat) :
    ∀ (entries : List DzEntry) (acc : ℚ × ℚ × Nat), (∃ e ∈ entries, e.iseg = k) →
    0 < (entries.foldl (fun acc e =>
      if e.iseg = k then
        let w := max (1 / 1000) e.dt
        (acc.1 + e.dz * w, acc.2.1 + w, acc.2.2 + 1)
      else acc) acc).2.2 := by
  intro entries
  induction entries with
  | nil =>
    intro acc h
    obtain ⟨e, he, -⟩ := h
    simp at he
  | cons e rest ih =>
    intro acc h
    rw [List.foldl_cons]
    by_cases heq : e.iseg = k
    · rw [if_pos heq]
      have := foldl_count_mono k rest (acc.1 + e.dz * max (1 / 1000) e.dt,
        acc.2.1 + max (1 / 1000) e.dt, acc.2.2 + 1)
      exact lt_of_lt_of_le (Nat.succ_pos _) this
    · rw [if_neg heq]
      obtain ⟨e2, he2, hek⟩ := h
      rcases List.mem_cons.mp he2 with he | he
      · exact absurd (he ▸ hek) heq
      · exact ih acc ⟨e2, he, hek⟩

theorem segSums_count_pos (entries : List DzEntry) (k : Nat)
    (h : ∃ e ∈ entries, e.iseg = k) : 0 < (segSums entries k).2.2 := by
  unfold segSums
  exact foldl_count_pos k entries (0, 0, 0) h

theorem mapM_avgs_ok (entries : List DzEntry) :
    ∀ l : List Nat, (∀ k ∈ l, 0 < (segSums entries k).2.2) →
    ∃ ys : List ℚ, (l.mapM (fun iseg =>
        let s := segSums entries iseg
        if s.2.2 = 0 then Except.error AErr.assertFail else Except.ok (s.1 / s.2.1))) =
      .ok ys ∧ ys.length = l.length := by
  intro l
  induction l with
  | nil =>
    intro h
    exact ⟨[], rfl, rfl⟩
  | cons a rest ih =>
    intro h
    obtain ⟨ys, h1, h2⟩ := ih (fun k hk => h k (List.mem_cons_of_mem _ hk))
    have ha := h a (List.mem_cons_self _ _)
    refine ⟨(segSums entries a).1 / (segSums entries a).2.1 :: ys, ?_, by simp [h2]⟩
    rw [List.mapM_cons]
    dsimp only
    rw [if_neg (by omega), h1]
    rfl

theorem segAvgs_ok (entries : List DzEntry) (n : Nat)
    (h : ∀ k, k < n → 0 < (segSums entries k).2.2) :
    ∃ ys, segAvgs entries n = .ok ys ∧ ys.length = n := by
  unfold segAvgs
  obtain ⟨ys, h1, h2⟩ := mapM_avgs_ok entries (List.range n)
    (fun k hk => h k (List.mem_range.mp hk))
  exact ⟨ys, h1, by rw [h2, List.length_range]⟩

/-- The key → segment-label map keeps every key, in input order, when every
series has an assignment. -/
theorem segMap_build (lbl : Nat → String) :
    ∀ (ks : List String) (sas : List (Option Nat)),
    ks.length = sas.length →
    (∀ j, j < sas.length → ∃ g, sas.getD j none = some g) →
    ((ks.zip sas).filterMap (fun ka => ka.2.map (fun i => (ka.1, lbl i)))).map Prod.fst = ks ∧
    (∀ j, j < ks.length → ∀ g, sas.getD j none = some g →
      (ks.getD j "", lbl g) ∈
        (ks.zip sas).filterMap (fun ka => ka.2.map (fun i => (ka.1, lbl i)))) := by
  intro ks
  induction ks with
  | nil =>
    intro sas hlen hall
    refine ⟨by simp, ?_⟩
    intro j hj
    exact absurd hj (by simp)
  | cons k ks' ih =>
    intro sas hlen hall
    cases sas with
    | nil => exact absurd hlen (by simp)
    | cons a sas' =>
      obtain ⟨g0, hg0⟩ := hall 0 (by simp)
      have hg0' : a = some g0 := hg0
      subst hg0'
      obtain ⟨ih1, ih2⟩ := ih sas' (by simpa using hlen)
        (fun j hj => hall (j + 1) (by simpa using Nat.succ_lt_succ hj))
      refine ⟨?_, ?_⟩
      · rw [List.zip_cons_cons, List.filterMap_cons]
        simp only [Option.map_some']
        rw [List.map_cons, ih1]
      · intro j hj g hg
        rw [List.zip_cons_cons, List.filterMap_cons]
        simp only [Option.map_some']
        cases j with
        | zero =>
          have : g0 = g := by
            have : some g0 = some g := hg
            injection this
          subst this
          exact List.mem_cons_self _ _
        | succ j =>
          exact List.mem_cons_of_mem _ (ih2 j (by simpa using Nat.lt_of_succ_lt_succ hj) g hg)

theorem mem_enum_self {α : Type} (l : List α) (i : Nat) (h : i < l.length) :
    (i, l[i]) ∈ l.enum := by
  have hb : i < l.enum.length := by simpa using h
  have he : l.enum[i] = (i, l[i]) := List.getElem_enum _ _ _
  rw [← he]
  exact List.getElem_mem _

/-- The length-1 scan of calcalignment.py lines 209-214 finds a value when the
segment has a point at the series' time. -/
theorem singletonDz_some (sub seg : List (ℚ × ℚ))
    (h : ∃ q ∈ seg, q.1 = tAt sub 0) : ∃ r, singletonDz sub seg = some r := by
  unfold singletonDz
  have haux : ∀ (l : List (ℚ × ℚ)) (acc : Option (ℚ × ℚ)),
      (acc ≠ none ∨ ∃ q ∈ l, q.1 = tAt sub 0) →
      l.foldl (fun acc tz => if tz.1 = tAt sub 0 then some (tz.2 - zAt sub 0, 0) else acc)
        acc ≠ none := by
    intro l
    induction l with
    | nil =>
      intro acc hacc
      rcases hacc with h1 | h1
      · exact h1
      · obtain ⟨q, hq, -⟩ := h1
        simp at hq
    | cons q rest ih =>
      intro acc hacc
      rw [List.foldl_cons]
      by_cases hq : q.1 = tAt sub 0
      · exact ih _ (Or.inl (by rw [if_pos hq]; exact Option.some_ne_none _))
      · rw [if_neg hq]
        apply ih
        rcases hacc with h1 | h1
        · exact Or.inl h1
        · obtain ⟨q2, hq2, he2⟩ := h1
          rcases List.mem_cons.mp hq2 with he | he
          · exact absurd (he ▸ he2) hq
          · exact Or.inr ⟨q2, he, he2⟩
  have := haux seg none (Or.inr h)
  rcases hres : seg.foldl (fun acc tz =>
      if tz.1 = tAt sub 0 then some (tz.2 - zAt sub 0, 0) else acc)
      (none : Option (ℚ × ℚ)) with _ | r
  · exact absurd hres this
  · exact ⟨r, hres⟩

theorem part_of_time (STsegs : List (List (ℚ × ℚ))) (tsA : List ℚ)
    (hflat : (STsegs.map (fun sg => sg.map Prod.fst)).flatten = tsA)
    (x : ℚ) (hx : x ∈ tsA) :
    ∃ g, g < STsegs.length ∧ x ∈ (STsegs.getD g []).map Prod.fst := by
  rw [← hflat] at hx
  obtain ⟨l, hl, hxl⟩ := List.mem_flatten.mp hx
  obtain ⟨g, hg, hgeq⟩ := List.getElem_of_mem hl
  rw [List.getElem_map] at hgeq
  have hgL : g < STsegs.length := by simpa using hg
  refine ⟨g, hgL, ?_⟩
  have hgd : STsegs.getD g [] = STsegs[g] := List.getD_eq_getElem _ _ hgL
  rw [hgd, hgeq]
  exact hxl

/-- The segment tiling read piecewise: every segment is non-empty, its times
lie between its first and last consensus time, and times of earlier segments
are strictly below times of later segments. -/
theorem parts_facts (STsegs : List (List (ℚ × ℚ)))
    (hnonil : [] ∉ STsegs)
    (hparts : ∀ l ∈ STsegs.map (fun sg => sg.map Prod.fst), List.Pairwise (· < ·) l)
    (hcross : List.Pairwise (fun l1 l2 => ∀ x ∈ l1, ∀ y ∈ l2, x < y)
      (STsegs.map (fun sg => sg.map Prod.fst))) :
    (∀ g, g < STsegs.length → STsegs.getD g [] ≠ []) ∧
    (∀ g, g < STsegs.length → ∀ x ∈ (STsegs.getD g []).map Prod.fst,
      tAt (STsegs.getD g []) 0 ≤ x ∧
      x ≤ tAt (STsegs.getD g []) ((STsegs.getD g []).length - 1)) ∧
    (∀ j k, j < k → k < STsegs.length → ∀ x ∈ (STsegs.getD j []).map Prod.fst,
      ∀ y ∈ (STsegs.getD k []).map Prod.fst, x < y) := by
  have hne : ∀ g, g < STsegs.length → STsegs.getD g [] ≠ [] := by
    intro g hg he
    rw [List.getD_eq_getElem _ _ hg] at he
    exact hnonil (he ▸ List.getElem_mem _)
  have hpw : ∀ g, g < STsegs.length →
      List.Pairwise (· < ·) ((STsegs.getD g []).map Prod.fst) := by
    intro g hg
    apply hparts
    have hgM : g < (STsegs.map (fun sg => sg.map Prod.fst)).length := by simpa using hg
    have he2 : (STsegs.getD g []).map Prod.fst =
        (STsegs.map (fun sg => sg.map Prod.fst))[g] := by
      rw [List.getElem_map, List.getD_eq_getElem _ _ hg]
    rw [he2]
    exact List.getElem_mem _
  refine ⟨hne, ?_, ?_⟩
  · intro g hg x hx
    have hlp : 0 < (STsegs.getD g []).length := List.length_pos.mpr (hne g hg)
    constructor
    · rw [tAt_eq_times_getD _ _ hlp]
      exact pw_first_le _ (hpw g hg) x hx
    · rw [tAt_eq_times_getD _ _ (by omega)]
      have he : ((STsegs.getD g []).map Prod.fst).getD ((STsegs.getD g []).length - 1) 0 =
          ((STsegs.getD g []).map Prod.fst).getD
            (((STsegs.getD g []).map Prod.fst).length - 1) 0 := by
        rw [List.length_map]
      rw [he]
      exact pw_mem_le_last _ (hpw g hg) x hx
  · intro j k hjk hk x hx y hy
    have hc := List.pairwise_iff_getElem.mp hcross j k
      (by simpa using (by omega : j < STsegs.length)) (by simpa using hk) hjk
    rw [List.getElem_map, List.getElem_map] at hc
    have hjLb : j < STsegs.length := by omega
    have hgj : STsegs[j] = STsegs.getD j [] := (List.getD_eq_getElem _ _ hjLb).symm
    have hgk2 : STsegs[k] = STsegs.getD k [] := (List.getD_eq_getElem _ _ hk).symm
    rw [hgj, hgk2] at hc
    exact hc x hx y hy

/-- A series whose first time lies in segment g has all its times inside
segment g's consensus time range. -/
theorem series_range_in_part (STsegs : List (List (ℚ × ℚ)))
    (hnonil : [] ∉ STsegs)
    (hparts : ∀ l ∈ STsegs.map (fun sg => sg.map Prod.fst), List.Pairwise (· < ·) l)
    (hcross : List.Pairwise (fun l1 l2 => ∀ x ∈ l1, ∀ y ∈ l2, x < y)
      (STsegs.map (fun sg => sg.map Prod.fst)))
    (sub : List (ℚ × ℚ)) (hsne : sub ≠ [])
    (hsch : List.Chain' (fun p q : ℚ × ℚ => p.1 < q.1) sub)
    (hsplit : ∀ k, 0 < k → k < STsegs.length →
      (∀ p ∈ sub, tAt (STsegs.getD k []) 0 ≤ p.1) ∨
      (∀ p ∈ sub, p.1 < tAt (STsegs.getD k []) 0))
    (hsubts : ∀ p ∈ sub, ∃ j, j < STsegs.length ∧ p.1 ∈ (STsegs.getD j []).map Prod.fst)
    (g : Nat) (hg : g < STsegs.length)
    (ht0 : tAt sub 0 ∈ (STsegs.getD g []).map Prod.fst) :
    ∀ p ∈ sub, tAt (STsegs.getD g []) 0 ≤ p.1 ∧
      p.1 ≤ tAt (STsegs.getD g []) ((STsegs.getD g []).length - 1) := by
  obtain ⟨hne, hin, hcr⟩ := parts_facts STsegs hnonil hparts hcross
  intro p hp
  constructor
  · exact le_trans (hin g hg _ ht0).1 (chain_first_le_mem _ hsch p hp)
  · obtain ⟨j, hj, hpj⟩ := hsubts p hp
    rcases Nat.lt_trichotomy j g with hlt | heqj | hgt
    · have h2 : p.1 < tAt (STsegs.getD g []) 0 :=
        hcr j g hlt hg _ hpj _ (tAt_mem_times _ 0 (List.length_pos.mpr (hne g hg)))
      have h3 := (hin g hg _ ht0).1
      have h4 := (hin g hg _ ht0).2
      linarith
    · subst heqj
      exact (hin j hj _ hpj).2
    · exfalso
      have hg1L : g + 1 < STsegs.length := by omega
      have hbmem : tAt (STsegs.getD g [])
          ((STsegs.getD g []).length - 1) ∈ (STsegs.getD g []).map Prod.fst := by
        have hlp : 0 < (STsegs.getD g []).length := List.length_pos.mpr (hne g hg)
        exact tAt_mem_times _ _ (by omega)
      have hamem1 : tAt (STsegs.getD (g + 1) []) 0 ∈ (STsegs.getD (g + 1) []).map Prod.fst :=
        tAt_mem_times _ 0 (List.length_pos.mpr (hne (g + 1) hg1L))
      have hjunction : tAt (STsegs.getD g []) ((STsegs.getD g []).length - 1) <
          tAt (STsegs.getD (g + 1) []) 0 :=
        hcr g (g + 1) (by omega) hg1L _ hbmem _ hamem1
      have hsub0mem : (sub.getD 0 (0, 0)) ∈ sub := by
        rw [List.getD_eq_getElem _ _ (List.length_pos.mpr hsne)]
        exact List.getElem_mem _
      rcases hsplit (g + 1) (by omega) hg1L with hup | hdown
      · have h5 := hup _ hsub0mem
        have h6 := (hin g hg _ ht0).2
        have h7 : (sub.getD 0 (0, 0)).1 = tAt sub 0 := rfl
        rw [h7] at h5
        linarith
      · have hpa : tAt (STsegs.getD (g + 1) []) 0 ≤ p.1 := by
          rcases Nat.eq_or_lt_of_le (show g + 1 ≤ j by omega) with he | hlt2
          · rw [he]
            exact (hin j hj _ hpj).1
          · exact le_of_lt (hcr (g + 1) j hlt2 hj _ hamem1 _ hpj)
        exact absurd (hdown p hp) (not_lt.mpr hpa)

/-- A series that contains the first time of segment gk starts exactly
there. -/
theorem first_time_at_boundary (STsegs : List (List (ℚ × ℚ)))
    (hnonil : [] ∉ STsegs)
    (hparts : ∀ l ∈ STsegs.map (fun sg => sg.map Prod.fst), List.Pairwise (· < ·) l)
    (hcross : List.Pairwise (fun l1 l2 => ∀ x ∈ l1, ∀ y ∈ l2, x < y)
      (STsegs.map (fun sg => sg.map Prod.fst)))
    (tsA : List ℚ)
    (hflat : (STsegs.map (fun sg => sg.map Prod.fst)).flatten = tsA)
    (hts_pw : List.Pairwise (· < ·) tsA)
    (sub : List (ℚ × ℚ)) (hsne : sub ≠ [])
    (hsch : List.Chain' (fun p q : ℚ × ℚ => p.1 < q.1) sub)
    (hsplit : ∀ k, 0 < k → k < STsegs.length →
      (∀ p ∈ sub, tAt (STsegs.getD k []) 0 ≤ p.1) ∨
      (∀ p ∈ sub, p.1 < tAt (STsegs.getD k []) 0))
    (ht0ts : tAt sub 0 ∈ tsA)
    (gk : Nat) (hgk : gk < STsegs.length)
    (hcontain : tAt (STsegs.getD gk []) 0 ∈ sub.map Prod.fst) :
    tAt sub 0 = tAt (STsegs.getD gk []) 0 := by
  obtain ⟨hne, hin, hcr⟩ := parts_facts STsegs hnonil hparts hcross
  obtain ⟨q, hq, heq⟩ := List.mem_map.mp hcontain
  have h1 : tAt sub 0 ≤ tAt (STsegs.getD gk []) 0 := by
    rw [← heq]
    exact chain_first_le_mem _ hsch q hq
  refine le_antisymm h1 ?_
  rcases Nat.eq_zero_or_pos gk with h0 | h0
  · subst h0
    have hhead : tsA.getD 0 0 = tAt (STsegs.getD 0 []) 0 := by
      obtain ⟨s0, srest, hse⟩ := List.exists_cons_of_ne_nil
        (show STsegs ≠ [] from fun he => by rw [he] at hgk; simp at hgk)
      rw [← hflat, hse]
      rw [List.map_cons, List.flatten_cons]
      have hs0ne : s0 ≠ [] := fun he2 => hnonil (by rw [hse, he2]; exact List.mem_cons_self _ _)
      rw [List.getD_append _ _ _ _ (by simpa using List.length_pos.mpr hs0ne)]
      rw [show (s0 :: srest).getD 0 [] = s0 from rfl]
      rw [tAt_eq_times_getD _ _ (List.length_pos.mpr hs0ne)]
    rw [← hhead]
    exact pw_first_le _ hts_pw _ ht0ts
  · rcases hsplit gk h0 hgk with hup | hdown
    · have hsub0mem : (sub.getD 0 (0, 0)) ∈ sub := by
        rw [List.getD_eq_getElem _ _ (List.length_pos.mpr hsne)]
        exact List.getElem_mem _
      exact hup _ hsub0mem
    · exact absurd ((heq ▸ hdown q hq)) (lt_irrefl _)

/-- Post-loop phase of AnalyzeTZSeries on the final segments: the shift pass
and the per-segment averaging succeed, the key → label map keeps every key in
order, every segment receives at least one series, and every series' time
range lies inside its assigned segment's range. -/
theorem partition_core (tzData : TzMap) (aD : ℚ)
    (hvalid : ∀ kv ∈ tzData, kv.2 ≠ [] ∧ List.Chain' (fun p q : ℚ × ℚ => p.1 < q.1) kv.2)
    (STsegs : List (List (ℚ × ℚ)))
    (hfin_nonil : [] ∉ STsegs)
    (hfin_flat : (STsegs.map (fun sg => sg.map Prod.fst)).flatten = sortedTimes tzData)
    (hfin_bound : ∀ k, 0 < k → k < STsegs.length → ∀ i, i < (tzData.map Prod.snd).length →
      (∀ p ∈ (tzData.map Prod.snd).getD i [], tAt (STsegs.getD k []) 0 ≤ p.1) ∨
      (∀ p ∈ (tzData.map Prod.snd).getD i [], p.1 < tAt (STsegs.getD k []) 0)) :
    ∃ entries avgs,
      collectDz aD STsegs (List.zipWith (fun k sa => (k, sa.1, sa.2)) (tzData.map Prod.fst)
        ((tzData.map Prod.snd).zip ((tzData.map Prod.snd).map (fun sub =>
          if sub.isEmpty then none else segIdxFor STsegs (tAt sub 0))))) = .ok entries ∧
      segAvgs entries STsegs.length = .ok avgs ∧ avgs.length = STsegs.length ∧
      (((tzData.map Prod.fst).zip ((tzData.map Prod.snd).map (fun sub =>
          if sub.isEmpty then none else segIdxFor STsegs (tAt sub 0)))).filterMap
        (fun ka => ka.2.map (fun i => (ka.1, MEDIAN_SEGMENT ++ Nat.repr i)))).map Prod.fst =
        tzData.map Prod.fst ∧
      (∀ gk, gk < STsegs.length → ∃ key, (key, MEDIAN_SEGMENT ++ Nat.repr gk) ∈
        ((tzData.map Prod.fst).zip ((tzData.map Prod.snd).map (fun sub =>
          if sub.isEmpty then none else segIdxFor STsegs (tAt sub 0)))).filterMap
          (fun ka => ka.2.map (fun i => (ka.1, MEDIAN_SEGMENT ++ Nat.repr i)))) ∧
      (∀ idx, idx < tzData.length → ∃ g, g < STsegs.length ∧ STsegs.getD g [] ≠ [] ∧
        ((tzData.map Prod.fst).getD idx "", MEDIAN_SEGMENT ++ Nat.repr g) ∈
          ((tzData.map Prod.fst).zip ((tzData.map Prod.snd).map (fun sub =>
            if sub.isEmpty then none else segIdxFor STsegs (tAt sub 0)))).filterMap
            (fun ka => ka.2.map (fun i => (ka.1, MEDIAN_SEGMENT ++ Nat.repr i))) ∧
        (∀ p ∈ (tzData.map Prod.snd).getD idx [],
          tAt (STsegs.getD g []) 0 ≤ p.1 ∧
          p.1 ≤ tAt (STsegs.getD g []) ((STsegs.getD g []).length - 1))) := by
  have hts_ch := sortedTimes_chain tzData
  have hts_pw : List.Pairwise (· < ·) (sortedTimes tzData) :=
    List.chain'_iff_pairwise.mp hts_ch
  have hpwflat : List.Pairwise (· < ·) ((STsegs.map (fun sg => sg.map Prod.fst)).flatten) := by
    rw [hfin_flat]
    exact hts_pw
  obtain ⟨hparts, hcross⟩ := List.pairwise_flatten.mp hpwflat
  obtain ⟨hne, hin, hcr⟩ := parts_facts STsegs hfin_nonil hparts hcross
  have hsubget : ∀ i, i < tzData.length →
      (tzData.map Prod.snd).getD i [] ∈ tzData.map Prod.snd := by
    intro i hi
    rw [List.getD_eq_getElem _ _ (by simpa using hi)]
    exact List.getElem_mem _
  have hsubprops : ∀ i, i < tzData.length → (tzData.map Prod.snd).getD i [] ≠ [] ∧
      List.Chain' (fun p q : ℚ × ℚ => p.1 < q.1) ((tzData.map Prod.snd).getD i []) := by
    intro i hi
    obtain ⟨kv, hkv, he⟩ := List.mem_map.mp (hsubget i hi)
    rw [← he]
    exact hvalid kv hkv
  have hts_memsub : ∀ i, i < tzData.length →
      ∀ p ∈ (tzData.map Prod.snd).getD i [], p.1 ∈ sortedTimes tzData := by
    intro i hi p hp
    rw [sortedTimes_mem]
    exact List.mem_map.mpr ⟨p, List.mem_flatten.mpr ⟨_, hsubget i hi, hp⟩, rfl⟩
  have hsubts : ∀ i, i < tzData.length → ∀ p ∈ (tzData.map Prod.snd).getD i [],
      ∃ j, j < STsegs.length ∧ p.1 ∈ (STsegs.getD j []).map Prod.fst := by
    intro i hi p hp
    exact part_of_time STsegs _ hfin_flat _ (hts_memsub i hi p hp)
  have ht0mem : ∀ i, i < tzData.length →
      tAt ((tzData.map Prod.snd).getD i []) 0 ∈
        ((tzData.map Prod.snd).getD i []).map Prod.fst := by
    intro i hi
    exact tAt_mem_times _ 0 (List.length_pos.mpr (hsubprops i hi).1)
  have hassign : ∀ i, i < tzData.length → ∃ g, g < STsegs.length ∧
      tAt ((tzData.map Prod.snd).getD i []) 0 ∈ (STsegs.getD g []).map Prod.fst := by
    intro i hi
    obtain ⟨p, hp, hep⟩ := List.mem_map.mp (ht0mem i hi)
    obtain ⟨g, hg, hmem⟩ := part_of_time STsegs _ hfin_flat _ (hts_memsub i hi p hp)
    exact ⟨g, hg, hep ▸ hmem⟩
  have hsplit : ∀ i, i < tzData.length → ∀ k, 0 < k → k < STsegs.length →
      (∀ p ∈ (tzData.map Prod.snd).getD i [], tAt (STsegs.getD k []) 0 ≤ p.1) ∨
      (∀ p ∈ (tzData.map Prod.snd).getD i [], p.1 < tAt (STsegs.getD k []) 0) := by
    intro i hi k hk0 hkL
    exact hfin_bound k hk0 hkL i (by simpa using hi)
  have hasg_getD : ∀ i, i < tzData.length → ∃ g, g < STsegs.length ∧
      ((tzData.map Prod.snd).map (fun sub =>
        if sub.isEmpty then none else segIdxFor STsegs (tAt sub 0))).getD i none = some g ∧
      tAt ((tzData.map Prod.snd).getD i []) 0 ∈ (STsegs.getD g []).map Prod.fst := by
    intro i hi
    obtain ⟨g, hgL, hmem⟩ := hassign i hi
    refine ⟨g, hgL, ?_, hmem⟩
    have hiM : i < (tzData.map Prod.snd).length := by simpa using hi
    rw [List.getD_eq_getElem _ _ (by simpa using hi), List.getElem_map]
    have he : (tzData.map Prod.snd)[i] =
        (tzData.map Prod.snd).getD i [] := (List.getD_eq_getElem _ _ hiM).symm
    rw [he]
    rw [if_neg (by
      rw [List.isEmpty_eq_false.mpr (hsubprops i hi).1]
      exact Bool.false_ne_true)]
    exact segIdxFor_covering STsegs hfin_nonil hparts hcross _ g hgL hmem
  have hasg_unique : ∀ i g g2, i < tzData.length → g < STsegs.length → g2 < STsegs.length →
      tAt ((tzData.map Prod.snd).getD i []) 0 ∈ (STsegs.getD g []).map Prod.fst →
      tAt ((tzData.map Prod.snd).getD i []) 0 ∈ (STsegs.getD g2 []).map Prod.fst →
      g = g2 := by
    intro i g g2 hi hg hg2 hm1 hm2
    by_contra hgg
    rcases Nat.lt_or_ge g g2 with h | h
    · exact absurd (hcr g g2 h hg2 _ hm1 _ hm2) (lt_irrefl _)
    · have h2 : g2 < g := by omega
      exact absurd (hcr g2 g h2 hg _ hm2 _ hm1) (lt_irrefl _)
  have hsdz : ∀ i g, i < tzData.length → g < STsegs.length →
      tAt ((tzData.map Prod.snd).getD i []) 0 ∈ (STsegs.getD g []).map Prod.fst →
      ∃ r : ℚ × ℚ, seriesDz ((tzData.map Prod.snd).getD i []) (STsegs.getD g []) aD =
        some r := by
    intro i g hi hg ht0
    unfold seriesDz
    by_cases h1 : ((tzData.map Prod.snd).getD i []).length = 1
    · rw [if_pos h1]
      apply singletonDz_some
      obtain ⟨q, hq, heq⟩ := List.mem_map.mp ht0
      exact ⟨q, hq, heq⟩
    · rw [if_neg h1]
      rcases hpart : STsegs.getD g [] with _ | ⟨q, rest⟩
      · exact absurd hpart (hne g hg)
      · dsimp only
        by_cases hr : (dzStep ((tzData.map Prod.snd).getD i []) aD rest 0 q.1 q.2 0 0).2 > 0
        · rw [if_pos hr]
          exact ⟨_, rfl⟩
        · rw [if_neg hr]
          exact ⟨_, rfl⟩
  have hZlen : (List.zipWith (fun k sa => (k, sa.1, sa.2)) (tzData.map Prod.fst)
      ((tzData.map Prod.snd).zip ((tzData.map Prod.snd).map (fun sub =>
        if sub.isEmpty then none else segIdxFor STsegs (tAt sub 0))))).length
      = tzData.length := by
    simp [List.length_zipWith, List.length_zip]
  have hZel : ∀ i, i < tzData.length →
      (List.zipWith (fun k sa => (k, sa.1, sa.2)) (tzData.map Prod.fst)
        ((tzData.map Prod.snd).zip ((tzData.map Prod.snd).map (fun sub =>
          if sub.isEmpty then none else segIdxFor STsegs (tAt sub 0))))).getD i ("", [], none)
      = ((tzData.map Prod.fst).getD i "", (tzData.map Prod.snd).getD i [],
          ((tzData.map Prod.snd).map (fun sub =>
            if sub.isEmpty then none else segIdxFor STsegs (tAt sub 0))).getD i none) := by
    intro i hi
    rw [List.getD_eq_getElem _ _ (by rw [hZlen]; exact hi)]
    rw [List.getElem_zipWith]
    rw [List.getElem_zip]
    rw [List.getD_eq_getElem _ _ (by simpa using hi),
      List.getD_eq_getElem _ _ (by simpa using hi),
      List.getD_eq_getElem _ _ (by simpa using hi)]
  obtain ⟨entries, hcollect, hkeys_eq, hentries_mem⟩ :=
    collectDz_all_some aD STsegs
      (List.zipWith (fun k sa => (k, sa.1, sa.2)) (tzData.map Prod.fst)
        ((tzData.map Prod.snd).zip ((tzData.map Prod.snd).map (fun sub =>
          if sub.isEmpty then none else segIdxFor STsegs (tAt sub 0)))))
      (by
        intro e he
        obtain ⟨i, hi, hgeti⟩ := List.getElem_of_mem he
        have hiN : i < tzData.length := by rw [← hZlen]; exact hi
        have he2 : e = ((tzData.map Prod.fst).getD i "", (tzData.map Prod.snd).getD i [],
            ((tzData.map Prod.snd).map (fun sub =>
              if sub.isEmpty then none else segIdxFor STsegs (tAt sub 0))).getD i none) := by
          rw [← hZel i hiN, List.getD_eq_getElem _ _ hi, hgeti]
        obtain ⟨g, hgL, hgeq, hmem⟩ := hasg_getD i hiN
        obtain ⟨r, hr⟩ := hsdz i g hiN hgL hmem
        refine ⟨g, ?_, r, ?_⟩
        · rw [he2]
          exact hgeq
        · rw [he2]
          exact hr)
  have hwit_idx : ∀ gk, gk < STsegs.length → ∃ i, i < tzData.length ∧
      ((tzData.map Prod.snd).map (fun sub =>
        if sub.isEmpty then none else segIdxFor STsegs (tAt sub 0))).getD i none =
        some gk := by
    intro gk hgk
    have hak_ts : tAt (STsegs.getD gk []) 0 ∈ sortedTimes tzData := by
      rw [← hfin_flat]
      apply List.mem_flatten.mpr
      refine ⟨(STsegs.getD gk []).map Prod.fst, ?_, tAt_mem_times _ 0
        (List.length_pos.mpr (hne gk hgk))⟩
      have hgkM : gk < (STsegs.map (fun sg => sg.map Prod.fst)).length := by simpa using hgk
      have he4 : (STsegs.getD gk []).map Prod.fst =
          (STsegs.map (fun sg => sg.map Prod.fst))[gk] := by
        rw [List.getElem_map, List.getD_eq_getElem _ _ hgk]
      rw [he4]
      exact List.getElem_mem _
    rw [sortedTimes_mem] at hak_ts
    obtain ⟨p, hp, hep⟩ := List.mem_map.mp hak_ts
    obtain ⟨sub, hsubm, hpsub⟩ := List.mem_flatten.mp hp
    obtain ⟨i, hi, hgeti⟩ := List.getElem_of_mem hsubm
    have hiN : i < tzData.length := by simpa using hi
    have hsubeq : sub = (tzData.map Prod.snd).getD i [] := by
      rw [List.getD_eq_getElem _ _ hi, hgeti]
    subst hsubeq
    have hcontain : tAt (STsegs.getD gk []) 0 ∈
        ((tzData.map Prod.snd).getD i []).map Prod.fst :=
      List.mem_map.mpr ⟨p, hpsub, hep⟩
    have ht0eq : tAt ((tzData.map Prod.snd).getD i []) 0 = tAt (STsegs.getD gk []) 0 :=
      first_time_at_boundary STsegs hfin_nonil hparts hcross _ hfin_flat hts_pw
        _ (hsubprops i hiN).1 (hsubprops i hiN).2 (hsplit i hiN)
        (by
          obtain ⟨q, hq, heq⟩ := List.mem_map.mp (ht0mem i hiN)
          exact heq ▸ hts_memsub i hiN q hq)
        gk hgk hcontain
    obtain ⟨g, hgL, hgeq, hmem⟩ := hasg_getD i hiN
    have hggk : g = gk := by
      apply hasg_unique i g gk hiN hgL hgk hmem
      rw [ht0eq]
      exact tAt_mem_times _ 0 (List.length_pos.mpr (hne gk hgk))
    subst hggk
    exact ⟨i, hiN, hgeq⟩
  have hperpart : ∀ gk, gk < STsegs.length → ∃ e ∈ entries, e.iseg = gk := by
    intro gk hgk
    obtain ⟨i, hiN, hgeq⟩ := hwit_idx gk hgk
    have hZmem : ((tzData.map Prod.fst).getD i "", (tzData.map Prod.snd).getD i [],
        ((tzData.map Prod.snd).map (fun sub =>
          if sub.isEmpty then none else segIdxFor STsegs (tAt sub 0))).getD i none) ∈
        (List.zipWith (fun k sa => (k, sa.1, sa.2)) (tzData.map Prod.fst)
          ((tzData.map Prod.snd).zip ((tzData.map Prod.snd).map (fun sub =>
            if sub.isEmpty then none else segIdxFor STsegs (tAt sub 0))))) := by
      rw [← hZel i hiN, List.getD_eq_getElem _ _ (by rw [hZlen]; exact hiN)]
      exact List.getElem_mem _
    obtain ⟨ent, hent, hkey, hiseg⟩ := hentries_mem _ hZmem
    refine ⟨ent, hent, ?_⟩
    have : some gk = some ent.iseg := by rw [← hgeq]; exact hiseg
    injection this with h2
    exact h2.symm
  obtain ⟨avgs, havg, havglen⟩ := segAvgs_ok entries STsegs.length
    (fun k hk => segSums_count_pos _ _ (hperpart k hk))
  have hasg_all : ∀ j, j < ((tzData.map Prod.snd).map (fun sub =>
      if sub.isEmpty then none else segIdxFor STsegs (tAt sub 0))).length →
      ∃ g, ((tzData.map Prod.snd).map (fun sub =>
        if sub.isEmpty then none else segIdxFor STsegs (tAt sub 0))).getD j none = some g := by
    intro j hj
    have hjN : j < tzData.length := by simpa using hj
    obtain ⟨g, -, hgeq, -⟩ := hasg_getD j hjN
    exact ⟨g, hgeq⟩
  obtain ⟨hsm1, hsm2⟩ := segMap_build (fun i => MEDIAN_SEGMENT ++ Nat.repr i)
    (tzData.map Prod.fst)
    ((tzData.map Prod.snd).map (fun sub =>
      if sub.isEmpty then none else segIdxFor STsegs (tAt sub 0)))
    (by rw [List.length_map, List.length_map, List.length_map]) hasg_all
  refine ⟨entries, avgs, hcollect, havg, havglen, hsm1, ?_, ?_⟩
  · intro gk hgk
    obtain ⟨i, hiN, hgeq⟩ := hwit_idx gk hgk
    exact ⟨(tzData.map Prod.fst).getD i "", hsm2 i (by simpa using hiN) gk hgeq⟩
  · intro idx hidx
    obtain ⟨g, hgL, hgeq, hmem⟩ := hasg_getD idx hidx
    refine ⟨g, hgL, hne g hgL, ?_, ?_⟩
    · exact hsm2 idx (by simpa using hidx) g hgeq
    · exact series_range_in_part STsegs hfin_nonil hparts hcross _
        (hsubprops idx hidx).1 (hsubprops idx hidx).2 (hsplit idx hidx)
        (hsubts idx hidx) g hgL hmem

/-- Full partition and well-formedness facts of a successful AnalyzeTZSeries
call on a valid non-empty input collection. -/
theorem partition_main (tzData : TzMap) (afterDate : Option ℚ) (tol : ℚ)
    (htol : 0 ≤ tol) (hne : tzData ≠ [])
    (hvalid : ∀ kv ∈ tzData, kv.2 ≠ [] ∧ List.Chain' (fun p q : ℚ × ℚ => p.1 < q.1) kv.2) :
    ∃ tz2 segMap dzOut, AnalyzeTZSeries tzData afterDate tol = .ok (tz2, segMap, dzOut) ∧
      segMap.map Prod.fst = tzData.map Prod.fst ∧
      (∀ i, i + 1 < tz2.length → ∃ key, (key, MEDIAN_SEGMENT ++ Nat.repr i) ∈ segMap) ∧
      (∀ key sub, (key, sub) ∈ tzData → ∃ g C,
        (key, MEDIAN_SEGMENT ++ Nat.repr g) ∈ segMap ∧
        (MEDIAN_SEGMENT ++ Nat.repr g, C) ∈ tz2 ∧ C ≠ [] ∧
        tAt C 0 ≤ tAt sub 0 ∧ tAt sub (sub.length - 1) ≤ tAt C (C.length - 1)) ∧
      (∀ kv ∈ tz2, kv.1 ≠ MEDIAN → kv.2 ≠ [] ∧
        List.Chain' (fun p q : ℚ × ℚ => p.1 < q.1) kv.2) := by
  have hsubs : tzData.map (fun kv => dedupTZ kv.2) = tzData.map Prod.snd := by
    apply List.map_congr_left
    intro kv hkv
    exact dedupTZ_distinct _
      (((List.chain'_map Prod.fst).mpr (hvalid kv hkv).2).imp (fun _ _ h => ne_of_lt h))
  have hts_ch := sortedTimes_chain tzData
  have hts_ne : sortedTimes tzData ≠ [] := by
    obtain ⟨kv0, rest0, he0⟩ := List.exists_cons_of_ne_nil hne
    intro hnil
    have hkv0 : kv0 ∈ tzData := he0 ▸ List.mem_cons_self _ _
    obtain ⟨p0, prest, hep⟩ := List.exists_cons_of_ne_nil (hvalid kv0 hkv0).1
    have hmem0 : p0.1 ∈ sortedTimes tzData := by
      rw [sortedTimes_mem]
      exact List.mem_map.mpr ⟨p0, List.mem_flatten.mpr ⟨kv0.2,
        List.mem_map.mpr ⟨kv0, hkv0, rfl⟩, hep ▸ List.mem_cons_self _ _⟩, rfl⟩
    rw [hnil] at hmem0
    exact absurd hmem0 (List.not_mem_nil _)
  obtain ⟨th, trest, hts_eq⟩ := List.exists_cons_of_ne_nil hts_ne
  have hsub_ne2 : ∀ sub ∈ tzData.map Prod.snd, sub ≠ [] := by
    intro sub hsub
    obtain ⟨kv, hkv, he⟩ := List.mem_map.mp hsub
    exact he ▸ (hvalid kv hkv).1
  have hsub_ch2 : ∀ sub ∈ tzData.map Prod.snd,
      List.Chain' (fun p q : ℚ × ℚ => p.1 < q.1) sub := by
    intro sub hsub
    obtain ⟨kv, hkv, he⟩ := List.mem_map.mp hsub
    exact he ▸ (hvalid kv hkv).2
  have hmem2 : ∀ sub ∈ tzData.map Prod.snd, ∀ p ∈ sub, p.1 ∈ sortedTimes tzData := by
    intro sub hsub p hp
    rw [sortedTimes_mem]
    exact List.mem_map.mpr ⟨p, List.mem_flatten.mpr ⟨sub, hsub, hp⟩, rfl⟩
  obtain ⟨hfNE, hfNONIL, hfFLAT, hfBOUND⟩ := mainLoop_invariant
    (tzData.map Prod.snd) tol htol (sortedTimes tzData) hts_ch hsub_ne2 hsub_ch2 hmem2
    trest [th]
    { idxs := (tzData.map Prod.snd).map (fun _ => 0), t1 := th, z1 := 0,
      segs := [[(th, 0)]] }
    (by rw [hts_eq]; rfl)
    rfl
    (by rw [List.length_map])
    (by
      intro i hi
      have hz : ((tzData.map Prod.snd).map (fun _ => 0)).getD i 0 = 0 := by
        rw [List.getD_eq_getElem _ _ (by simpa using hi), List.getElem_map]
      rw [hz]
      exact ⟨Nat.zero_le _, Nat.zero_le _⟩)
    (by simp)
    (by simp)
    (by simp)
    (by
      intro k hk0 hk1 i hi
      simp only [List.length_singleton] at hk1
      omega)
  obtain ⟨entries, avgs, hcollect, havg, havglen, hsm1, hsm2, hsm3⟩ :=
    partition_core tzData (afterDate.getD (1 / 10000000000)) hvalid
      ((mainLoop (tzData.map Prod.snd) tol trest
        { idxs := (tzData.map Prod.snd).map (fun _ => 0), t1 := th, z1 := 0,
          segs := [[(th, 0)]] }).segs)
      hfNONIL hfFLAT hfBOUND
  unfold AnalyzeTZSeries
  rw [if_neg (fun h => hne (List.length_eq_zero.mp h))]
  dsimp only
  rw [hsubs]
  rw [hts_eq]
  dsimp only
  rw [hcollect]
  dsimp only
  rw [havg]
  dsimp only
  have hpwflat2 : List.Pairwise (· < ·)
      (((mainLoop (tzData.map Prod.snd) tol trest
        { idxs := (tzData.map Prod.snd).map (fun _ => 0), t1 := th, z1 := 0,
          segs := [[(th, 0)]] }).segs.map (fun sg => sg.map Prod.fst)).flatten) := by
    rw [hfFLAT]
    exact List.chain'_iff_pairwise.mp hts_ch
  obtain ⟨hparts2, -⟩ := List.pairwise_flatten.mp hpwflat2
  refine ⟨_, _, _, rfl, hsm1, ?_, ?_, ?_⟩
  · intro i hilen
    simp only [List.length_cons, List.length_map, List.enum_length] at hilen
    have hiL : i < (mainLoop (tzData.map Prod.snd) tol trest
        { idxs := (tzData.map Prod.snd).map (fun _ => 0), t1 := th, z1 := 0,
          segs := [[(th, 0)]] }).segs.length := by
      rw [List.length_zipWith, havglen, min_self] at hilen
      omega
    obtain ⟨key, hkey⟩ := hsm2 i hiL
    exact ⟨key, hkey⟩
  · intro key sub hmemkv
    obtain ⟨idx, hidx, hgetidx⟩ := List.getElem_of_mem hmemkv
    have hkeyidx : (tzData.map Prod.fst).getD idx "" = key := by
      rw [List.getD_eq_getElem _ _ (by simpa using hidx), List.getElem_map, hgetidx]
    have hsubidx : (tzData.map Prod.snd).getD idx [] = sub := by
      rw [List.getD_eq_getElem _ _ (by simpa using hidx), List.getElem_map, hgetidx]
    obtain ⟨g, hgL, hgne, hsmem, hrange⟩ := hsm3 idx hidx
    have hsegsOutLen : (List.zipWith (fun seg avg => seg.map (fun tz : ℚ × ℚ =>
        (tz.1, tz.2 - avg)))
        (mainLoop (tzData.map Prod.snd) tol trest
          { idxs := (tzData.map Prod.snd).map (fun _ => 0), t1 := th, z1 := 0,
            segs := [[(th, 0)]] }).segs avgs).length =
        (mainLoop (tzData.map Prod.snd) tol trest
          { idxs := (tzData.map Prod.snd).map (fun _ => 0), t1 := th, z1 := 0,
            segs := [[(th, 0)]] }).segs.length := by
      rw [List.length_zipWith, havglen, min_self]
    have hCdef : (List.zipWith (fun seg avg => seg.map (fun tz : ℚ × ℚ =>
        (tz.1, tz.2 - avg)))
        (mainLoop (tzData.map Prod.snd) tol trest
          { idxs := (tzData.map Prod.snd).map (fun _ => 0), t1 := th, z1 := 0,
            segs := [[(th, 0)]] }).segs avgs).getD g [] =
        ((mainLoop (tzData.map Prod.snd) tol trest
          { idxs := (tzData.map Prod.snd).map (fun _ => 0), t1 := th, z1 := 0,
            segs := [[(th, 0)]] }).segs.getD g []).map (fun tz : ℚ × ℚ =>
          (tz.1, tz.2 - avgs.getD g 0)) := by
      rw [List.getD_eq_getElem _ _ (by rw [hsegsOutLen]; exact hgL)]
      rw [List.getElem_zipWith]
      rw [List.getD_eq_getElem _ _ hgL, List.getD_eq_getElem _ _ (by rw [havglen]; exact hgL)]
    refine ⟨g, (List.zipWith (fun seg avg => seg.map (fun tz : ℚ × ℚ =>
        (tz.1, tz.2 - avg)))
        (mainLoop (tzData.map Prod.snd) tol trest
          { idxs := (tzData.map Prod.snd).map (fun _ => 0), t1 := th, z1 := 0,
            segs := [[(th, 0)]] }).segs avgs).getD g [], ?_, ?_, ?_, ?_, ?_⟩
    · rw [← hkeyidx]
      exact hsmem
    · apply List.mem_cons_of_mem
      apply List.mem_map.mpr
      refine ⟨(g, (List.zipWith (fun seg avg => seg.map (fun tz : ℚ × ℚ =>
          (tz.1, tz.2 - avg)))
          (mainLoop (tzData.map Prod.snd) tol trest
            { idxs := (tzData.map Prod.snd).map (fun _ => 0), t1 := th, z1 := 0,
              segs := [[(th, 0)]] }).segs avgs).getD g []), ?_, rfl⟩
      have := mem_enum_self (List.zipWith (fun seg avg => seg.map (fun tz : ℚ × ℚ =>
          (tz.1, tz.2 - avg)))
          (mainLoop (tzData.map Prod.snd) tol trest
            { idxs := (tzData.map Prod.snd).map (fun _ => 0), t1 := th, z1 := 0,
              segs := [[(th, 0)]] }).segs avgs) g (by rw [hsegsOutLen]; exact hgL)
      rw [← List.getD_eq_getElem _ _ (by rw [hsegsOutLen]; exact hgL)] at this
      exact this
    · rw [hCdef]
      intro hnil
      exact hgne (List.map_eq_nil_iff.mp hnil)
    · rw [hCdef]
      have hlp : 0 < ((mainLoop (tzData.map Prod.snd) tol trest
          { idxs := (tzData.map Prod.snd).map (fun _ => 0), t1 := th, z1 := 0,
            segs := [[(th, 0)]] }).segs.getD g []).length := List.length_pos.mpr hgne
      rw [mapShift_tAt _ (fun z => z - avgs.getD g 0) 0 hlp]
      rw [hsubidx] at hrange
      have hsne : sub ≠ [] := by
        have := hmemkv
        exact (hvalid (key, sub) this).1
      have hsub0 : (sub.getD 0 (0, 0)) ∈ sub := by
        rw [List.getD_eq_getElem _ _ (List.length_pos.mpr hsne)]
        exact List.getElem_mem _
      exact (hrange _ hsub0).1
    · rw [hCdef]
      rw [List.length_map]
      have hlp : 0 < ((mainLoop (tzData.map Prod.snd) tol trest
          { idxs := (tzData.map Prod.snd).map (fun _ => 0), t1 := th, z1 := 0,
            segs := [[(th, 0)]] }).segs.getD g []).length := List.length_pos.mpr hgne
      rw [mapShift_tAt _ (fun z => z - avgs.getD g 0) _ (by omega)]
      rw [hsubidx] at hrange
      have hsne : sub ≠ [] := (hvalid (key, sub) hmemkv).1
      have hsublast : (sub.getD (sub.length - 1) (0, 0)) ∈ sub := by
        rw [List.getD_eq_getElem _ _ (by
          have := List.length_pos.mpr hsne
          omega)]
        exact List.getElem_mem _
      exact (hrange _ hsublast).2
  · intro kv hkv hkvne
    rcases List.mem_cons.mp hkv with he | he
    · exact absurd (by rw [he]) hkvne
    · obtain ⟨si, hsi, hsie⟩ := List.mem_map.mp he
      have hjlen := List.fst_lt_of_mem_enum hsi
      have hsegsOutLen2 : (List.zipWith (fun seg avg => seg.map (fun tz : ℚ × ℚ =>
          (tz.1, tz.2 - avg)))
          (mainLoop (tzData.map Prod.snd) tol trest
            { idxs := (tzData.map Prod.snd).map (fun _ => 0), t1 := th, z1 := 0,
              segs := [[(th, 0)]] }).segs avgs).length =
          (mainLoop (tzData.map Prod.snd) tol trest
            { idxs := (tzData.map Prod.snd).map (fun _ => 0), t1 := th, z1 := 0,
              segs := [[(th, 0)]] }).segs.length := by
        rw [List.length_zipWith, havglen, min_self]
      have hjL : si.1 < (mainLoop (tzData.map Prod.snd) tol trest
          { idxs := (tzData.map Prod.snd).map (fun _ => 0), t1 := th, z1 := 0,
            segs := [[(th, 0)]] }).segs.length := by
        rw [← hsegsOutLen2]
        exact hjlen
      have hval := List.mem_enum_iff_getElem?.mp hsi
      rw [List.getElem?_eq_getElem hjlen] at hval
      injection hval with hval
      have hgd : (List.zipWith (fun seg avg => seg.map (fun tz : ℚ × ℚ =>
          (tz.1, tz.2 - avg)))
          (mainLoop (tzData.map Prod.snd) tol trest
            { idxs := (tzData.map Prod.snd).map (fun _ => 0), t1 := th, z1 := 0,
              segs := [[(th, 0)]] }).segs avgs)[si.1] =
          ((mainLoop (tzData.map Prod.snd) tol trest
            { idxs := (tzData.map Prod.snd).map (fun _ => 0), t1 := th, z1 := 0,
              segs := [[(th, 0)]] }).segs.getD si.1 []).map (fun tz : ℚ × ℚ =>
            (tz.1, tz.2 - avgs.getD si.1 0)) := by
        rw [List.getElem_zipWith]
        rw [List.getD_eq_getElem _ _ hjL,
          List.getD_eq_getElem _ _ (by rw [havglen]; exact hjL)]
      have hkv2 : kv.2 = ((mainLoop (tzData.map Prod.snd) tol trest
          { idxs := (tzData.map Prod.snd).map (fun _ => 0), t1 := th, z1 := 0,
            segs := [[(th, 0)]] }).segs.getD si.1 []).map (fun tz : ℚ × ℚ =>
          (tz.1, tz.2 - avgs.getD si.1 0)) := by
        rw [← hsie]
        dsimp only
        rw [← hval, hgd]
      have hpne : (mainLoop (tzData.map Prod.snd) tol trest
          { idxs := (tzData.map Prod.snd).map (fun _ => 0), t1 := th, z1 := 0,
            segs := [[(th, 0)]] }).segs.getD si.1 [] ≠ [] := by
        intro he2
        apply hfNONIL
        rw [List.getD_eq_getElem _ _ hjL] at he2
        have hmm := List.getElem_mem (l := (mainLoop (tzData.map Prod.snd) tol trest
          { idxs := (tzData.map Prod.snd).map (fun _ => 0), t1 := th, z1 := 0,
            segs := [[(th, 0)]] }).segs) (h := hjL)
        rw [he2] at hmm
        exact hmm
      constructor
      · rw [hkv2]
        intro hnil2
        exact hpne (List.map_eq_nil_iff.mp hnil2)
      · rw [hkv2]
        have hts_part : List.Pairwise (· < ·)
            (((mainLoop (tzData.map Prod.snd) tol trest
              { idxs := (tzData.map Prod.snd).map (fun _ => 0), t1 := th, z1 := 0,
                segs := [[(th, 0)]] }).segs.getD si.1 []).map Prod.fst) := by
          apply hparts2
          have hjM : si.1 < ((mainLoop (tzData.map Prod.snd) tol trest
              { idxs := (tzData.map Prod.snd).map (fun _ => 0), t1 := th, z1 := 0,
                segs := [[(th, 0)]] }).segs.map (fun sg => sg.map Prod.fst)).length := by
            simpa using hjL
          have he3 : ((mainLoop (tzData.map Prod.snd) tol trest
              { idxs := (tzData.map Prod.snd).map (fun _ => 0), t1 := th, z1 := 0,
                segs := [[(th, 0)]] }).segs.getD si.1 []).map Prod.fst =
              ((mainLoop (tzData.map Prod.snd) tol trest
                { idxs := (tzData.map Prod.snd).map (fun _ => 0), t1 := th, z1 := 0,
                  segs := [[(th, 0)]] }).segs.map
                (fun sg => sg.map Prod.fst))[si.1] := by
            rw [List.getElem_map, List.getD_eq_getElem _ _ hjL]
          rw [he3]
          exact List.getElem_mem _
        have htimes : (((mainLoop (tzData.map Prod.snd) tol trest
            { idxs := (tzData.map Prod.snd).map (fun _ => 0), t1 := th, z1 := 0,
              segs := [[(th, 0)]] }).segs.getD si.1 []).map (fun tz : ℚ × ℚ =>
            (tz.1, tz.2 - avgs.getD si.1 0))).map Prod.fst =
            ((mainLoop (tzData.map Prod.snd) tol trest
              { idxs := (tzData.map Prod.snd).map (fun _ => 0), t1 := th, z1 := 0,
                segs := [[(th, 0)]] }).segs.getD si.1 []).map Prod.fst := by
          rw [List.map_map]
          exact List.map_congr_left (fun p _ => rfl)
        apply (List.chain'_map Prod.fst).mp
        rw [htimes]
        exact List.chain'_iff_pairwise.mpr hts_part

/-- C3: for every non-empty input collection accepted by AnalyzeTZSeries
(each series non-empty and strictly sorted by time, tolerance nonnegative)
the call succeeds and the segment assignment is a partition: every series key
is assigned to exactly one segment label (the returned map lists every input
key once, in order), no detected segment is left without a member series, and
each series' full time range lies inside its assigned segment's consensus
time range (each segment curve being non-empty and strictly sorted). -/
theorem analyzeTZSeries_partition (tzData : TzMap) (afterDate : Option ℚ) (tol : ℚ)
    (htol : 0 ≤ tol) (hne : tzData ≠ [])
    (hvalid : ∀ kv ∈ tzData, kv.2 ≠ [] ∧ List.Chain' (fun p q : ℚ × ℚ => p.1 < q.1) kv.2) :
    ∃ tz2 segMap dzOut, AnalyzeTZSeries tzData afterDate tol = .ok (tz2, segMap, dzOut) ∧
      segMap.map Prod.fst = tzData.map Prod.fst ∧
      (∀ i, i + 1 < tz2.length → ∃ key, (key, MEDIAN_SEGMENT ++ Nat.repr i) ∈ segMap) ∧
      (∀ key sub, (key, sub) ∈ tzData → ∃ g C,
        (key, MEDIAN_SEGMENT ++ Nat.repr g) ∈ segMap ∧
        (MEDIAN_SEGMENT ++ Nat.repr g, C) ∈ tz2 ∧ C ≠ [] ∧
        tAt C 0 ≤ tAt sub 0 ∧ tAt sub (sub.length - 1) ≤ tAt C (C.length - 1)) ∧
      (∀ kv ∈ tz2, kv.1 ≠ MEDIAN → kv.2 ≠ [] ∧
        List.Chain' (fun p q : ℚ × ℚ => p.1 < q.1) kv.2) :=
  partition_main tzData afterDate tol htol hne hvalid

/-- Witness for the partition theorem at a concrete two-segment input. -/
theorem analyzeTZSeries_partition_witness :
    ((0 : ℚ) ≤ 30 ∧
      ([("a", [((0 : ℚ), (1 : ℚ)), (10, 2)]), ("b", [(100, 5), (110, 6)])] : TzMap) ≠ [] ∧
      (∀ kv ∈ ([("a", [((0 : ℚ), (1 : ℚ)), (10, 2)]), ("b", [(100, 5), (110, 6)])] : TzMap),
        kv.2 ≠ [] ∧ List.Chain' (fun p q : ℚ × ℚ => p.1 < q.1) kv.2)) ∧
    (∃ tz2 segMap dzOut,
      AnalyzeTZSeries [("a", [(0, 1), (10, 2)]), ("b", [(100, 5), (110, 6)])] none 30 =
        .ok (tz2, segMap, dzOut) ∧
      segMap.map Prod.fst =
        ([("a", [((0 : ℚ), (1 : ℚ)), (10, 2)]), ("b", [(100, 5), (110, 6)])] : TzMap).map
          Prod.fst ∧
      (∀ i, i + 1 < tz2.length → ∃ key, (key, MEDIAN_SEGMENT ++ Nat.repr i) ∈ segMap) ∧
      (∀ key sub,
        (key, sub) ∈ ([("a", [((0 : ℚ), (1 : ℚ)), (10, 2)]),
          ("b", [(100, 5), (110, 6)])] : TzMap) → ∃ g C,
        (key, MEDIAN_SEGMENT ++ Nat.repr g) ∈ segMap ∧
        (MEDIAN_SEGMENT ++ Nat.repr g, C) ∈ tz2 ∧ C ≠ [] ∧
        tAt C 0 ≤ tAt sub 0 ∧ tAt sub (sub.length - 1) ≤ tAt C (C.length - 1)) ∧
      (∀ kv ∈ tz2, kv.1 ≠ MEDIAN → kv.2 ≠ [] ∧
        List.Chain' (fun p q : ℚ × ℚ => p.1 < q.1) kv.2)) := by
  have hval : ∀ kv ∈ ([("a", [((0 : ℚ), (1 : ℚ)), (10, 2)]),
      ("b", [(100, 5), (110, 6)])] : TzMap),
      kv.2 ≠ [] ∧ List.Chain' (fun p q : ℚ × ℚ => p.1 < q.1) kv.2 := by
    intro kv hkv
    rcases List.mem_cons.mp hkv with he | he
    · subst he
      exact ⟨List.cons_ne_nil _ _,
        List.chain'_cons.mpr ⟨by norm_num, List.chain'_singleton _⟩⟩
    · rcases List.mem_singleton.mp he with he2
      subst he2
      exact ⟨List.cons_ne_nil _ _,
        List.chain'_cons.mpr ⟨by norm_num, List.chain'_singleton _⟩⟩
  exact ⟨⟨by norm_num, List.cons_ne_nil _ _, hval⟩,
    analyzeTZSeries_partition _ none 30 (by norm_num) (List.cons_ne_nil _ _) hval⟩

/-- C3 counterexample at the boundary: the empty collection vacuously
satisfies "each series non-empty and sorted", yet the result carries the
segment label median_segment_0 while the key → segment map is empty — a
detected segment label with zero member series. -/
theorem analyzeTZSeries_empty_segment_counterexample :
    AnalyzeTZSeries [] none 30 =
      .ok ([(MEDIAN, []), (MEDIAN_SEGMENT ++ Nat.repr 0, [])], [], []) ∧
    (MEDIAN_SEGMENT ++ Nat.repr 0, ([] : List (ℚ × ℚ))) ∈
      [(MEDIAN, ([] : List (ℚ × ℚ))), (MEDIAN_SEGMENT ++ Nat.repr 0, [])] := by
  constructor
  · rfl
  · exact List.mem_cons_of_mem _ (List.mem_singleton.mpr rfl)

/-- On a non-empty strictly ascending series, Interpolate without
extrapolation always yields a value (clamping at the ends, a well-defined
bracket inside). -/
theorem interpolate_some_asc (l : List (ℚ × ℚ)) (t : ℚ) (hne : l ≠ [])
    (hs : List.Chain' (fun p q : ℚ × ℚ => p.1 < q.1) l) :
    ∃ v, Interpolate l t false = some v := by
  unfold Interpolate
  by_cases h2 : l.length < 2
  · rw [if_pos h2]
    obtain ⟨p, rest, he⟩ := List.exists_cons_of_ne_nil hne
    subst he
    exact ⟨p.2, rfl⟩
  · rw [if_neg h2]
    push_neg at h2
    have hadj := tAt_adj_of_chain hs
    have hdesc : ¬ (tAt l 0 > tAt l (l.length - 1)) :=
      not_lt.mpr (le_of_lt (tAt_mono_of_adj hadj 0 (l.length - 1) (by omega) (by omega)))
    dsimp only
    rw [if_neg hdesc, if_neg hdesc]
    by_cases ht1 : t ≤ tAt l 0
    · rw [if_pos (show (false = false) ∧ t ≤ tAt l 0 from ⟨rfl, ht1⟩)]
      exact ⟨_, rfl⟩
    · rw [if_neg (fun hc => ht1 hc.2)]
      by_cases ht2 : t ≥ tAt l (l.length - 1)
      · rw [if_pos (show (false = false) ∧ t ≥ tAt l (l.length - 1) from ⟨rfl, ht2⟩)]
        exact ⟨_, rfl⟩
      · rw [if_neg (fun hc => ht2 hc.2)]
        obtain ⟨a, hab, ha0, ha9, halt, hage⟩ := bisect_asc_interior l t l.length 0
          (l.length - 1) (by omega) (by omega) (not_le.mp ht1)
          (le_of_lt (not_le.mp ht2))
        rw [hab]
        have hne2 : tAt l (a, a + 1).2 - tAt l (a, a + 1).1 ≠ 0 := by
          show tAt l (a + 1) - tAt l a ≠ 0
          have := hadj a (by omega)
          exact sub_ne_zero.mpr (ne_of_gt this)
        rw [if_neg hne2]
        exact ⟨_, rfl⟩

/-- The segment search of AlignAllSegmentMedian: on a well-formed median
collection it never raises, and it returns none exactly when no non-MEDIAN
entry covers refDate within the tolerance. -/
theorem findCoverSeg_ok (refDate tol : ℚ) :
    ∀ tzMed : TzMap,
    (∀ kv ∈ tzMed, kv.1 ≠ MEDIAN → kv.2 ≠ [] ∧
      List.Chain' (fun p q : ℚ × ℚ => p.1 < q.1) kv.2) →
    (findCoverSeg tzMed refDate tol = .ok none ∧
      ∀ kv ∈ tzMed, kv.1 ≠ MEDIAN →
        ¬(tAt kv.2 0 ≤ refDate + tol ∧ tAt kv.2 (kv.2.length - 1) ≥ refDate - tol)) ∨
    (∃ g l dz, findCoverSeg tzMed refDate tol = .ok (some (g, l, dz)) ∧ (g, l) ∈ tzMed ∧
      g ≠ MEDIAN ∧ tAt l 0 ≤ refDate + tol ∧ refDate - tol ≤ tAt l (l.length - 1)) := by
  intro tzMed
  induction tzMed with
  | nil =>
    intro hcur
    left
    exact ⟨rfl, by simp⟩
  | cons kv rest ih =>
    intro hcur
    obtain ⟨g, l⟩ := kv
    by_cases hg : g = MEDIAN
    · subst hg
      have hstep : findCoverSeg ((MEDIAN, l) :: rest) refDate tol =
          findCoverSeg rest refDate tol := by
        simp only [findCoverSeg]
        rw [if_pos trivial]
      rcases ih (fun kv2 h2 => hcur kv2 (List.mem_cons_of_mem _ h2)) with ⟨h1, h2⟩ | h1
      · left
        refine ⟨by rw [hstep]; exact h1, ?_⟩
        intro kv2 hkv2 hkvne
        rcases List.mem_cons.mp hkv2 with he | he
        · exact absurd (by rw [he]) hkvne
        · exact h2 kv2 he hkvne
      · right
        obtain ⟨g2, l2, dz2, heq, hmem, hi⟩ := h1
        exact ⟨g2, l2, dz2, by rw [hstep]; exact heq, List.mem_cons_of_mem _ hmem, hi⟩
    · obtain ⟨hlne, hlch⟩ := hcur (g, l) (List.mem_cons_self _ _) hg
      obtain ⟨q, lrest, hle⟩ := List.exists_cons_of_ne_nil hlne
      subst hle
      by_cases hcov : tAt (q :: lrest) 0 ≤ refDate + tol ∧
          tAt (q :: lrest) ((q :: lrest).length - 1) ≥ refDate - tol
      · right
        obtain ⟨v, hv⟩ := interpolate_some_asc (q :: lrest) refDate (List.cons_ne_nil _ _) hlch
        refine ⟨g, q :: lrest, v, ?_, List.mem_cons_self _ _, hg, hcov.1, hcov.2⟩
        simp only [findCoverSeg]
        rw [if_neg hg]
        rw [if_pos hcov, hv]
      · have hstep : findCoverSeg ((g, q :: lrest) :: rest) refDate tol =
            findCoverSeg rest refDate tol := by
          simp only [findCoverSeg]
          rw [if_neg hg]
          rw [if_neg hcov]
        rcases ih (fun kv2 h2 => hcur kv2 (List.mem_cons_of_mem _ h2)) with ⟨h1, h2⟩ | h1
        · left
          refine ⟨by rw [hstep]; exact h1, ?_⟩
          intro kv2 hkv2 hkvne
          rcases List.mem_cons.mp hkv2 with he | he
          · rw [he]
            exact hcov
          · exact h2 kv2 he hkvne
        · right
          obtain ⟨g2, l2, dz2, heq, hmem, hi⟩ := h1
          exact ⟨g2, l2, dz2, by rw [hstep]; exact heq, List.mem_cons_of_mem _ hmem, hi⟩

theorem lookup_some_of_mem_keys {β : Type} (l : List (String × β)) (k : String)
    (h : k ∈ l.map Prod.fst) : ∃ v, l.lookup k = some v := by
  induction l with
  | nil => simp at h
  | cons a rest ih =>
    by_cases he : a.1 = k
    · refine ⟨a.2, ?_⟩
      obtain ⟨a1, a2⟩ := a
      simp only at he
      subst he
      simp [List.lookup]
    · obtain ⟨a1, a2⟩ := a
      simp only at he
      have h2 : k ∈ rest.map Prod.fst := by
        rw [List.map_cons] at h
        rcases List.mem_cons.mp h with h3 | h3
        · exact absurd h3.symm he
        · exact h3
      obtain ⟨v, hv⟩ := ih h2
      refine ⟨v, ?_⟩
      simp only [List.lookup]
      rw [show (k == a1) = false from beq_eq_false_iff_ne.mpr (fun hh => he hh.symm)]
      exact hv

theorem filterMap_lookup_keys (tzData : TzMap) :
    ∀ srvys : List String,
    (∀ s ∈ srvys, ∃ v, tzData.lookup s = some v) →
    (srvys.filterMap (fun s => (tzData.lookup s).map (fun lv => (s, lv)))).map Prod.fst =
      srvys := by
  intro srvys
  induction srvys with
  | nil => intro h; rfl
  | cons s rest ih =>
    intro h
    obtain ⟨v, hv⟩ := h s (List.mem_cons_self _ _)
    rw [List.filterMap_cons, hv]
    simp only [Option.map_some']
    rw [List.map_cons, ih (fun s2 h2 => h s2 (List.mem_cons_of_mem _ h2))]

theorem applyZShift_keys (m : TzMap) (dz : ℚ) :
    (ApplyZShift m dz).map Prod.fst = m.map Prod.fst := by
  unfold ApplyZShift
  rw [List.map_map]
  exact List.map_congr_left (fun kv _ => rfl)

/-- C5: on a well-formed non-empty input (series non-empty, strictly sorted,
keys not using the reserved segment name, tolerance nonnegative)
AlignAllSegmentMedian never raises: when no detected segment's consensus
range covers refDate within the tolerance it returns the empty collection,
and otherwise it returns exactly the input series assigned to the covering
segment plus that segment's consensus curve under the reserved key. -/
theorem alignAllSegmentMedian_dichotomy (tzData : TzMap) (refDate tol : ℚ)
    (afterDate : Option ℚ) (htol : 0 ≤ tol) (hne : tzData ≠ [])
    (hvalid : ∀ kv ∈ tzData, kv.2 ≠ [] ∧ List.Chain' (fun p q : ℚ × ℚ => p.1 < q.1) kv.2)
    (hres : MEDIAN_SEGMENT ∉ tzData.map Prod.fst) :
    ∃ tz2 segMap dzOut, AnalyzeTZSeries tzData afterDate tol = .ok (tz2, segMap, dzOut) ∧
      ((AlignAllSegmentMedian tzData refDate tol afterDate = .ok [] ∧
        (∀ kv ∈ tz2, kv.1 ≠ MEDIAN →
          ¬(tAt kv.2 0 ≤ refDate + tol ∧ tAt kv.2 (kv.2.length - 1) ≥ refDate - tol))) ∨
      (∃ g0 lseg d, AlignAllSegmentMedian tzData refDate tol afterDate = .ok d ∧
        (g0, lseg) ∈ tz2 ∧ g0 ≠ MEDIAN ∧
        tAt lseg 0 ≤ refDate + tol ∧ refDate - tol ≤ tAt lseg (lseg.length - 1) ∧
        d.map Prod.fst =
          ((segMap.filter (fun kv => kv.2 = g0)).map Prod.fst) ++ [MEDIAN_SEGMENT])) := by
  obtain ⟨tz2, segMap, dzOut, hAeq, hP1, hP2, hP3, hWF⟩ :=
    partition_main tzData afterDate tol htol hne hvalid
  refine ⟨tz2, segMap, dzOut, hAeq, ?_⟩
  rcases findCoverSeg_ok refDate tol tz2 hWF with ⟨hfc, hnone⟩ |
    ⟨g0, lseg, dzv, hfc, hmem, hgne, hc1, hc2⟩
  · left
    refine ⟨?_, hnone⟩
    unfold AlignAllSegmentMedian
    rw [hAeq]
    dsimp only
    rw [hfc]
  · right
    have hsrvys_sub : ∀ s ∈ (segMap.filter (fun kv => kv.2 = g0)).map Prod.fst,
        s ∈ tzData.map Prod.fst := by
      intro s hs
      rw [← hP1]
      obtain ⟨kv, hkv, he⟩ := List.mem_map.mp hs
      exact List.mem_map.mpr ⟨kv, List.mem_of_mem_filter hkv, he⟩
    have hlk : ∀ s ∈ (segMap.filter (fun kv => kv.2 = g0)).map Prod.fst,
        ∃ v, tzData.lookup s = some v :=
      fun s hs => lookup_some_of_mem_keys _ _ (hsrvys_sub s hs)
    have hd1keys : (((segMap.filter (fun kv => kv.2 = g0)).map Prod.fst).filterMap
        (fun s => (tzData.lookup s).map (fun l => (s, l)))).map Prod.fst =
        (segMap.filter (fun kv => kv.2 = g0)).map Prod.fst :=
      filterMap_lookup_keys tzData _ hlk
    have hany : (((segMap.filter (fun kv => kv.2 = g0)).map Prod.fst).filterMap
        (fun s => (tzData.lookup s).map (fun l => (s, l)))).any
        (fun kv => kv.1 = MEDIAN_SEGMENT) = false := by
      rw [List.any_eq_false]
      intro kv hkv
      intro hdec
      have hmem2 : kv.1 ∈ (segMap.filter (fun kv => kv.2 = g0)).map Prod.fst := by
        rw [← hd1keys]
        exact List.mem_map.mpr ⟨kv, hkv, rfl⟩
      exact hres ((of_decide_eq_true hdec) ▸ hsrvys_sub _ hmem2)
    have halist : alistSetG (((segMap.filter (fun kv => kv.2 = g0)).map Prod.fst).filterMap
        (fun s => (tzData.lookup s).map (fun l => (s, l)))) MEDIAN_SEGMENT lseg =
        (((segMap.filter (fun kv => kv.2 = g0)).map Prod.fst).filterMap
          (fun s => (tzData.lookup s).map (fun l => (s, l)))) ++ [(MEDIAN_SEGMENT, lseg)] := by
      unfold alistSetG
      rw [if_neg (by rw [hany]; exact Bool.false_ne_true)]
    refine ⟨g0, lseg, ApplyZShift (alistSetG
        (((segMap.filter (fun kv => kv.2 = g0)).map Prod.fst).filterMap
          (fun s => (tzData.lookup s).map (fun l => (s, l)))) MEDIAN_SEGMENT lseg) dzv,
      ?_, hmem, hgne, hc1, hc2, ?_⟩
    · unfold AlignAllSegmentMedian
      rw [hAeq]
      dsimp only
      rw [hfc]
    · rw [halist, applyZShift_keys, List.map_append, hd1keys]
      rfl

/-- Witness for the segment-restricted alignment dichotomy at a concrete
two-segment input with the reference date inside the second segment. -/
theorem alignAllSegmentMedian_dichotomy_witness :
    ((0 : ℚ) ≤ 30 ∧
      ([("a", [((0 : ℚ), (1 : ℚ)), (10, 2)]), ("b", [(100, 5), (110, 6)])] : TzMap) ≠ [] ∧
      (∀ kv ∈ ([("a", [((0 : ℚ), (1 : ℚ)), (10, 2)]), ("b", [(100, 5), (110, 6)])] : TzMap),
        kv.2 ≠ [] ∧ List.Chain' (fun p q : ℚ × ℚ => p.1 < q.1) kv.2) ∧
      MEDIAN_SEGMENT ∉
        ([("a", [((0 : ℚ), (1 : ℚ)), (10, 2)]), ("b", [(100, 5), (110, 6)])] : TzMap).map
          Prod.fst) ∧
    (∃ tz2 segMap dzOut,
      AnalyzeTZSeries [("a", [(0, 1), (10, 2)]), ("b", [(100, 5), (110, 6)])] none 30 =
        .ok (tz2, segMap, dzOut) ∧
      ((AlignAllSegmentMedian [("a", [(0, 1), (10, 2)]), ("b", [(100, 5), (110, 6)])]
          105 30 none = .ok [] ∧
        (∀ kv ∈ tz2, kv.1 ≠ MEDIAN →
          ¬(tAt kv.2 0 ≤ 105 + 30 ∧ tAt kv.2 (kv.2.length - 1) ≥ 105 - 30))) ∨
      (∃ g0 lseg d,
        AlignAllSegmentMedian [("a", [(0, 1), (10, 2)]), ("b", [(100, 5), (110, 6)])]
          105 30 none = .ok d ∧
        (g0, lseg) ∈ tz2 ∧ g0 ≠ MEDIAN ∧
        tAt lseg 0 ≤ 105 + 30 ∧ 105 - 30 ≤ tAt lseg (lseg.length - 1) ∧
        d.map Prod.fst =
          ((segMap.filter (fun kv => kv.2 = g0)).map Prod.fst) ++ [MEDIAN_SEGMENT]))) := by
  have hval : ∀ kv ∈ ([("a", [((0 : ℚ), (1 : ℚ)), (10, 2)]),
      ("b", [(100, 5), (110, 6)])] : TzMap),
      kv.2 ≠ [] ∧ List.Chain' (fun p q : ℚ × ℚ => p.1 < q.1) kv.2 := by
    intro kv hkv
    rcases List.mem_cons.mp hkv with he | he
    · subst he
      exact ⟨List.cons_ne_nil _ _,
        List.chain'_cons.mpr ⟨by norm_num, List.chain'_singleton _⟩⟩
    · rcases List.mem_singleton.mp he with he2
      subst he2
      exact ⟨List.cons_ne_nil _ _,
        List.chain'_cons.mpr ⟨by norm_num, List.chain'_singleton _⟩⟩
  have hres : MEDIAN_SEGMENT ∉
      ([("a", [((0 : ℚ), (1 : ℚ)), (10, 2)]), ("b", [(100, 5), (110, 6)])] : TzMap).map
        Prod.fst := by decide
  exact ⟨⟨by norm_num, List.cons_ne_nil _ _, hval, hres⟩,
    alignAllSegmentMedian_dichotomy _ 105 30 none (by norm_num) (List.cons_ne_nil _ _)
      hval hres⟩

end NAP
